import Mathlib

/-! Spreadsheet engine: dependency graph, cycle check, evaluation.

A shallow embedding of `cell.cpp`, `sheet.cpp` and `formula.cpp`.

* A `Cell*` is modelled by `CellPtr`: the grid slot that owns the object together with the
  allocation stamp the object received when `std::make_unique<Cell>` created it.  A pointer whose
  stamp no longer matches the slot points to a destroyed cell.
* `std::unordered_set<Cell*>` is a duplicate-free list, iterated front to back.
* A `double` is modelled by the rational number it holds.  The extraction of a `double` from
  text rounds to the nearest binary64 value and fails on overflow, as the C++ library does; the
  arithmetic of the external AST is modelled from the spec and is exact.
* Every C++ function that reads or writes the sheet is a state transformer `M α`; its result
  `Res α` records normal return, a thrown exception (with the state the throw leaves behind),
  a dereference of a dangling pointer, or an exhausted call/loop budget.
-/

namespace Spreadsheet

/-! ## common.h : positions and errors -/

/-- C++ `struct Position { int row; int col; }`. -/
structure Position where
  row : Int
  col : Int
deriving DecidableEq, Repr

/-- Modelled from the spec: `common.h` is missing; the bound on rows is implementation-defined
("0 ≤ row < MAX_ROWS"). -/
def MAX_ROWS : Int := 16384

/-- Modelled from the spec: `common.h` is missing; the bound on columns is
implementation-defined ("0 ≤ col < MAX_COLS"). -/
def MAX_COLS : Int := 16384

/-- Modelled from the spec: `Position::IsValid`, "valid iff both are within bounds". -/
def Position.IsValid (p : Position) : Bool :=
  decide (0 ≤ p.row) && decide (0 ≤ p.col) && decide (p.row < MAX_ROWS) && decide (p.col < MAX_COLS)

/-- `Position::NONE`, the result of reading a malformed or out-of-range reference. -/
def Position.NONE : Position := ⟨-1, -1⟩

/-- `FormulaError::Category`. -/
inductive Category where
  | Ref
  | Value
  | Div0
deriving DecidableEq, Repr

/-- `FormulaError::ToString` (formula.cpp 24-35). -/
def Category.ToString : Category → String
  | .Ref => "#REF!"
  | .Value => "#VALUE!"
  | .Div0 => "#ARITHM!"

/-- Everything the code can throw. -/
inductive Exception where
  | InvalidPosition
  | CircularDependency
  | FormulaException
  | FormulaError (c : Category)
  | logic_error
  | bad_variant_access
deriving DecidableEq, Repr

/-! ## FormulaAST (external collaborator) -/

/-- Binary operators of the formula grammar. -/
inductive BinOp where
  | Add
  | Sub
  | Mul
  | Div
deriving DecidableEq, Repr

/-- Modelled from the spec: the parsed formula tree `FormulaAST` (its source is missing):
"textual expressions over real numbers with `+ - * /`, parentheses, and cell references". -/
inductive FormulaAST where
  | Number (x : ℚ)
  | CellRef (p : Position)
  | Unary (negate : Bool) (e : FormulaAST)
  | Binary (op : BinOp) (l r : FormulaAST)
deriving DecidableEq, Repr

/-- Modelled from the spec: `AST.cells()`, the referenced positions "in source order, possibly
containing duplicates and possibly containing invalid positions". -/
def FormulaAST.GetCells : FormulaAST → List Position
  | .Number _ => []
  | .CellRef p => [p]
  | .Unary _ e => e.GetCells
  | .Binary _ l r => l.GetCells ++ r.GetCells

/-! ### Tokens and parser of the formula text -/

/-- Lexical tokens of a formula. -/
inductive Token where
  | num (x : ℚ)
  | cell (p : Position)
  | op (o : BinOp)
  | lparen
  | rparen
deriving DecidableEq, Repr

/-- Value of a run of decimal digits. -/
def digitsVal (ds : List Char) : Nat :=
  ds.foldl (fun acc c => 10 * acc + (c.toNat - 48)) 0

/-- Column number of a run of capital letters (`A` = 1, `Z` = 26, `AA` = 27). -/
def lettersVal (ls : List Char) : Nat :=
  ls.foldl (fun acc c => 26 * acc + (c.toNat - 64)) 0

/-- Modelled from the spec: `Position::FromString` for a reference in A1 notation; row zero and
out-of-range references give `Position::NONE`. -/
def Position.FromLettersDigits (ls ds : List Char) : Position :=
  let p : Position := ⟨(digitsVal ds : Int) - 1, (lettersVal ls : Int) - 1⟩
  if p.IsValid then p else Position.NONE

/-- Decimal literal `digits [. digits]`; returns the value and the rest of the input. -/
def readDecimal (cs : List Char) : ℚ × List Char :=
  let ip := cs.takeWhile Char.isDigit
  let rest := cs.dropWhile Char.isDigit
  match rest with
  | '.' :: rest1 =>
    let fp := rest1.takeWhile Char.isDigit
    ((digitsVal ip : ℚ) + (digitsVal fp : ℚ) / (10 ^ fp.length : ℚ), rest1.dropWhile Char.isDigit)
  | _ => ((digitsVal ip : ℚ), rest)

/-- Lexer; `fuel` bounds the number of tokens. -/
def tokenize : Nat → List Char → Option (List Token)
  | _, [] => some []
  | 0, _ :: _ => none
  | fuel + 1, c :: cs =>
    if c.isWhitespace then tokenize fuel cs
    else if c = '+' then (tokenize fuel cs).map (Token.op .Add :: ·)
    else if c = '-' then (tokenize fuel cs).map (Token.op .Sub :: ·)
    else if c = '*' then (tokenize fuel cs).map (Token.op .Mul :: ·)
    else if c = '/' then (tokenize fuel cs).map (Token.op .Div :: ·)
    else if c = '(' then (tokenize fuel cs).map (Token.lparen :: ·)
    else if c = ')' then (tokenize fuel cs).map (Token.rparen :: ·)
    else if c.isDigit then
      let r := readDecimal (c :: cs)
      (tokenize fuel r.2).map (Token.num r.1 :: ·)
    else if c.isUpper then
      let ls := (c :: cs).takeWhile Char.isUpper
      let rest := (c :: cs).dropWhile Char.isUpper
      let ds := rest.takeWhile Char.isDigit
      if ds.isEmpty then none
      else (tokenize fuel (rest.dropWhile Char.isDigit)).map
        (Token.cell (Position.FromLettersDigits ls ds) :: ·)
    else none

mutual
/-- Recursive descent: `expr := term (('+' | '-') term)*`. -/
def parseExpr : Nat → List Token → Option (FormulaAST × List Token)
  | 0, _ => none
  | fuel + 1, ts =>
    match parseTerm fuel ts with
    | none => none
    | some (t, rest) => parseExprTail fuel t rest
/-- Continuation of `parseExpr` after an operand. -/
def parseExprTail : Nat → FormulaAST → List Token → Option (FormulaAST × List Token)
  | 0, _, _ => none
  | fuel + 1, e, ts =>
    match ts with
    | Token.op .Add :: rest =>
      match parseTerm fuel rest with
      | none => none
      | some (t, rest1) => parseExprTail fuel (.Binary .Add e t) rest1
    | Token.op .Sub :: rest =>
      match parseTerm fuel rest with
      | none => none
      | some (t, rest1) => parseExprTail fuel (.Binary .Sub e t) rest1
    | _ => some (e, ts)
/-- Recursive descent: `term := factor (('*' | '/') factor)*`. -/
def parseTerm : Nat → List Token → Option (FormulaAST × List Token)
  | 0, _ => none
  | fuel + 1, ts =>
    match parseFactor fuel ts with
    | none => none
    | some (f, rest) => parseTermTail fuel f rest
/-- Continuation of `parseTerm` after an operand. -/
def parseTermTail : Nat → FormulaAST → List Token → Option (FormulaAST × List Token)
  | 0, _, _ => none
  | fuel + 1, e, ts =>
    match ts with
    | Token.op .Mul :: rest =>
      match parseFactor fuel rest with
      | none => none
      | some (f, rest1) => parseTermTail fuel (.Binary .Mul e f) rest1
    | Token.op .Div :: rest =>
      match parseFactor fuel rest with
      | none => none
      | some (f, rest1) => parseTermTail fuel (.Binary .Div e f) rest1
    | _ => some (e, ts)
/-- Recursive descent: `factor := ('+' | '-') factor | '(' expr ')' | NUMBER | CELL`. -/
def parseFactor : Nat → List Token → Option (FormulaAST × List Token)
  | 0, _ => none
  | fuel + 1, ts =>
    match ts with
    | Token.num x :: rest => some (.Number x, rest)
    | Token.cell p :: rest => some (.CellRef p, rest)
    | Token.op .Add :: rest =>
      match parseFactor fuel rest with
      | none => none
      | some (f, rest1) => some (.Unary false f, rest1)
    | Token.op .Sub :: rest =>
      match parseFactor fuel rest with
      | none => none
      | some (f, rest1) => some (.Unary true f, rest1)
    | Token.lparen :: rest =>
      match parseExpr fuel rest with
      | some (e, Token.rparen :: rest1) => some (e, rest1)
      | _ => none
    | _ => none
end

/-- Modelled from the spec: `ParseFormulaAST`, "`parse(expr) -> AST` or raises
FormulaException" (`none`). -/
def ParseFormulaAST (expression : String) : Option FormulaAST :=
  match tokenize (expression.length + 1) expression.data with
  | none => none
  | some ts =>
    match parseExpr (4 * ts.length + 4) ts with
    | some (e, []) => some e
    | _ => none

/-! ## Values, cell contents, cells and the sheet -/

/-- `FormulaInterface::Value = std::variant<double, FormulaError>`. -/
inductive FormulaValue where
  | num (x : ℚ)
  | err (c : Category)
deriving DecidableEq, Repr

/-- `CellInterface::Value = std::variant<std::string, double, FormulaError>`. -/
inductive Value where
  | str (s : String)
  | num (x : ℚ)
  | err (c : Category)
deriving DecidableEq, Repr

/-- A `Cell*`: the slot that owns the cell and the allocation stamp of the object. -/
structure CellPtr where
  pos : Position
  stamp : Nat
deriving DecidableEq, Repr

/-- The three subclasses of `Cell::Impl` (cell.cpp 25-105); `FormulaImpl` carries the parsed
formula and the `mutable std::optional` cache. -/
inductive Impl where
  | EmptyImpl
  | TextImpl (text_ : String)
  | FormulaImpl (formula_ : FormulaAST) (cache_ : Option FormulaValue)
deriving DecidableEq, Repr

/-- `class Cell` (cell.h): content and the two adjacency sets; `stamp` is the identity of the
object. -/
structure Cell where
  stamp : Nat
  impl_ : Impl
  lhs_cells_ : List CellPtr
  rhs_cells_ : List CellPtr
deriving DecidableEq, Repr

/-- `class Sheet`: the jagged grid of owning handles; `allocated` counts the cells created so
far and supplies the next stamp. -/
structure Sheet where
  sheet_ : List (List (Option Cell))
  allocated : Nat
deriving DecidableEq, Repr

/-- The sheet produced by `CreateSheet()`. -/
def Sheet.empty : Sheet := ⟨[], 0⟩

/-- Outcome of running a piece of code on a sheet. -/
inductive Res (α : Type) where
  | ok (a : α) (s : Sheet)
  | throw (e : Exception) (s : Sheet)
  | ub
  | overflow
deriving DecidableEq, Repr

/-- State transformers over the sheet. -/
def M (α : Type) : Type := Sheet → Res α

/-- Sequencing: an exception, a dangling dereference or an exhausted budget ends the run. -/
def M.bind {α β : Type} (m : M α) (f : α → M β) : M β := fun s =>
  match m s with
  | .ok a s1 => f a s1
  | .throw e s1 => .throw e s1
  | .ub => .ub
  | .overflow => .overflow

instance : Monad M where
  pure a := fun s => .ok a s
  bind := M.bind

/-- C++ `throw`. -/
def raise {α : Type} (e : Exception) : M α := fun s => .throw e s

/-- Run `f` on every element, front to back. -/
def forEach {α : Type} (f : α → M Unit) : List α → M Unit
  | [] => pure ()
  | x :: xs => do f x; forEach f xs

/-- Run `f` on every element, front to back, collecting the results. -/
def mapEach {α β : Type} (f : α → M β) : List α → M (List β)
  | [] => pure []
  | x :: xs => do
    let y ← f x
    let ys ← mapEach f xs
    pure (y :: ys)

/-! ### std::vector and std::unordered_set -/

/-- `std::vector::resize(n)` with value-initialised new elements `d`. -/
def resize {α : Type} (v : List α) (n : Nat) (d : α) : List α :=
  v.take n ++ List.replicate (n - v.length) d

/-- `std::unordered_set::insert`. -/
def setInsert (x : CellPtr) (l : List CellPtr) : List CellPtr :=
  if x ∈ l then l else l ++ [x]

/-- `std::unordered_set::erase`. -/
def setErase (x : CellPtr) (l : List CellPtr) : List CellPtr :=
  l.filter (fun y => decide (y ≠ x))

/-- `std::unique` followed by the `resize`: drops every element equal to its predecessor. -/
def unique {α : Type} [DecidableEq α] : List α → List α
  | [] => []
  | [x] => [x]
  | x :: y :: rest => if x = y then unique (y :: rest) else x :: unique (y :: rest)

/-! ### Slots of the grid -/

/-- The handle `sheet_[pos.row][pos.col]` (null when the indices are outside the vectors). -/
def Sheet.slot (s : Sheet) (pos : Position) : Option Cell :=
  (s.sheet_.getD pos.row.toNat []).getD pos.col.toNat none

/-- Assignment to `sheet_[pos.row][pos.col]`. -/
def Sheet.setSlot (s : Sheet) (pos : Position) (oc : Option Cell) : Sheet :=
  ⟨s.sheet_.set pos.row.toNat ((s.sheet_.getD pos.row.toNat []).set pos.col.toNat oc),
    s.allocated⟩

/-- Dereference of a `Cell*`: undefined behaviour when the object has been destroyed. -/
def deref (p : CellPtr) : M Cell := fun s =>
  match s.slot p.pos with
  | some c => if c.stamp = p.stamp then .ok c s else .ub
  | none => .ub

/-- Update of the object behind a `Cell*`. -/
def modify (p : CellPtr) (f : Cell → Cell) : M Unit := fun s =>
  match s.slot p.pos with
  | some c => if c.stamp = p.stamp then .ok () (s.setSlot p.pos (some (f c))) else .ub
  | none => .ub

/-! ## formula.cpp -/

/-- `Formula::GetReferencedCells` (formula.cpp 96-105): keep the valid positions, then
`std::unique`. -/
def Formula.GetReferencedCells (ast_ : FormulaAST) : List Position :=
  unique (ast_.GetCells.filter Position.IsValid)

/-- Modelled from the spec: `FormulaAST::Execute`, "`AST.execute(lookup) -> number`, may raise
FormulaError", with "FormulaError(Div0) for division by zero inside the AST"; operands are
evaluated left to right. -/
def FormulaAST.Execute (lookup : Position → M ℚ) : FormulaAST → M ℚ
  | .Number x => pure x
  | .CellRef p => lookup p
  | .Unary negate e => do
    let v ← e.Execute lookup
    pure (if negate then -v else v)
  | .Binary op l r => do
    let a ← l.Execute lookup
    let b ← r.Execute lookup
    match op with
    | .Add => pure (a + b)
    | .Sub => pure (a - b)
    | .Mul => pure (a * b)
    | .Div => if b = 0 then raise (.FormulaError .Div0) else pure (a / b)

/-! ### `std::istringstream in(value); in >> result; in.eof()` -/

/-- Optional sign of a number. -/
def readSign : List Char → Bool × List Char
  | '-' :: cs => (true, cs)
  | '+' :: cs => (false, cs)
  | cs => (false, cs)

/-- Optional exponent: `e` or `E`, an optional sign, digits.  The extraction takes the `e`
and the sign from the stream in any case; when no digit follows them the conversion of the
characters read does not reach their end and the extraction fails (`none`). -/
def readExponent : List Char → Option (Int × List Char)
  | c :: cs =>
    if c = 'e' ∨ c = 'E' then
      let sg := readSign cs
      let ds := sg.2.takeWhile Char.isDigit
      if ds.isEmpty then none
      else some ((if sg.1 then -(digitsVal ds : Int) else (digitsVal ds : Int)),
        sg.2.dropWhile Char.isDigit)
    else some (0, c :: cs)
  | [] => some (0, [])

/-- Power of ten with an integer exponent. -/
def pow10 (k : Int) : ℚ :=
  if 0 ≤ k then ((10 ^ k.toNat : Nat) : ℚ) else 1 / ((10 ^ (-k).toNat : Nat) : ℚ)

/-- Power of two with an integer exponent. -/
def pow2 (k : Int) : ℚ :=
  if 0 ≤ k then ((2 ^ k.toNat : Nat) : ℚ) else 1 / ((2 ^ (-k).toNat : Nat) : ℚ)

/-- Optional fraction: a decimal point and the digits after it; returns those digits and the
unread rest. -/
def readFraction : List Char → List Char × List Char
  | '.' :: r2 => (r2.takeWhile Char.isDigit, r2.dropWhile Char.isDigit)
  | r1 => ([], r1)

/-- The characters of a number as the extraction accepts them and `strtod` converts them:
`[sign] digits [. digits] [exponent]` with at least one digit, read from the very first
character; returns the number written, not yet rounded, and the unread rest. -/
def readNumber (cs : List Char) : Option (ℚ × List Char) :=
  let sg := readSign cs
  let ip := sg.2.takeWhile Char.isDigit
  let fr := readFraction (sg.2.dropWhile Char.isDigit)
  if ip.isEmpty && fr.1.isEmpty then none
  else
    match readExponent fr.2 with
    | none => none
    | some ex =>
      let mant : ℚ := (digitsVal ip : ℚ) + (digitsVal fr.1 : ℚ) / ((10 ^ fr.1.length : Nat) : ℚ)
      let v : ℚ := mant * pow10 ex.1
      some ((if sg.1 then -v else v), ex.2)

/-- Count of the halvings of `n` until it is below 2, added to `acc`; at most `fuel`
halvings. -/
def halvings : Nat → Nat → Nat → Nat
  | 0, _, acc => acc
  | fuel + 1, n, acc => if 2 ≤ n then halvings fuel (n / 2) (acc + 1) else acc

/-- Position of the leading binary digit of `n`: the largest `k` with `2 ^ k ≤ n`, and 0 for
`n = 0`. -/
def log2 (n : Nat) : Nat := halvings n n 0

/-- The `double` that `strtod` returns for the number `x`: the nearest value of the binary64
format (53 significant bits, exponents from -1022 to 1023, subnormal numbers in steps of
2^-1074), ties to the even significand; a magnitude below half the smallest subnormal gives
0; `none` stands for `HUGE_VAL`, returned when the rounded magnitude is 2^1024 or more. -/
def toDouble (x : ℚ) : Option ℚ :=
  if x = 0 then some 0
  else
    let a : ℚ := if x < 0 then -x else x
    let e0 : Int := (log2 a.num.natAbs : Int) - (log2 a.den : Int)
    let e : Int := if a < pow2 e0 then e0 - 1 else e0
    let q : ℚ := pow2 (max e (-1022) - 52)
    let m : ℚ := a / q
    let f : Int := Rat.floor m
    let k : Int :=
      if m - (f : ℚ) < 1 / 2 then f
      else if 1 / 2 < m - (f : ℚ) then f + 1
      else if f % 2 = 0 then f else f + 1
    let r : ℚ := (k : ℚ) * q
    if pow2 1024 ≤ r then none else some (if x < 0 then -r else r)

/-- C `isspace`: space, tab, line feed, vertical tab, form feed, carriage return. -/
def isspace (c : Char) : Bool :=
  c = ' ' || (decide (9 ≤ c.toNat) && decide (c.toNat ≤ 13))

/-- Formatted extraction `in >> result` of a `double` from a fresh `std::istringstream`
(`num_get::do_get` and `__convert_to_v` of the C++ library): the stream skips leading white
space (`skipws` is set by default), reads the characters of a number and converts them as
`strtod` does; the extraction fails (`failbit`) when no number is read and when the result
overflows.  Returns the `double` and the unread rest, or `none` when the extraction fails. -/
def extractDouble (cs : List Char) : Option (ℚ × List Char) :=
  match readNumber (cs.dropWhile isspace) with
  | some (x, rest) =>
    match toDouble x with
    | some d => some (d, rest)
    | none => none
  | none => none

/-- The test `!(in >> result) || !in.eof()` of formula.cpp 76 turned around: the number when
the extraction succeeds and reaches the end of the string. -/
def parseWhole (value : String) : Option ℚ :=
  match extractDouble value.data with
  | some (x, []) => some x
  | _ => none

/-- `ESCAPE_SIGN`, the apostrophe. -/
def ESCAPE_SIGN : Char := Char.ofNat 39

/-- `FORMULA_SIGN`. -/
def FORMULA_SIGN : Char := '='

/-- `std::string::substr(1)` on a non-empty string. -/
def substr1 (text : String) : String := ⟨text.data.tail⟩

/-! ## sheet.cpp : lookup -/

/-- `Sheet::GetCellPtr` (sheet.cpp 42-50); `nullptr` is `none`. -/
def Sheet.GetCellPtr (pos : Position) : M (Option CellPtr) := fun s =>
  if !pos.IsValid then .throw .InvalidPosition s
  else if s.sheet_.isEmpty || decide (pos.row ≥ (s.sheet_.length : Int))
      || decide (pos.col ≥ ((s.sheet_.getD pos.row.toNat []).length : Int)) then .ok none s
  else .ok ((s.slot pos).map (fun c => ⟨pos, c.stamp⟩)) s

/-- `Sheet::GetCell` (sheet.cpp 34-40). -/
def Sheet.GetCell (pos : Position) : M (Option CellPtr) := Sheet.GetCellPtr pos

/-! ## cell.cpp -/

/-- `Impl::GetReferencedCells` (cell.cpp 16-18, 97-99). -/
def Impl.GetReferencedCells : Impl → List Position
  | .FormulaImpl formula_ _ => Formula.GetReferencedCells formula_
  | _ => []

/-- `Impl::IsCacheValid` (cell.cpp 19-21, 89-91). -/
def Impl.IsCacheValid : Impl → Bool
  | .FormulaImpl _ cache_ => cache_.isSome
  | _ => true

/-- `Impl::InvalidateCache` (cell.cpp 22, 93-95). -/
def Impl.InvalidateCache : Impl → Impl
  | .FormulaImpl formula_ _ => .FormulaImpl formula_ none
  | i => i

/-- `Impl::GetText` (cell.cpp 27-29, 44-46, 67-69); the printer of the external AST is a
parameter. -/
def Impl.GetText (GetExpression : FormulaAST → String) : Impl → String
  | .EmptyImpl => ""
  | .TextImpl text_ => text_
  | .FormulaImpl formula_ _ => String.singleton FORMULA_SIGN ++ GetExpression formula_

/-- `ParseFormula` (formula.cpp 112-119). -/
def ParseFormula (expression : String) : M FormulaAST :=
  match ParseFormulaAST expression with
  | some ast => pure ast
  | none => raise .FormulaException

/-- Constructor of `TextImpl` (cell.cpp 37-42). -/
def TextImpl.ctor (text : String) : M Impl :=
  if text.data.isEmpty then raise .logic_error else pure (.TextImpl text)

/-- Constructor of `FormulaImpl` (cell.cpp 58-65). -/
def FormulaImpl.ctor (str : String) : M Impl :=
  if str.data.isEmpty || str.data.head? != some FORMULA_SIGN then raise .logic_error
  else do
    let formula_ptr_ ← ParseFormula (substr1 str)
    pure (.FormulaImpl formula_ptr_ none)

/-- The `while` loop of `Cell::IsThereCircularDependency` (cell.cpp 121-140); the stack is a
list with its top at the head, `fuel` bounds the number of iterations.  The comparison of
line 130 casts a `Cell` to the unrelated class `Impl` and is never true. -/
def Cell.visitLoop (referenced : List (Option CellPtr)) :
    Nat → List CellPtr → List CellPtr → M Bool
  | _, _, [] => pure false
  | 0, _, _ :: _ => fun _ => .overflow
  | fuel + 1, visited, curr_cell :: to_visit =>
    let visited1 := setInsert curr_cell visited
    if some curr_cell ∈ referenced then pure true
    else do
      let c ← deref curr_cell
      Cell.visitLoop referenced fuel visited1
        (c.rhs_cells_.foldl
          (fun st dependent_cell => if dependent_cell ∈ visited1 then st else dependent_cell :: st)
          to_visit)

/-- `Cell::IsThereCircularDependency` (cell.cpp 107-142). -/
def Cell.IsThereCircularDependency (fuel : Nat) (this : CellPtr) (new_impl : Impl) : M Bool :=
  if new_impl.GetReferencedCells.isEmpty then pure false
  else do
    let referenced ← mapEach Sheet.GetCellPtr new_impl.GetReferencedCells
    Cell.visitLoop referenced fuel [] [this]

/-- `Cell::CashInvalidation` (cell.cpp 144-151); `fuel` bounds the depth of the recursion. -/
def Cell.CashInvalidation : Nat → CellPtr → Bool → M Unit
  | 0, _, _ => fun _ => .overflow
  | fuel + 1, this, flag => do
    let c ← deref this
    if c.impl_.IsCacheValid || flag then
      modify this (fun c => { c with impl_ := c.impl_.InvalidateCache })
      forEach (fun dependent_cell => Cell.CashInvalidation fuel dependent_cell false) c.lhs_cells_
    else pure ()

/-- Body of the loop at cell.cpp 182-190: resolve `pos`, materialise the target when it is
missing, and install the edge in both directions. -/
def Cell.link (SetCell : Position → String → M Unit) (this : CellPtr) (pos : Position) :
    M Unit := do
  let found ← Sheet.GetCellPtr pos
  let curr_cell ← (match found with
    | some q => pure (some q)
    | none => do
      SetCell pos ""
      Sheet.GetCellPtr pos)
  match curr_cell with
  | none => fun _ => .ub
  | some q => do
    modify this (fun c => { c with rhs_cells_ := setInsert q c.rhs_cells_ })
    modify q (fun c => { c with lhs_cells_ := setInsert this c.lhs_cells_ })

/-- `Cell::Set` (cell.cpp 159-193); `SetCell` is the `sheet_.SetCell` it calls back. -/
def Cell.Set (fuel : Nat) (SetCell : Position → String → M Unit) (this : CellPtr)
    (text : String) : M Unit := do
  let impl ← (if text.data.isEmpty then pure Impl.EmptyImpl
    else if text.data.head? = some FORMULA_SIGN ∧ text.data.length > 1 then FormulaImpl.ctor text
    else TextImpl.ctor text)
  let circular ← Cell.IsThereCircularDependency fuel this impl
  if circular then raise .CircularDependency
  else do
    modify this (fun c => { c with impl_ := impl })
    let c ← deref this
    forEach (fun curr_cell =>
      modify curr_cell (fun d => { d with lhs_cells_ := setErase this d.lhs_cells_ }))
      c.rhs_cells_
    modify this (fun c => { c with rhs_cells_ := [] })
    forEach (Cell.link SetCell this) impl.GetReferencedCells
    Cell.CashInvalidation fuel this true

/-- `Cell::Clear` (cell.cpp 195-197). -/
def Cell.Clear (this : CellPtr) : M Unit :=
  modify this (fun c => { c with impl_ := Impl.EmptyImpl })

/-- `Cell::IsReferenced` (cell.cpp 211-213). -/
def Cell.IsReferenced (this : CellPtr) : M Bool := do
  let c ← deref this
  pure (!c.lhs_cells_.isEmpty)

/-! ## sheet.cpp : edits -/

/-- The two `resize` calls of `Sheet::SetCell` (sheet.cpp 20-26). -/
def Sheet.grow (pos : Position) (s : Sheet) : Sheet :=
  let rows := if s.sheet_.isEmpty || decide (pos.row ≥ (s.sheet_.length : Int))
    then resize s.sheet_ (pos.row.toNat + 1) [] else s.sheet_
  let r := rows.getD pos.row.toNat []
  let rows2 := if decide (pos.col ≥ (r.length : Int))
    then rows.set pos.row.toNat (resize r (pos.col.toNat + 1) none) else rows
  ⟨rows2, s.allocated⟩

/-- `std::make_unique<Cell>(*this)`: a fresh Empty cell without edges (cell.cpp 153-155). -/
def Sheet.newCell (s : Sheet) : Cell := ⟨s.allocated, .EmptyImpl, [], []⟩

/-- `Sheet::SetCell` (sheet.cpp 15-32); `fuel` bounds the call depth and the loops below. -/
def Sheet.SetCell : Nat → Position → String → M Unit
  | 0, _, _ => fun _ => .overflow
  | fuel + 1, pos, text => fun s =>
    if !pos.IsValid then .throw .InvalidPosition s
    else
      let s1 := Sheet.grow pos s
      let s2 := match s1.slot pos with
        | some _ => s1
        | none => ⟨(s1.setSlot pos (some s1.newCell)).sheet_, s1.allocated + 1⟩
      match s2.slot pos with
      | none => .ub
      | some c => Cell.Set fuel (Sheet.SetCell fuel) ⟨pos, c.stamp⟩ text s2

/-- `Sheet::ClearCell` (sheet.cpp 57-68). -/
def Sheet.ClearCell (pos : Position) : M Unit := do
  if !pos.IsValid then raise .InvalidPosition
  else do
    let found ← Sheet.GetCell pos
    match found with
    | none => pure ()
    | some this => do
      Cell.Clear this
      let referenced ← Cell.IsReferenced this
      if !referenced then fun s => .ok () (s.setSlot pos none)
      else pure ()

/-! ## Evaluation -/

/-- The lambda `functor` of `Formula::Evaluate` (formula.cpp 55-81); every `cell->GetValue()`
of the source is a separate call of `GetValue`. -/
def Formula.functor (GetValue : CellPtr → M Value) (pos : Position) : M ℚ := do
  if !pos.IsValid then raise (.FormulaError .Ref)
  else do
    let found ← Sheet.GetCell pos
    match found with
    | none => pure 0
    | some cell => do
      let v1 ← GetValue cell
      match v1 with
      | .num _ => do
        let v2 ← GetValue cell
        match v2 with
        | .num x => pure x
        | _ => raise .bad_variant_access
      | _ => do
        let v2 ← GetValue cell
        match v2 with
        | .str _ => do
          let v3 ← GetValue cell
          match v3 with
          | .str value =>
            if !value.data.isEmpty then
              match parseWhole value with
              | some result => pure result
              | none => raise (.FormulaError .Value)
            else pure 0
          | _ => raise .bad_variant_access
        | _ => do
          let v3 ← GetValue cell
          match v3 with
          | .err fe => raise (.FormulaError fe)
          | _ => raise .bad_variant_access

/-- `Formula::Evaluate` (formula.cpp 53-88): a `FormulaError` thrown during `Execute` becomes
the value. -/
def Formula.Evaluate (GetValue : CellPtr → M Value) (ast_ : FormulaAST) : M FormulaValue :=
  fun s =>
    match ast_.Execute (Formula.functor GetValue) s with
    | .ok x s1 => .ok (.num x) s1
    | .throw (.FormulaError fe) s1 => .ok (.err fe) s1
    | .throw e s1 => .throw e s1
    | .ub => .ub
    | .overflow => .overflow

/-- `TextImpl::GetValue` (cell.cpp 48-50). -/
def TextImpl.GetValue (text_ : String) : String :=
  if text_.data.head? = some ESCAPE_SIGN then substr1 text_ else text_

/-- `Cell::GetValue` (cell.cpp 199-201) with the three `Impl::GetValue` (cell.cpp 30-32,
48-50, 71-87); `fuel` bounds the depth of the recursion through referenced cells. -/
def Cell.GetValue : Nat → CellPtr → M Value
  | 0, _ => fun _ => .overflow
  | fuel + 1, this => do
    let c ← deref this
    match c.impl_ with
    | .EmptyImpl => pure (.str "")
    | .TextImpl text_ => pure (.str (TextImpl.GetValue text_))
    | .FormulaImpl formula_ cache_ => do
      if cache_.isNone then
        let r ← Formula.Evaluate (Cell.GetValue fuel) formula_
        modify this (fun c => { c with impl_ := .FormulaImpl formula_ (some r) })
      let value ← Formula.Evaluate (Cell.GetValue fuel) formula_
      match value with
      | .num x => pure (.num x)
      | .err fe => pure (.err fe)

/-- `sheet.GetCell(pos)->GetValue()`; `none` when no cell exists at `pos`. -/
def Sheet.GetValue (fuel : Nat) (pos : Position) : M (Option Value) := do
  let found ← Sheet.GetCell pos
  match found with
  | none => pure none
  | some cell => do
    let v ← Cell.GetValue fuel cell
    pure (some v)

/-- `sheet.GetCell(pos)->GetText()`; `none` when no cell exists at `pos`. -/
def Sheet.GetText (GetExpression : FormulaAST → String) (pos : Position) (s : Sheet) :
    Option String :=
  (s.slot pos).map (fun c => c.impl_.GetText GetExpression)

/-! ## Observing runs -/

/-- The sheet a caller sees after the call returned or threw; `none` when the run has no
defined continuation. -/
def Res.after {α : Type} : Res α → Option Sheet
  | .ok _ s => some s
  | .throw _ s => some s
  | .ub => none
  | .overflow => none

/-- The exception a call ended with, if any. -/
def Res.thrown {α : Type} : Res α → Option Exception
  | .throw e _ => some e
  | _ => none

/-- The call returned normally. -/
def Res.isOk {α : Type} : Res α → Bool
  | .ok _ _ => true
  | _ => false

/-- The value a call returned. -/
def Res.value {α : Type} : Res α → Option α
  | .ok a _ => some a
  | _ => none

/-- The mutating calls of the public interface. -/
inductive Call where
  | SetCell (pos : Position) (text : String)
  | ClearCell (pos : Position)
deriving DecidableEq, Repr

/-- Run one call. -/
def Call.run (fuel : Nat) : Call → M Unit
  | .SetCell pos text => Sheet.SetCell fuel pos text
  | .ClearCell pos => Sheet.ClearCell pos

/-- Run a sequence of calls, going on after a call that threw. -/
def trace (fuel : Nat) : List Call → Sheet → Option Sheet
  | [], s => some s
  | c :: cs, s =>
    match (c.run fuel s).after with
    | some s1 => trace fuel cs s1
    | none => none

/-- Sheets reachable from the empty sheet by `SetCell` and `ClearCell` calls, failed calls
included. -/
inductive Reachable : Sheet → Prop where
  | empty : Reachable Sheet.empty
  | step (fuel : Nat) (c : Call) (s s1 : Sheet) :
      Reachable s → (c.run fuel s).after = some s1 → Reachable s1

/-- The object behind a pointer, when it is alive. -/
def Sheet.cellAt (s : Sheet) (p : CellPtr) : Option Cell :=
  match s.slot p.pos with
  | some c => if c.stamp = p.stamp then some c else none
  | none => none

/-- The outgoing set `rhs_cells_` behind a pointer; a destroyed cell has none. -/
def Sheet.outgoing (s : Sheet) (p : CellPtr) : List CellPtr :=
  match s.cellAt p with
  | some c => c.rhs_cells_
  | none => []

/-- The incoming set `lhs_cells_` behind a pointer; a destroyed cell has none. -/
def Sheet.incoming (s : Sheet) (p : CellPtr) : List CellPtr :=
  match s.cellAt p with
  | some c => c.lhs_cells_
  | none => []

/-- Outgoing edge `a → b`: `b ∈ a.rhs_cells_`. -/
def Sheet.Edge (s : Sheet) (a b : CellPtr) : Prop :=
  b ∈ s.outgoing a

instance (s : Sheet) (a b : CellPtr) : Decidable (s.Edge a b) := by
  unfold Sheet.Edge; infer_instance

/-- The outgoing-edge graph has no directed cycle. -/
def Sheet.Acyclic (s : Sheet) : Prop :=
  ∀ a, ¬ Relation.TransGen s.Edge a a

/-- Position `A1`. -/
def A1 : Position := ⟨0, 0⟩
/-- Position `B1`. -/
def B1 : Position := ⟨0, 1⟩
/-- Position `C1`. -/
def C1 : Position := ⟨0, 2⟩
/-- Position `A2`. -/
def A2 : Position := ⟨1, 0⟩
/-- Position `A3`. -/
def A3 : Position := ⟨2, 0⟩

/-- The sheet after `SetCell(A1, "=B1")`, `SetCell(B1, "=C1")`, `SetCell(C1, "=A1")`. -/
def cycleSheet : Sheet :=
  (trace 4 [.SetCell A1 "=B1", .SetCell B1 "=C1", .SetCell C1 "=A1"] Sheet.empty).getD Sheet.empty

/-- The sheet after `SetCell(A1, "=B1")`. -/
def oneFormulaSheet : Sheet :=
  (trace 4 [.SetCell A1 "=B1"] Sheet.empty).getD Sheet.empty

/-! ## Auxiliary notions for the proofs -/

/-- The indices of `pos` lie inside the vectors. -/
def Sheet.inRange (s : Sheet) (pos : Position) : Prop :=
  pos.row.toNat < s.sheet_.length ∧ pos.col.toNat < (s.sheet_.getD pos.row.toNat []).length

/-- Two positions address the same slot. -/
def Position.sameSlot (p q : Position) : Prop :=
  p.row.toNat = q.row.toNat ∧ p.col.toNat = q.col.toNat

instance (p q : Position) : Decidable (p.sameSlot q) := by
  unfold Position.sameSlot; infer_instance

/-- The pointer `sheet_[pos.row][pos.col].get()`. -/
def Sheet.ptrAt (s : Sheet) (pos : Position) : Option CellPtr :=
  (s.slot pos).map (fun c => ⟨pos, c.stamp⟩)

/-- Every exception `m` can end with satisfies `P`. -/
def OnlyThrows {α : Type} (P : Exception → Prop) (m : M α) : Prop :=
  ∀ s e s1, m s = .throw e s1 → P e

/-- The sheet after `SetCell(A1, " 12")`: a Literal whose text has a space before the number. -/
def spaceSheet : Sheet :=
  (trace 4 [.SetCell A1 " 12"] Sheet.empty).getD Sheet.empty

/-- The sheet after `SetCell(A1, "1")`, `SetCell(B1, "=A1")`. -/
def backrefSheet : Sheet :=
  (trace 4 [.SetCell A1 "1", .SetCell B1 "=A1"] Sheet.empty).getD Sheet.empty

/-! ## The value of a cell in the words of the spec -/

/-- Spec 4.3, steps 1-5: the number a referenced position yields, given the value of the cell
stored there; `none` when the evaluation of that cell does not end.  This follows the words
of the spec; it does not read any cache. -/
def specLookup (s : Sheet) (valueOf : Cell → Option Value) (pos : Position) :
    Option FormulaValue :=
  if !pos.IsValid then some (.err .Ref)
  else
    match s.slot pos with
    | none => some (.num 0)
    | some c =>
      match valueOf c with
      | none => none
      | some (.num x) => some (.num x)
      | some (.str t) =>
        if t.data.isEmpty then some (.num 0)
        else
          match parseWhole t with
          | some x => some (.num x)
          | none => some (.err .Value)
      | some (.err e) => some (.err e)

/-- Spec 4.3: "Any FormulaError raised during `Execute` ... becomes the returned value; a
successful execution returns the numeric result"; operands left to right, division by zero
is `Div0`. -/
def specExecute (lookup : Position → Option FormulaValue) : FormulaAST → Option FormulaValue
  | .Number x => some (.num x)
  | .CellRef p => lookup p
  | .Unary negate e =>
    match specExecute lookup e with
    | some (.num v) => some (.num (if negate then -v else v))
    | r => r
  | .Binary op l r =>
    match specExecute lookup l with
    | some (.num a) =>
      match specExecute lookup r with
      | some (.num b) =>
        match op with
        | .Add => some (.num (a + b))
        | .Sub => some (.num (a - b))
        | .Mul => some (.num (a * b))
        | .Div => if b = 0 then some (.err .Div0) else some (.num (a / b))
      | r1 => r1
    | r1 => r1

/-- The value of a content in the current sheet, in the words of the spec: "" for Empty, the
unescaped text for a Literal, and for a Formula the result of executing its AST with each
referenced position looked up in the current sheet.  `fuel` bounds the depth of references
followed; `none` when that depth does not suffice. -/
def specValue (s : Sheet) : Nat → Impl → Option Value
  | 0, _ => none
  | _ + 1, .EmptyImpl => some (.str "")
  | _ + 1, .TextImpl text_ => some (.str (TextImpl.GetValue text_))
  | fuel + 1, .FormulaImpl formula_ _ =>
    match specExecute (specLookup s (fun c => specValue s fuel c.impl_)) formula_ with
    | some (.num x) => some (.num x)
    | some (.err e) => some (.err e)
    | none => none

/-- Two cells that differ at most in the cache. -/
def Cell.sameModuloCache (c c1 : Cell) : Prop :=
  c.stamp = c1.stamp ∧ c.impl_.InvalidateCache = c1.impl_.InvalidateCache
    ∧ c.lhs_cells_ = c1.lhs_cells_ ∧ c.rhs_cells_ = c1.rhs_cells_

/-- Two sheets that differ at most in the caches of their cells. -/
def CacheEq (s s1 : Sheet) : Prop :=
  ∀ q : Position,
    match s.slot q, s1.slot q with
    | some c, some c1 => c.sameModuloCache c1
    | none, none => True
    | _, _ => False

/-- A run of the lookup or of `Execute` agrees with the spec-level result `o`: it returns the
number, throws the error, or exhausts the budget, and changes caches only. -/
def Agrees (r : Res ℚ) (s : Sheet) (o : Option FormulaValue) : Prop :=
  match o with
  | some (.num x) => ∃ s1, r = .ok x s1 ∧ CacheEq s s1
  | some (.err e) => ∃ s1, r = .throw (.FormulaError e) s1 ∧ CacheEq s s1
  | none => r = .overflow

/-- A run of `GetValue` agrees with the spec-level value `o`. -/
def AgreesValue (r : Res Value) (s : Sheet) (o : Option Value) : Prop :=
  match o with
  | some v => ∃ s1, r = .ok v s1 ∧ CacheEq s s1
  | none => r = .overflow

/-- The sheet after `SetCell(A1, "2")`, `SetCell(A2, "=A1*3")`, `SetCell(A3, "=A2+A1")`. -/
def chainSheet : Sheet :=
  (trace 4 [.SetCell A1 "2", .SetCell A2 "=A1*3", .SetCell A3 "=A2+A1"] Sheet.empty).getD
    Sheet.empty

/-- The sheet `chainSheet` after `GetValue(A3)` has filled the caches. -/
def chainSheetRead : Sheet :=
  (Sheet.GetValue 4 A3 chainSheet).after.getD Sheet.empty

/-- The sheet `chainSheetRead` after a further `SetCell(A1, "10")`. -/
def chainSheet10 : Sheet :=
  (trace 4 [.SetCell A1 "10"] chainSheetRead).getD Sheet.empty

/-- Lifetime, the direction the code keeps: every valid position referenced by the formula
of an existing cell holds a cell whose incoming set contains the referencing cell. -/
def Sheet.ReferencesAlive (s : Sheet) : Prop :=
  ∀ (p : Position) (c : Cell) (f : FormulaAST) (cache : Option FormulaValue),
    p.IsValid = true → s.slot p = some c → c.impl_ = .FormulaImpl f cache →
    ∀ q ∈ Formula.GetReferencedCells f,
      ∃ d, s.slot q = some d ∧ (⟨p, c.stamp⟩ : CellPtr) ∈ d.lhs_cells_

/-- The same for the cells at positions other than `pos`. -/
def Sheet.ReferencesAliveExcept (pos : Position) (s : Sheet) : Prop :=
  ∀ (p : Position) (c : Cell) (f : FormulaAST) (cache : Option FormulaValue),
    p.IsValid = true → p ≠ pos → s.slot p = some c → c.impl_ = .FormulaImpl f cache →
    ∀ q ∈ Formula.GetReferencedCells f,
      ∃ d, s.slot q = some d ∧ (⟨p, c.stamp⟩ : CellPtr) ∈ d.lhs_cells_

/-- What a step of an edit leaves in place: every existing cell stays, with its stamp, its
content up to the cache and those members of its incoming set that satisfy `P`; and a cell
that appears is Empty. -/
def Frame (P : CellPtr → Prop) (s s1 : Sheet) : Prop :=
  (∀ p : Position, p.IsValid = true → ∀ c, s.slot p = some c →
    ∃ c1, s1.slot p = some c1 ∧ c1.stamp = c.stamp
      ∧ c1.impl_.InvalidateCache = c.impl_.InvalidateCache
      ∧ ∀ x ∈ c.lhs_cells_, P x → x ∈ c1.lhs_cells_)
  ∧ (∀ p : Position, p.IsValid = true → ∀ c1, s1.slot p = some c1 → s.slot p = none →
    c1.impl_ = .EmptyImpl)

/-- The sheet after `SetCell(A1, "")` on the empty sheet. -/
def emptyTextSheet : Sheet :=
  (trace 4 [.SetCell A1 ""] Sheet.empty).getD Sheet.empty

/-- The cell at `p` exists and its content is not Empty. -/
def Sheet.NonEmptyAt (s : Sheet) (p : Position) : Prop :=
  ∃ c, s.slot p = some c ∧ c.impl_ ≠ .EmptyImpl

/-- Some existing cell holds a formula that references `p`. -/
def Sheet.ReferencedAt (s : Sheet) (p : Position) : Prop :=
  ∃ (q : Position) (c : Cell) (f : FormulaAST) (cache : Option FormulaValue),
    q.IsValid = true ∧ s.slot q = some c ∧ c.impl_ = .FormulaImpl f cache
      ∧ p ∈ Formula.GetReferencedCells f

/-- The lifetime invariant as the spec states it: a cell exists at a position iff its content
is non-Empty or some existing cell's formula references the position. -/
def Sheet.Lifetime (s : Sheet) : Prop :=
  ∀ p : Position, p.IsValid = true →
    ((s.slot p).isSome = true ↔ (s.NonEmptyAt p ∨ s.ReferencedAt p))

/-! ## sheet.cpp : printable size -/

/-- C++ `struct Size { int rows; int cols; }`. -/
structure Size where
  rows : Int
  cols : Int
deriving DecidableEq, Repr

/-- Body of the two loops of `Sheet::GetPrintableSize` at the slot `[i][j]` (sheet.cpp
77-84). -/
def Sheet.visitSlot (s : Sheet) (i j : Nat) (printable_size : Size) : Size :=
  if ((s.sheet_.getD i []).getD j none).isSome then
    ⟨if (i : Int) ≥ printable_size.rows then (i : Int) + 1 else printable_size.rows,
      if (j : Int) ≥ printable_size.cols then (j : Int) + 1 else printable_size.cols⟩
  else printable_size

/-- The inner loop, `j` from `sheet_[i].size() - 1` down to 0 (sheet.cpp 76-85). -/
def Sheet.scanRow (s : Sheet) (i : Nat) (printable_size : Size) : Size :=
  (List.range (s.sheet_.getD i []).length).reverse.foldl
    (fun sz j => s.visitSlot i j sz) printable_size

/-- `Sheet::GetPrintableSize` (sheet.cpp 70-88). -/
def Sheet.GetPrintableSize (s : Sheet) : Size :=
  if s.sheet_.isEmpty then ⟨0, 0⟩
  else (List.range s.sheet_.length).reverse.foldl (fun sz i => s.scanRow i sz) ⟨0, 0⟩

/-- The grid holds a cell at row `i`, column `j`. -/
def Sheet.hasCell (s : Sheet) (i j : Nat) : Prop :=
  ((s.sheet_.getD i []).getD j none).isSome = true

/-- Both extents of a size are zero or one more than the row, respectively column, index of
an existing cell. -/
def Sheet.Attained (s : Sheet) (sz : Size) : Prop :=
  (sz.rows = 0 ∨ ∃ i j, s.hasCell i j ∧ sz.rows = (i : Int) + 1)
  ∧ (sz.cols = 0 ∨ ∃ i j, s.hasCell i j ∧ sz.cols = (j : Int) + 1)

/-- A jagged grid with cells at (0,0) and (4,2) only. -/
def twoCornerSheet : Sheet :=
  ⟨[[some ⟨0, .TextImpl "a", [], []⟩], [], [none, none], [],
    [none, none, some ⟨1, .TextImpl "b", [], []⟩, none]], 2⟩

/-- Position `D1`. -/
def D1 : Position := ⟨0, 3⟩

/-- Edge symmetry of the spec: `b ∈ outgoing(a)` iff `a ∈ incoming(b)`, a destroyed cell
having neither set. -/
def Sheet.EdgeSymmetric (s : Sheet) : Prop :=
  ∀ a b : CellPtr, b ∈ s.outgoing a ↔ a ∈ s.incoming b

/-- The sheet after `SetCell(A1, "=B1")`, `ClearCell(A1)`: the cell at A1 is destroyed. -/
def danglingSheet : Sheet :=
  (trace 4 [.SetCell A1 "=B1", .ClearCell A1] Sheet.empty).getD Sheet.empty

/-- The sheet `backrefSheet` (`A1 = "1"`, `B1 = "=A1"`) after `GetValue(B1)` has filled the
cache of B1. -/
def backrefSheetRead : Sheet :=
  (Sheet.GetValue 4 B1 backrefSheet).after.getD Sheet.empty

/-- The sheet `backrefSheetRead` after `ClearCell(A1)`. -/
def staleSheet : Sheet :=
  (trace 4 [.ClearCell A1] backrefSheetRead).getD Sheet.empty

/-- The sheet after `SetCell(A1, "=B1+D1")`, `SetCell(B1, "=C1")`, `SetCell(C1, "=A1")`,
`ClearCell(A1)`, `ClearCell(B1)`, `ClearCell(C1)`: three Empty cells whose incoming sets form
a cycle, the one at A1 being in the incoming set of D1. -/
def loopSheet : Sheet :=
  (trace 4 [.SetCell A1 "=B1+D1", .SetCell B1 "=C1", .SetCell C1 "=A1",
    .ClearCell A1, .ClearCell B1, .ClearCell C1] Sheet.empty).getD Sheet.empty

/-- The sheet in the middle of `SetCell(D1, "1")` on `loopSheet`, when the invalidation
cascade starts: the cell at D1 holds the new Literal. -/
def loopSheetEdited : Sheet :=
  loopSheet.setSlot D1 (some ⟨2, .TextImpl "1", [⟨A1, 0⟩], []⟩)

/-- The sheet in the middle of `SetCell(B1, "5")` on `danglingSheet`, when the invalidation
cascade starts. -/
def danglingSheetEdited : Sheet :=
  danglingSheet.setSlot B1 (some ⟨1, .TextImpl "5", [⟨A1, 0⟩], []⟩)

/-- The edge `a → b` is mirrored: `b` is a pointer to a live cell at a valid position whose
incoming set contains `a`. -/
def Sheet.Linked (s : Sheet) (a b : CellPtr) : Prop :=
  b.pos.IsValid = true ∧ ∃ d, s.cellAt b = some d ∧ a ∈ d.lhs_cells_

/-- Every member of the outgoing set of an existing cell is mirrored, the edges in `E`
excepted. -/
def Sheet.RhsLinkedBut (E : CellPtr → CellPtr → Prop) (s : Sheet) : Prop :=
  ∀ (p : Position) (c : Cell), p.IsValid = true → s.slot p = some c →
    ∀ b ∈ c.rhs_cells_, E ⟨p, c.stamp⟩ b ∨ s.Linked ⟨p, c.stamp⟩ b

/-- Every member of the outgoing set of an existing cell is mirrored. -/
def Sheet.RhsLinked (s : Sheet) : Prop :=
  s.RhsLinkedBut (fun _ _ => False)

/-- Memory safety of the outgoing sets: every member of the outgoing set of an existing cell
points to a cell that exists. -/
def Sheet.OutgoingAlive (s : Sheet) : Prop :=
  ∀ (p : Position) (c : Cell), p.IsValid = true → s.slot p = some c →
    ∀ b ∈ c.rhs_cells_, b.pos.IsValid = true ∧ (s.cellAt b).isSome = true

/-- The pointers to the cells the grid holds at valid positions. -/
def Sheet.cells (s : Sheet) : List CellPtr :=
  ((List.range s.sheet_.length).flatMap (fun (i : Nat) =>
    (List.range (s.sheet_.getD i []).length).filterMap (fun (j : Nat) =>
      (s.slot ⟨Int.ofNat i, Int.ofNat j⟩).map
        (fun c => (⟨⟨Int.ofNat i, Int.ofNat j⟩, c.stamp⟩ : CellPtr))))).filter
    (fun u => u.pos.IsValid)

/-- The cost still ahead of the loop of the cycle check: every cell not yet visited may be
popped once and push its outgoing set, every entry of the stack is popped. -/
def Sheet.visitMeasure (s : Sheet) (visited to_visit : List CellPtr) : Nat :=
  ((s.cells.filter (fun u => decide (u ∉ visited))).map
    (fun u => 1 + (s.outgoing u).length)).sum + to_visit.length

/-- What the loop of the cycle check started at `X` keeps true of `visited` and the stack:
stack entries are cells reachable from `X`; no visited cell is referenced; `X` is visited or
on the stack; the outgoing set of a visited cell is visited or on the stack; and for a visited
cell that is still on the stack the outgoing set is visited or above it on the stack. -/
def Sheet.VisitInv (s : Sheet) (referenced : List (Option CellPtr)) (X : CellPtr)
    (visited to_visit : List CellPtr) : Prop :=
  (∀ e ∈ to_visit, Relation.ReflTransGen s.Edge X e ∧ e ∈ s.cells)
  ∧ (∀ v ∈ visited, some v ∉ referenced)
  ∧ (X ∈ visited ∨ X ∈ to_visit)
  ∧ (∀ v ∈ visited, ∀ d ∈ s.outgoing v, d ∈ visited ∨ d ∈ to_visit)
  ∧ (∀ pre e post, to_visit = pre ++ e :: post → e ∈ visited →
      ∀ d ∈ s.outgoing e, d ∈ visited ∨ d ∈ pre)

/-- The sheet after `SetCell(A1, "abc")`, `SetCell(B1, "=C1")`, `SetCell(D1, "=A1+B1+A1")`. -/
def errSheet : Sheet :=
  (trace 4 [.SetCell A1 "abc", .SetCell B1 "=C1", .SetCell D1 "=A1+B1+A1"] Sheet.empty).getD
    Sheet.empty

/-- The sheet `errSheet` after `GetValue(D1)`. -/
def errSheetRead : Sheet :=
  (Sheet.GetValue 4 D1 errSheet).after.getD Sheet.empty

/-- The sheet `errSheetRead` after a further `SetCell(C1, "5")`. -/
def errSheetEdited : Sheet :=
  (trace 4 [.SetCell C1 "5"] errSheetRead).getD Sheet.empty

/-- The cache behind a pointer is empty: if the object is a formula cell, it holds no cached
value. -/
def Sheet.CacheEmptyAt (s : Sheet) (p : CellPtr) : Prop :=
  ∀ c, s.cellAt p = some c → ∀ f cache, c.impl_ = .FormulaImpl f cache → cache = none

/-- The object behind a pointer is a formula cell whose cache is empty: the place where
`CashInvalidation` stops. -/
def Sheet.StopsAt (s : Sheet) (p : CellPtr) : Prop :=
  ∃ c f, s.cellAt p = some c ∧ c.impl_ = .FormulaImpl f none

/-- Two pointers to the same object. -/
def CellPtr.same (a b : CellPtr) : Prop :=
  a.pos.sameSlot b.pos ∧ a.stamp = b.stamp

/-- The cells a cascade started at `X` gets to: the ends of the chains that start at `X`,
follow the incoming sets of `g`, and pass only through `X` and cells that are not in
`stop`. -/
inductive Sheet.Cascades (g : Sheet) (stop : CellPtr → Prop) (X : CellPtr) : CellPtr → Prop where
  | root : Sheet.Cascades g stop X X
  | step (c d : CellPtr) : Sheet.Cascades g stop X c → (c = X ∨ ¬ stop c) →
      d ∈ g.incoming c → Sheet.Cascades g stop X d

/-- The sheet `t1` arises from `t` by emptying caches. -/
def Clears (t t1 : Sheet) : Prop :=
  ∀ q : Position,
    match t.slot q, t1.slot q with
    | some c, some c1 => c1 = c ∨ c1 = { c with impl_ := c.impl_.InvalidateCache }
    | none, none => True
    | _, _ => False

/-- Every cell in `P` has an empty cache in `t1`, and every member of its incoming set is
alive, has an empty cache in `t1`, and is in `Q` if its cache was valid in `t`. -/
def Covered (P Q : CellPtr → Prop) (t t1 : Sheet) : Prop :=
  (∀ d, P d → t1.CacheEmptyAt d)
  ∧ (∀ d, P d → ∀ cd, t.cellAt d = some cd → ∀ e ∈ cd.lhs_cells_,
      ∃ ce, t.cellAt e = some ce ∧ t1.CacheEmptyAt e
        ∧ (ce.impl_.IsCacheValid = true → Q e))

/-- Every cell whose cache is valid in `t` and not in `t1` is in `Q`. -/
def Flips (Q : CellPtr → Prop) (t t1 : Sheet) : Prop :=
  ∀ d cd cd1, t.cellAt d = some cd → t1.cellAt d = some cd1 →
    cd.impl_.IsCacheValid = true → cd1.impl_.IsCacheValid = false → Q d

/-- Outside the slots in `ex` the sheet `t` holds the cells of `s` with their stamps and
contents, caches included, and the cells it adds are Empty. -/
def Keeps (ex : Position → Prop) (s t : Sheet) : Prop :=
  ∀ q : Position, ¬ ex q →
    (∀ c, s.slot q = some c → ∃ c1, t.slot q = some c1 ∧ c1.stamp = c.stamp
      ∧ c1.impl_ = c.impl_)
    ∧ (s.slot q = none → ∀ c1, t.slot q = some c1 → c1.impl_ = .EmptyImpl)

/-- What a returned call `CashInvalidation(flag)` on `c` has done between `t` and `t1`: it
only emptied caches; `c` is alive; and some set `P` of cells, which contains `c` when the
call did not stop at once, is covered by itself and contains every cell whose cache was
emptied. -/
def CascadePost (c : CellPtr) (flag : Bool) (t t1 : Sheet) : Prop :=
  Clears t t1 ∧ ∃ P : CellPtr → Prop,
    (∃ cc, t.cellAt c = some cc
      ∧ ((flag = true ∨ cc.impl_.IsCacheValid = true) → ∀ d, CellPtr.same d c → P d))
    ∧ Covered P P t t1 ∧ Flips P t t1

/-- Every character is a decimal digit. -/
def AllDigits (ds : List Char) : Prop :=
  ∀ c ∈ ds, c.isDigit = true

/-- Decimal notation, exponent part: nothing, with value 0, or `e` or `E`, an optional sign
and at least one digit. -/
def IsExponent (ex : List Char) (k : Int) : Prop :=
  (ex = [] ∧ k = 0)
  ∨ ∃ (c : Char) (ds : List Char), (c = 'e' ∨ c = 'E') ∧ ds ≠ [] ∧ AllDigits ds
      ∧ ((ex = c :: ds ∧ k = (digitsVal ds : Int))
        ∨ (ex = c :: '+' :: ds ∧ k = (digitsVal ds : Int))
        ∨ (ex = c :: '-' :: ds ∧ k = -(digitsVal ds : Int)))

/-- Decimal notation without sign: digits with an optional decimal point, at least one digit
in all, and an exponent part; `y` is the number written. -/
def DenotesUnsigned (u : List Char) (y : ℚ) : Prop :=
  ∃ (ip fp ex : List Char) (k : Int), AllDigits ip ∧ AllDigits fp ∧ (ip ≠ [] ∨ fp ≠ [])
    ∧ IsExponent ex k
    ∧ ((u = ip ++ ex ∧ fp = []) ∨ u = ip ++ '.' :: (fp ++ ex))
    ∧ y = ((digitsVal ip : ℚ) + (digitsVal fp : ℚ) / (10 : ℚ) ^ fp.length) * (10 : ℚ) ^ k

/-- The whole string `u` is a number in decimal notation, with an optional sign in front, and
`x` is the number it denotes. -/
def Denotes (u : List Char) (x : ℚ) : Prop :=
  ∃ (body : List Char) (y : ℚ), DenotesUnsigned body y
    ∧ ((u = body ∧ x = y) ∨ (u = '+' :: body ∧ x = y) ∨ (u = '-' :: body ∧ x = -y))

/-- The sheet after `SetCell(A1, "1e999")`: a Literal that writes a number too large for a
`double`. -/
def hugeSheet : Sheet :=
  (trace 4 [.SetCell A1 "1e999"] Sheet.empty).getD Sheet.empty

/-- The sheet after `SetCell(A1, "1e-999")`: a Literal that writes a number too small for a
`double`. -/
def tinySheet : Sheet :=
  (trace 4 [.SetCell A1 "1e-999"] Sheet.empty).getD Sheet.empty

/-! # Theorems -/

/-! ## Lemmas: vectors and slots -/

theorem getD_resize_nil {α : Type} (l : List (List α)) (n i : Nat) (h : l.length ≤ n) :
    (resize l n []).getD i [] = l.getD i [] := by
  unfold resize
  rw [List.take_of_length_le h]
  simp only [List.getD_eq_getElem?_getD]
  by_cases hi : i < l.length
  · rw [List.getElem?_append_left hi]
  · rw [List.getElem?_append_right (by omega)]
    rw [List.getElem?_eq_none (by omega : l.length ≤ i)]
    simp [List.getElem?_replicate]
    split <;> simp

theorem getD_resize_none {α : Type} (l : List (Option α)) (n i : Nat) (h : l.length ≤ n) :
    (resize l n none).getD i none = l.getD i none := by
  unfold resize
  rw [List.take_of_length_le h]
  simp only [List.getD_eq_getElem?_getD]
  by_cases hi : i < l.length
  · rw [List.getElem?_append_left hi]
  · rw [List.getElem?_append_right (by omega)]
    rw [List.getElem?_eq_none (by omega : l.length ≤ i)]
    simp [List.getElem?_replicate]
    split <;> simp

theorem length_resize {α : Type} (l : List α) (n : Nat) (d : α) : (resize l n d).length = n := by
  unfold resize
  simp
  omega

theorem Position.IsValid_iff (p : Position) :
    p.IsValid = true ↔ 0 ≤ p.row ∧ 0 ≤ p.col ∧ p.row < MAX_ROWS ∧ p.col < MAX_COLS := by
  simp [Position.IsValid, and_assoc]

theorem Position.sameSlot_iff {p q : Position} (hp : p.IsValid = true) (hq : q.IsValid = true) :
    p.sameSlot q ↔ p = q := by
  rw [Position.IsValid_iff] at hp hq
  constructor
  · intro h
    obtain ⟨h1, h2⟩ := h
    cases p; cases q
    simp only [Position.mk.injEq]
    simp only at hp hq h1 h2
    omega
  · intro h; subst h; exact ⟨rfl, rfl⟩

theorem slot_eq_none_of_not_inRange (s : Sheet) (pos : Position) (h : ¬ s.inRange pos) :
    s.slot pos = none := by
  unfold Sheet.inRange at h
  unfold Sheet.slot
  simp only [List.getD_eq_getElem?_getD]
  by_cases h1 : pos.row.toNat < s.sheet_.length
  · have h2 : (s.sheet_.getD pos.row.toNat []).length ≤ pos.col.toNat := by
      by_contra hc; exact h ⟨h1, by omega⟩
    simp only [List.getD_eq_getElem?_getD] at h2
    rw [List.getElem?_eq_none h2]; rfl
  · rw [List.getElem?_eq_none (by omega : s.sheet_.length ≤ pos.row.toNat)]
    simp

theorem inRange_of_slot {s : Sheet} {pos : Position} {c : Cell} (h : s.slot pos = some c) :
    s.inRange pos := by
  by_contra hc
  rw [slot_eq_none_of_not_inRange s pos hc] at h
  exact Option.noConfusion h

theorem slot_setSlot (s : Sheet) (pos q : Position) (oc : Option Cell) (h : s.inRange pos) :
    (s.setSlot pos oc).slot q = if q.sameSlot pos then oc else s.slot q := by
  obtain ⟨h1, h2⟩ := h
  unfold Sheet.slot Sheet.setSlot Position.sameSlot
  simp only [List.getD_eq_getElem?_getD] at h2 ⊢
  by_cases hr : q.row.toNat = pos.row.toNat
  · rw [hr]
    rw [List.getElem?_set_self h1]
    simp only [Option.getD_some, true_and]
    by_cases hc : q.col.toNat = pos.col.toNat
    · rw [hc, List.getElem?_set_self h2]; simp
    · rw [List.getElem?_set_ne (Ne.symm hc)]; simp [hc]
  · rw [List.getElem?_set_ne (Ne.symm hr)]
    simp [hr]

theorem inRange_setSlot (s : Sheet) (pos q : Position) (oc : Option Cell) :
    (s.setSlot pos oc).inRange q ↔ s.inRange q := by
  unfold Sheet.inRange Sheet.setSlot
  simp only [List.length_set, List.getD_eq_getElem?_getD]
  by_cases hr : q.row.toNat = pos.row.toNat
  · rw [hr]
    by_cases h1 : pos.row.toNat < s.sheet_.length
    · rw [List.getElem?_set_self h1]; simp
    · rw [List.getElem?_eq_none (by simp; omega)]
      rw [List.getElem?_eq_none (by omega : s.sheet_.length ≤ pos.row.toNat)]
  · rw [List.getElem?_set_ne (Ne.symm hr)]

theorem allocated_setSlot (s : Sheet) (pos : Position) (oc : Option Cell) :
    (s.setSlot pos oc).allocated = s.allocated := rfl
theorem slot_grow (pos q : Position) (s : Sheet) : (Sheet.grow pos s).slot q = s.slot q := by
  unfold Sheet.grow Sheet.slot
  simp only
  have key : ∀ i, (if (s.sheet_.isEmpty || decide (pos.row ≥ (s.sheet_.length : Int))) = true
      then resize s.sheet_ (pos.row.toNat + 1) [] else s.sheet_).getD i [] = s.sheet_.getD i [] := by
    intro i
    split
    · rename_i h
      apply getD_resize_nil
      simp only [Bool.or_eq_true, decide_eq_true_eq, List.isEmpty_iff] at h
      rcases h with h | h
      · rw [h]; simp
      · omega
    · rfl
  generalize (if (s.sheet_.isEmpty || decide (pos.row ≥ (s.sheet_.length : Int))) = true
      then resize s.sheet_ (pos.row.toNat + 1) [] else s.sheet_) = rows at key
  split
  · rename_i h
    simp only [decide_eq_true_eq] at h
    by_cases hr : q.row.toNat = pos.row.toNat
    · rw [hr]
      by_cases hl : pos.row.toNat < rows.length
      · have h1 : (rows.set pos.row.toNat
            (resize (rows.getD pos.row.toNat []) (pos.col.toNat + 1) none)).getD pos.row.toNat []
            = resize (rows.getD pos.row.toNat []) (pos.col.toNat + 1) none := by
          simp only [List.getD_eq_getElem?_getD, List.getElem?_set_self hl, Option.getD_some]
        rw [h1, getD_resize_none _ _ _ (by omega), key]
      · have h1 : (rows.set pos.row.toNat
            (resize (rows.getD pos.row.toNat []) (pos.col.toNat + 1) none)).getD pos.row.toNat []
            = rows.getD pos.row.toNat [] := by
          rw [List.set_eq_of_length_le (by omega)]
        rw [h1, key]
    · have h1 : (rows.set pos.row.toNat
          (resize (rows.getD pos.row.toNat []) (pos.col.toNat + 1) none)).getD q.row.toNat []
          = rows.getD q.row.toNat [] := by
        simp only [List.getD_eq_getElem?_getD, List.getElem?_set_ne (Ne.symm hr)]
      rw [h1, key]
  · rw [key]

theorem inRange_grow (pos : Position) (s : Sheet) (hv : pos.IsValid = true) :
    (Sheet.grow pos s).inRange pos := by
  rw [Position.IsValid_iff] at hv
  unfold Sheet.grow Sheet.inRange
  simp only
  have hlen : pos.row.toNat < (if (s.sheet_.isEmpty || decide (pos.row ≥ (s.sheet_.length : Int))) = true
      then resize s.sheet_ (pos.row.toNat + 1) [] else s.sheet_).length := by
    split
    · rw [length_resize]; omega
    · rename_i h
      simp only [Bool.or_eq_true, decide_eq_true_eq, not_or, not_le] at h
      omega
  generalize (if (s.sheet_.isEmpty || decide (pos.row ≥ (s.sheet_.length : Int))) = true
      then resize s.sheet_ (pos.row.toNat + 1) [] else s.sheet_) = rows at hlen
  split
  · simp only [List.length_set, List.getD_eq_getElem?_getD, List.getElem?_set_self hlen,
      Option.getD_some, length_resize]
    exact ⟨hlen, by omega⟩
  · rename_i h
    simp only [decide_eq_true_eq, not_le] at h
    exact ⟨hlen, by omega⟩

theorem allocated_grow (pos : Position) (s : Sheet) : (Sheet.grow pos s).allocated = s.allocated :=
  rfl
/-! ## Lemmas: running code -/

theorem bind_run {α β : Type} (m : M α) (f : α → M β) (s : Sheet) :
    (m >>= f) s = match m s with
      | .ok a s1 => f a s1
      | .throw e s1 => .throw e s1
      | .ub => .ub
      | .overflow => .overflow := rfl

theorem pure_run {α : Type} (a : α) (s : Sheet) : (pure a : M α) s = .ok a s := rfl

theorem raise_run {α : Type} (e : Exception) (s : Sheet) : (raise e : M α) s = .throw e s := rfl

theorem GetCellPtr_valid (s : Sheet) (pos : Position) (hv : pos.IsValid = true) :
    Sheet.GetCellPtr pos s = .ok (s.ptrAt pos) s := by
  unfold Sheet.GetCellPtr Sheet.ptrAt
  simp only [hv, Bool.not_true, Bool.false_eq_true, if_false]
  split
  · rename_i h
    rw [slot_eq_none_of_not_inRange]
    · rfl
    · rw [Position.IsValid_iff] at hv
      unfold Sheet.inRange
      simp only [Bool.or_eq_true, decide_eq_true_eq, List.isEmpty_iff] at h
      rcases h with (h | h) | h
      · rw [h]; simp
      · omega
      · omega
  · rfl

theorem GetCellPtr_invalid (s : Sheet) (pos : Position) (hv : pos.IsValid = false) :
    Sheet.GetCellPtr pos s = .throw .InvalidPosition s := by
  unfold Sheet.GetCellPtr
  simp [hv]

theorem deref_of_slot (s : Sheet) (pos : Position) (c : Cell) (h : s.slot pos = some c) :
    deref ⟨pos, c.stamp⟩ s = .ok c s := by
  unfold deref
  simp [h]

theorem modify_of_slot (s : Sheet) (pos : Position) (c : Cell) (f : Cell → Cell)
    (h : s.slot pos = some c) :
    modify ⟨pos, c.stamp⟩ f s = .ok () (s.setSlot pos (some (f c))) := by
  unfold modify
  simp [h]

theorem deref_eq_ok {p : CellPtr} {s s1 : Sheet} {c : Cell} (h : deref p s = .ok c s1) :
    s1 = s ∧ s.slot p.pos = some c ∧ c.stamp = p.stamp := by
  unfold deref at h
  split at h
  · rename_i c0 hc0
    split at h
    · rename_i hst
      injection h with h1 h2
      subst h1 h2
      exact ⟨rfl, hc0, hst⟩
    · exact Res.noConfusion h
  · exact Res.noConfusion h

theorem deref_ne_throw (p : CellPtr) (s s1 : Sheet) (e : Exception) :
    deref p s ≠ .throw e s1 := by
  unfold deref
  intro h
  split at h
  · split at h <;> exact Res.noConfusion h
  · exact Res.noConfusion h

theorem modify_eq_ok {p : CellPtr} {f : Cell → Cell} {s s1 : Sheet} {u : Unit}
    (h : modify p f s = .ok u s1) :
    ∃ c, s.slot p.pos = some c ∧ c.stamp = p.stamp ∧ s1 = s.setSlot p.pos (some (f c)) := by
  unfold modify at h
  split at h
  · rename_i c0 hc0
    split at h
    · rename_i hst
      injection h with h1 h2
      exact ⟨c0, hc0, hst, h2.symm⟩
    · exact Res.noConfusion h
  · exact Res.noConfusion h

theorem modify_ne_throw (p : CellPtr) (f : Cell → Cell) (s s1 : Sheet) (e : Exception) :
    modify p f s ≠ .throw e s1 := by
  unfold modify
  intro h
  split at h
  · split at h <;> exact Res.noConfusion h
  · exact Res.noConfusion h

theorem mapEach_GetCellPtr (s : Sheet) (l : List Position)
    (hv : ∀ p ∈ l, p.IsValid = true) :
    mapEach Sheet.GetCellPtr l s = .ok (l.map s.ptrAt) s := by
  induction l with
  | nil => rfl
  | cons p l ih =>
    unfold mapEach
    rw [bind_run, GetCellPtr_valid s p (hv p (List.mem_cons_self _ _))]
    simp only
    rw [bind_run, ih (fun q hq => hv q (List.mem_cons_of_mem _ hq))]
    rfl

theorem unique_subset {α : Type} [DecidableEq α] : ∀ (l : List α) (x : α), x ∈ unique l → x ∈ l
  | [], _, h => h
  | [_], _, h => h
  | a :: b :: rest, x, h => by
    unfold unique at h
    split at h
    · exact List.mem_cons_of_mem _ (unique_subset (b :: rest) x h)
    · rcases List.mem_cons.mp h with h1 | h1
      · rw [h1]; exact List.mem_cons_self _ _
      · exact List.mem_cons_of_mem _ (unique_subset (b :: rest) x h1)

theorem GetReferencedCells_valid (ast : FormulaAST) :
    ∀ p ∈ Formula.GetReferencedCells ast, p.IsValid = true := by
  intro p hp
  have := unique_subset _ p hp
  exact (List.mem_filter.mp this).2

theorem Impl_refs_valid (impl : Impl) :
    ∀ p ∈ impl.GetReferencedCells, p.IsValid = true := by
  cases impl with
  | EmptyImpl => intro p hp; simp [Impl.GetReferencedCells] at hp
  | TextImpl t => intro p hp; simp [Impl.GetReferencedCells] at hp
  | FormulaImpl f c => exact Spreadsheet.GetReferencedCells_valid f

theorem FormulaImpl_ctor_ok (text : String) (ast : FormulaAST) (s : Sheet)
    (hsign : text.data.head? = some FORMULA_SIGN)
    (hparse : ParseFormulaAST (substr1 text) = some ast) :
    FormulaImpl.ctor text s = .ok (.FormulaImpl ast none) s := by
  have hne : text.data.isEmpty = false := by
    cases h : text.data with
    | nil => rw [h] at hsign; simp at hsign
    | cons a l => rfl
  unfold FormulaImpl.ctor
  simp only [hne, hsign, bne_self_eq_false, Bool.or_self, Bool.false_eq_true, if_false]
  rw [bind_run]
  unfold ParseFormula
  rw [hparse]
  rfl

theorem slot_after_insert (s : Sheet) (pos : Position) (hv : pos.IsValid = true) :
    ∃ c, (match (Sheet.grow pos s).slot pos with
      | some _ => Sheet.grow pos s
      | none => (⟨((Sheet.grow pos s).setSlot pos (some (Sheet.grow pos s).newCell)).sheet_,
          (Sheet.grow pos s).allocated + 1⟩ : Sheet)).slot pos = some c := by
  cases h : (Sheet.grow pos s).slot pos with
  | some c => exact ⟨c, h⟩
  | none =>
    refine ⟨(Sheet.grow pos s).newCell, ?_⟩
    have := slot_setSlot (Sheet.grow pos s) pos pos (some (Sheet.grow pos s).newCell)
      (inRange_grow pos s hv)
    simp only [Position.sameSlot, and_self, if_true] at this
    exact this

theorem Cell_Set_self_reference (s : Sheet) (pos : Position) (c : Cell) (text : String)
    (ast : FormulaAST) (fuel : Nat) (SetCell : Position → String → M Unit)
    (hslot : s.slot pos = some c)
    (hsign : text.data.head? = some FORMULA_SIGN) (hlen : text.data.length > 1)
    (hparse : ParseFormulaAST (substr1 text) = some ast)
    (href : pos ∈ Formula.GetReferencedCells ast) :
    Cell.Set (fuel + 1) SetCell ⟨pos, c.stamp⟩ text s = .throw .CircularDependency s := by
  have hne : text.data.isEmpty = false := by
    cases h : text.data with
    | nil => rw [h] at hsign; simp at hsign
    | cons a l => rfl
  unfold Cell.Set
  simp only [hne, hsign, hlen, Bool.false_eq_true, if_false, and_self, if_true]
  rw [bind_run, FormulaImpl_ctor_ok text ast s hsign hparse]
  simp only
  rw [bind_run]
  have hcirc : Cell.IsThereCircularDependency (fuel + 1) ⟨pos, c.stamp⟩ (.FormulaImpl ast none) s
      = .ok true s := by
    unfold Cell.IsThereCircularDependency
    have hne2 : (Impl.FormulaImpl ast none).GetReferencedCells.isEmpty = false := by
      simp only [Impl.GetReferencedCells]
      cases h : Formula.GetReferencedCells ast with
      | nil => rw [h] at href; simp at href
      | cons a l => rfl
    simp only [hne2, Bool.false_eq_true, if_false]
    rw [bind_run, mapEach_GetCellPtr s _ (Impl_refs_valid _)]
    simp only
    unfold Cell.visitLoop
    have hmem : some (⟨pos, c.stamp⟩ : CellPtr)
        ∈ List.map s.ptrAt (Impl.FormulaImpl ast none).GetReferencedCells := by
      apply List.mem_map.mpr
      refine ⟨pos, href, ?_⟩
      simp [Sheet.ptrAt, hslot]
    simp only [hmem, if_true]
    rfl
  rw [hcirc]
  rfl
/-! ## Lemmas: which exceptions a piece of code can throw -/

theorem onlyThrows_pure {α : Type} (P : Exception → Prop) (a : α) : OnlyThrows P (pure a : M α) := by
  intro s e s1 h
  exact Res.noConfusion h

theorem onlyThrows_raise {α : Type} (P : Exception → Prop) (e : Exception) (h : P e) :
    OnlyThrows P (raise e : M α) := by
  intro s e1 s1 h1
  rw [raise_run] at h1
  injection h1 with h2 h3
  rw [← h2]; exact h

theorem onlyThrows_bind {α β : Type} (P : Exception → Prop) (m : M α) (f : α → M β)
    (hm : OnlyThrows P m) (hf : ∀ a, OnlyThrows P (f a)) : OnlyThrows P (m >>= f) := by
  intro s e s1 h
  rw [bind_run] at h
  split at h
  · rename_i a s2 _
    exact hf a s2 e s1 h
  · rename_i e2 s2 hm2
    injection h with h2 h3
    rw [← h2]
    exact hm s e2 s2 hm2
  · exact Res.noConfusion h
  · exact Res.noConfusion h

theorem onlyThrows_forEach {α : Type} (P : Exception → Prop) (f : α → M Unit) (l : List α)
    (hf : ∀ a, OnlyThrows P (f a)) : OnlyThrows P (forEach f l) := by
  induction l with
  | nil => exact onlyThrows_pure P ()
  | cons x xs ih =>
    unfold forEach
    exact onlyThrows_bind P _ _ (hf x) (fun _ => ih)

theorem onlyThrows_deref (P : Exception → Prop) (p : CellPtr) : OnlyThrows P (deref p) := by
  intro s e s1 h
  exact absurd h (deref_ne_throw p s s1 e)

theorem onlyThrows_modify (P : Exception → Prop) (p : CellPtr) (f : Cell → Cell) :
    OnlyThrows P (modify p f) := by
  intro s e s1 h
  exact absurd h (modify_ne_throw p f s s1 e)

theorem onlyThrows_GetCellPtr (P : Exception → Prop) (hP : P .InvalidPosition) (pos : Position) :
    OnlyThrows P (Sheet.GetCellPtr pos) := by
  intro s e s1 h
  unfold Sheet.GetCellPtr at h
  split at h
  · injection h with h1 h2
    rw [← h1]; exact hP
  · split at h <;> exact Res.noConfusion h

theorem onlyThrows_CashInvalidation (P : Exception → Prop) (fuel : Nat) :
    ∀ (this : CellPtr) (flag : Bool), OnlyThrows P (Cell.CashInvalidation fuel this flag) := by
  induction fuel with
  | zero =>
    intro this flag s e s1 h
    unfold Cell.CashInvalidation at h
    exact Res.noConfusion h
  | succ n ih =>
    intro this flag
    unfold Cell.CashInvalidation
    apply onlyThrows_bind P _ _ (onlyThrows_deref P this)
    intro c
    split
    · apply onlyThrows_bind P _ _ (onlyThrows_modify P _ _)
      intro _
      exact onlyThrows_forEach P _ _ (fun d => ih d false)
    · exact onlyThrows_pure P ()

theorem onlyThrows_link (P : Exception → Prop) (hP : P .InvalidPosition)
    (SetCell : Position → String → M Unit) (hcb : ∀ p, OnlyThrows P (SetCell p ""))
    (this : CellPtr) (pos : Position) : OnlyThrows P (Cell.link SetCell this pos) := by
  unfold Cell.link
  apply onlyThrows_bind P _ _ (onlyThrows_GetCellPtr P hP pos)
  intro found
  apply onlyThrows_bind P
  · cases found with
    | some q => exact onlyThrows_pure P _
    | none =>
      exact onlyThrows_bind P _ _ (hcb pos) (fun _ => onlyThrows_GetCellPtr P hP pos)
  · intro curr
    cases curr with
    | none => intro s e s1 h; exact Res.noConfusion h
    | some q =>
      exact onlyThrows_bind P _ _ (onlyThrows_modify P _ _) (fun _ => onlyThrows_modify P _ _)

/-- The part of `Cell::Set` after the cycle check (cell.cpp 174-192) throws only what the
installation of edges can throw. -/
theorem onlyThrows_commit (P : Exception → Prop) (hP : P .InvalidPosition)
    (SetCell : Position → String → M Unit) (hcb : ∀ p, OnlyThrows P (SetCell p ""))
    (fuel : Nat) (this : CellPtr) (impl : Impl) :
    OnlyThrows P (do
      modify this (fun c => { c with impl_ := impl })
      let c ← deref this
      forEach (fun curr_cell =>
        modify curr_cell (fun d => { d with lhs_cells_ := setErase this d.lhs_cells_ }))
        c.rhs_cells_
      modify this (fun c => { c with rhs_cells_ := [] })
      forEach (Cell.link SetCell this) impl.GetReferencedCells
      Cell.CashInvalidation fuel this true) := by
  apply onlyThrows_bind P _ _ (onlyThrows_modify P _ _)
  intro _
  apply onlyThrows_bind P _ _ (onlyThrows_deref P _)
  intro c
  apply onlyThrows_bind P _ _ (onlyThrows_forEach P _ _ (fun _ => onlyThrows_modify P _ _))
  intro _
  apply onlyThrows_bind P _ _ (onlyThrows_modify P _ _)
  intro _
  apply onlyThrows_bind P _ _ (onlyThrows_forEach P _ _ (onlyThrows_link P hP SetCell hcb this))
  intro _
  exact onlyThrows_CashInvalidation P fuel this true

theorem visitLoop_state (referenced : List (Option CellPtr)) (fuel : Nat) :
    ∀ (visited to_visit : List CellPtr) (s : Sheet),
      (∃ b, Cell.visitLoop referenced fuel visited to_visit s = .ok b s)
      ∨ Cell.visitLoop referenced fuel visited to_visit s = .ub
      ∨ Cell.visitLoop referenced fuel visited to_visit s = .overflow := by
  induction fuel with
  | zero =>
    intro visited to_visit s
    cases to_visit with
    | nil => left; exact ⟨false, rfl⟩
    | cons a l => right; right; rfl
  | succ n ih =>
    intro visited to_visit s
    cases to_visit with
    | nil => left; exact ⟨false, rfl⟩
    | cons a l =>
      unfold Cell.visitLoop
      split
      · left; exact ⟨true, rfl⟩
      · rw [bind_run]
        cases hd : deref a s with
        | ok c s1 =>
          obtain ⟨h1, -, -⟩ := deref_eq_ok hd
          subst h1
          exact ih _ _ _
        | throw e s1 => exact absurd hd (deref_ne_throw a s s1 e)
        | ub => right; left; rfl
        | overflow => right; right; rfl

/-- The cycle check is a pure observation: it returns without changing the sheet, or has no
defined result at all; it never throws. -/
theorem IsThereCircularDependency_state (fuel : Nat) (this : CellPtr) (new_impl : Impl)
    (s : Sheet) :
    (∃ b, Cell.IsThereCircularDependency fuel this new_impl s = .ok b s)
    ∨ Cell.IsThereCircularDependency fuel this new_impl s = .ub
    ∨ Cell.IsThereCircularDependency fuel this new_impl s = .overflow := by
  unfold Cell.IsThereCircularDependency
  split
  · left; exact ⟨false, rfl⟩
  · rw [bind_run, mapEach_GetCellPtr s _ (Impl_refs_valid _)]
    exact visitLoop_state _ fuel [] [this] s

theorem makeImpl_state (text : String) (s : Sheet) :
    (∃ impl, (if text.data.isEmpty then (pure Impl.EmptyImpl : M Impl)
      else if text.data.head? = some FORMULA_SIGN ∧ text.data.length > 1 then FormulaImpl.ctor text
      else TextImpl.ctor text) s = .ok impl s)
    ∨ (∃ e, e ≠ Exception.CircularDependency ∧
      (if text.data.isEmpty then (pure Impl.EmptyImpl : M Impl)
      else if text.data.head? = some FORMULA_SIGN ∧ text.data.length > 1 then FormulaImpl.ctor text
      else TextImpl.ctor text) s = .throw e s) := by
  split
  · left; exact ⟨_, rfl⟩
  · split
    · unfold FormulaImpl.ctor
      split
      · right; exact ⟨.logic_error, by decide, rfl⟩
      · rw [bind_run]
        unfold ParseFormula
        cases ParseFormulaAST (substr1 text) with
        | none => right; exact ⟨.FormulaException, by decide, rfl⟩
        | some ast => left; exact ⟨_, rfl⟩
    · unfold TextImpl.ctor
      split
      · right; exact ⟨.logic_error, by decide, rfl⟩
      · left; exact ⟨_, rfl⟩

theorem Cell_Set_throw_CircularDependency (fuel : Nat) (SetCell : Position → String → M Unit)
    (hcb : ∀ p, OnlyThrows (fun e => e ≠ .CircularDependency) (SetCell p ""))
    (this : CellPtr) (text : String) (s s1 : Sheet)
    (h : Cell.Set fuel SetCell this text s = .throw .CircularDependency s1) : s1 = s := by
  unfold Cell.Set at h
  rw [bind_run] at h
  rcases makeImpl_state text s with ⟨impl, hi⟩ | ⟨e, hne, hi⟩
  · rw [hi] at h
    simp only at h
    rw [bind_run] at h
    rcases IsThereCircularDependency_state fuel this impl s with ⟨b, hb⟩ | hb | hb
    · rw [hb] at h
      simp only at h
      cases b with
      | true =>
        simp only [if_true] at h
        rw [raise_run] at h
        injection h with h1 h2
        exact h2.symm
      | false =>
        simp only [Bool.false_eq_true, if_false] at h
        exact absurd rfl (onlyThrows_commit (fun e => e ≠ .CircularDependency) (by decide)
          SetCell hcb fuel this impl s _ s1 h)
    · rw [hb] at h; exact Res.noConfusion h
    · rw [hb] at h; exact Res.noConfusion h
  · rw [hi] at h
    simp only at h
    injection h with h1 h2
    exact absurd h1 hne

theorem onlyThrows_SetCell_empty (fuel : Nat) :
    ∀ pos, OnlyThrows (fun e => e ≠ .CircularDependency) (Sheet.SetCell fuel pos "") := by
  induction fuel with
  | zero =>
    intro pos s e s1 h
    exact Res.noConfusion h
  | succ n ih =>
    intro pos s e s1 h
    unfold Sheet.SetCell at h
    simp only at h
    split at h
    · injection h with h1 h2
      rw [← h1]; decide
    · split at h
      · exact Res.noConfusion h
      · rename_i c hc
        unfold Cell.Set at h
        have h0 : ("" : String).data.isEmpty = true := rfl
        simp only [h0, if_true] at h
        rw [bind_run, pure_run] at h
        simp only at h
        rw [bind_run] at h
        have hc0 : ∀ s2, Cell.IsThereCircularDependency n ⟨pos, c.stamp⟩ Impl.EmptyImpl s2
            = .ok false s2 := fun _ => rfl
        rw [hc0] at h
        simp only [Bool.false_eq_true, if_false] at h
        exact onlyThrows_commit (fun e => e ≠ .CircularDependency) (by decide)
          (Sheet.SetCell n) ih n _ Impl.EmptyImpl _ e s1 h

theorem reachable_trace (fuel : Nat) (cs : List Call) :
    ∀ (s s1 : Sheet), Reachable s → trace fuel cs s = some s1 → Reachable s1 := by
  induction cs with
  | nil =>
    intro s s1 hs h
    injection h with h1
    rw [← h1]; exact hs
  | cons c cs ih =>
    intro s s1 hs h
    unfold trace at h
    split at h
    · rename_i s2 h2
      exact ih s2 s1 (Reachable.step fuel c s s2 hs h2) h
    · exact Option.noConfusion h

/-! ## The claims -/

/-- C1 (the code at the failing input): after `SetCell(A1, "=B1")` and `SetCell(B1, "=C1")` the
call `SetCell(C1, "=A1")` returns normally instead of failing with CircularDependency, and the
edge from C1 to A1 is installed. -/
theorem cycle_closing_SetCell_accepted :
    ((do Sheet.SetCell 4 A1 "=B1"; Sheet.SetCell 4 B1 "=C1"; Sheet.SetCell 4 C1 "=A1")
      Sheet.empty).isOk = true
    ∧ ((trace 4 [.SetCell A1 "=B1", .SetCell B1 "=C1"] Sheet.empty).map
        (fun s => (Sheet.SetCell 4 C1 "=A1" s).thrown)) = some none
    ∧ cycleSheet.outgoing ⟨C1, 2⟩ = [⟨A1, 0⟩] := by
  decide!

/-- C2 (the code at the failing input): `SetCell(A1, "=B1")` succeeds on the empty sheet, and
repeating the same call, which closes no cycle, fails with CircularDependency. -/
theorem repeated_SetCell_rejected :
    (Sheet.SetCell 4 A1 "=B1" Sheet.empty).isOk = true
    ∧ (Sheet.SetCell 4 A1 "=B1" oneFormulaSheet).thrown = some .CircularDependency := by
  decide!

/-- C3 (the code at the failing input): on the empty sheet `SetCell(A1, "=A1")` fails with
CircularDependency and `SetCell(A1, "=(")` fails with FormulaException, and in both cases an
Empty cell exists at A1 afterwards where none existed before. -/
theorem failed_SetCell_leaves_cell :
    Sheet.empty.slot A1 = none
    ∧ (Sheet.SetCell 4 A1 "=A1" Sheet.empty).thrown = some .CircularDependency
    ∧ ((Sheet.SetCell 4 A1 "=A1" Sheet.empty).after.bind (fun s => s.slot A1))
        = some ⟨0, .EmptyImpl, [], []⟩
    ∧ (Sheet.SetCell 4 A1 "=(" Sheet.empty).thrown = some .FormulaException
    ∧ ((Sheet.SetCell 4 A1 "=(" Sheet.empty).after.bind (fun s => s.slot A1))
        = some ⟨0, .EmptyImpl, [], []⟩ := by
  decide!

/-- C4: the cycle check `Cell::IsThereCircularDependency` never changes the sheet (it returns
in the state it started from and never throws), and when `Cell::Set` fails with
CircularDependency the whole sheet, hence the cell it was called on with its content,
outgoing set, incoming set and cache, is exactly what it was before the call. -/
theorem Cell_Set_failure_atomic (fuel fuel1 : Nat) (this : CellPtr) (text : String)
    (s s1 : Sheet)
    (h : Cell.Set fuel (Sheet.SetCell fuel1) this text s = .throw .CircularDependency s1) :
    s1 = s ∧ s1.cellAt this = s.cellAt this
    ∧ ∀ (new_impl : Impl) (s2 : Sheet),
        (Cell.IsThereCircularDependency fuel this new_impl s).after = some s2 → s2 = s := by
  have h1 := Cell_Set_throw_CircularDependency fuel (Sheet.SetCell fuel1)
    (onlyThrows_SetCell_empty fuel1) this text s s1 h
  refine ⟨h1, by rw [h1], ?_⟩
  intro new_impl s2 h2
  rcases IsThereCircularDependency_state fuel this new_impl s with ⟨b, hb⟩ | hb | hb
  · rw [hb] at h2
    injection h2 with h3
    exact h3.symm
  · rw [hb] at h2; exact Option.noConfusion h2
  · rw [hb] at h2; exact Option.noConfusion h2

/-- C4, witness: on the sheet holding `A1 = "=B1"`, `Cell::Set("=B1")` on the cell at A1 fails
with CircularDependency and the sheet is unchanged. -/
theorem Cell_Set_failure_atomic_witness :
    Cell.Set 3 (Sheet.SetCell 3) ⟨A1, 0⟩ "=B1" oneFormulaSheet
        = .throw .CircularDependency oneFormulaSheet
    ∧ oneFormulaSheet.cellAt ⟨A1, 0⟩
        = some ⟨0, .FormulaImpl (.CellRef B1) none, [], [⟨B1, 1⟩]⟩ :=
  ⟨by
    have h : ∃ s1, Cell.Set 3 (Sheet.SetCell 3) ⟨A1, 0⟩ "=B1" oneFormulaSheet
        = .throw .CircularDependency s1 := by
      refine ⟨oneFormulaSheet, ?_⟩
      decide!
    obtain ⟨s1, h1⟩ := h
    have := (Cell_Set_failure_atomic 3 3 ⟨A1, 0⟩ "=B1" oneFormulaSheet s1 h1).1
    rw [this] at h1
    exact h1, by decide!⟩

/-- C5 (the code at the failing input): the sheet reached by `SetCell(A1, "=B1")`,
`SetCell(B1, "=C1")`, `SetCell(C1, "=A1")` has the directed cycle A1 → B1 → C1 → A1 in its
outgoing-edge graph. -/
theorem reachable_sheet_with_cycle : Reachable cycleSheet ∧ ¬ cycleSheet.Acyclic := by
  constructor
  · apply reachable_trace 4 [.SetCell A1 "=B1", .SetCell B1 "=C1", .SetCell C1 "=A1"]
      Sheet.empty cycleSheet Reachable.empty
    decide!
  · intro h
    apply h ⟨A1, 0⟩
    have e1 : cycleSheet.Edge ⟨A1, 0⟩ ⟨B1, 1⟩ := by decide!
    have e2 : cycleSheet.Edge ⟨B1, 1⟩ ⟨C1, 2⟩ := by decide!
    have e3 : cycleSheet.Edge ⟨C1, 2⟩ ⟨A1, 0⟩ := by decide!
    exact Relation.TransGen.tail (Relation.TransGen.tail (Relation.TransGen.single e1) e2) e3

/-- C6: for every sheet, every valid position `pos` and every formula text (an equals sign
followed by an expression that parses) whose list of valid referenced positions contains
`pos`, `SetCell(pos, text)` fails with CircularDependency, whatever budget of at least two
calls it is given. -/
theorem SetCell_self_reference_rejected (s : Sheet) (pos : Position) (text : String)
    (ast : FormulaAST) (fuel : Nat)
    (hv : pos.IsValid = true)
    (hsign : text.data.head? = some FORMULA_SIGN) (hlen : text.data.length > 1)
    (hparse : ParseFormulaAST (substr1 text) = some ast)
    (href : pos ∈ Formula.GetReferencedCells ast) :
    (Sheet.SetCell (fuel + 2) pos text s).thrown = some .CircularDependency := by
  obtain ⟨c, hc⟩ := slot_after_insert s pos hv
  unfold Sheet.SetCell
  simp only [hv, Bool.not_true, Bool.false_eq_true, if_false]
  rw [hc]
  simp only
  rw [Cell_Set_self_reference _ pos c text ast fuel _ hc hsign hlen hparse href]
  rfl

/-- C6, witness: `SetCell(A1, "=A1")` on the empty sheet fails with CircularDependency. -/
theorem SetCell_self_reference_rejected_witness :
    (Sheet.SetCell 2 A1 "=A1" Sheet.empty).thrown = some .CircularDependency :=
  SetCell_self_reference_rejected Sheet.empty A1 "=A1" (.CellRef A1) 0
    (by decide) (by decide) (by decide) (by decide!) (by decide!)

theorem slot_setSlot_other (s : Sheet) (pos q : Position) (oc : Option Cell)
    (hp : pos.IsValid = true) (hq : q.IsValid = true) (hne : q ≠ pos) :
    (s.setSlot pos oc).slot q = s.slot q := by
  by_cases hr : s.inRange pos
  · rw [slot_setSlot s pos q oc hr, if_neg]
    intro h
    exact hne ((Position.sameSlot_iff hq hp).mp h)
  · have h1 : ¬ (s.setSlot pos oc).inRange pos := by
      rw [inRange_setSlot]; exact hr
    by_cases hq2 : s.inRange q
    · unfold Sheet.setSlot Sheet.slot
      unfold Sheet.inRange at hr
      by_cases hlen : pos.row.toNat < s.sheet_.length
      · have hcol : (s.sheet_.getD pos.row.toNat []).length ≤ pos.col.toNat := by
          by_contra hc; exact hr ⟨hlen, by omega⟩
        rw [List.set_eq_of_length_le (l := s.sheet_.getD pos.row.toNat []) hcol]
        simp only [List.getD_eq_getElem?_getD]
        by_cases hrow : q.row.toNat = pos.row.toNat
        · rw [hrow, List.getElem?_set_self hlen]
          simp
        · rw [List.getElem?_set_ne (Ne.symm hrow)]
      · rw [List.set_eq_of_length_le (by omega)]
    · rw [slot_eq_none_of_not_inRange s q hq2, slot_eq_none_of_not_inRange]
      rw [inRange_setSlot]; exact hq2

theorem slot_setSlot_self (s : Sheet) (pos : Position) (oc : Option Cell) (h : s.inRange pos) :
    (s.setSlot pos oc).slot pos = oc := by
  rw [slot_setSlot s pos pos oc h, if_pos ⟨rfl, rfl⟩]

/-- C8: for every sheet and every valid position `pos`, `ClearCell(pos)` returns normally and
(1) changes nothing when no cell existed at `pos`; (2) when a cell existed whose incoming set
was non-empty, leaves a cell at `pos` with `GetText` "" and `GetValue` ""; (3) when a cell
existed whose incoming set was empty, leaves no cell at `pos` (`GetCell` is null); and (4) in
every case leaves the content, hence `GetText`, of the cell at every other position as it
was. -/
theorem ClearCell_contract (s : Sheet) (pos : Position) (hv : pos.IsValid = true) :
    ∃ s1, Sheet.ClearCell pos s = .ok () s1
      ∧ (s.slot pos = none → s1 = s)
      ∧ (∀ c, s.slot pos = some c → c.lhs_cells_ ≠ [] →
          (∃ p, Sheet.GetCell pos s1 = .ok (some p) s1)
          ∧ (∀ GetExpression, Sheet.GetText GetExpression pos s1 = some "")
          ∧ (∀ fuel, (Sheet.GetValue (fuel + 1) pos s1).value = some (some (.str ""))))
      ∧ (∀ c, s.slot pos = some c → c.lhs_cells_ = [] → Sheet.GetCell pos s1 = .ok none s1)
      ∧ (∀ q, q.IsValid = true → q ≠ pos →
          (s1.slot q).map Cell.impl_ = (s.slot q).map Cell.impl_
          ∧ ∀ GetExpression, Sheet.GetText GetExpression q s1 = Sheet.GetText GetExpression q s) := by
  unfold Sheet.ClearCell
  simp only [hv, Bool.not_true, Bool.false_eq_true, if_false]
  rw [bind_run]
  unfold Sheet.GetCell
  rw [GetCellPtr_valid s pos hv]
  cases hs : s.slot pos with
  | none =>
    refine ⟨s, ?_, fun _ => rfl, ?_, ?_, ?_⟩
    · simp [Sheet.ptrAt, hs, pure_run]
    · intro c hc; exact Option.noConfusion hc
    · intro c hc; exact Option.noConfusion hc
    · intro q _ _; exact ⟨rfl, fun _ => rfl⟩
  | some c =>
    have hr : s.inRange pos := inRange_of_slot hs
    have hptr : s.ptrAt pos = some ⟨pos, c.stamp⟩ := by simp [Sheet.ptrAt, hs]
    have hclear : Cell.Clear ⟨pos, c.stamp⟩ s
        = .ok () (s.setSlot pos (some { c with impl_ := Impl.EmptyImpl })) :=
      modify_of_slot s pos c _ hs
    have hslot1 : (s.setSlot pos (some { c with impl_ := Impl.EmptyImpl })).slot pos
        = some { c with impl_ := Impl.EmptyImpl } := slot_setSlot_self s pos _ hr
    have hderef : deref ⟨pos, c.stamp⟩ (s.setSlot pos (some { c with impl_ := Impl.EmptyImpl }))
        = .ok { c with impl_ := Impl.EmptyImpl }
          (s.setSlot pos (some { c with impl_ := Impl.EmptyImpl })) :=
      deref_of_slot _ pos { c with impl_ := Impl.EmptyImpl } hslot1
    simp only [hptr]
    rw [bind_run, hclear]
    simp only
    rw [bind_run]
    unfold Cell.IsReferenced
    rw [bind_run, hderef]
    simp only [pure_run]
    by_cases hl : c.lhs_cells_ = []
    · -- the cell is destroyed
      have hemp : (!c.lhs_cells_.isEmpty) = false := by rw [hl]; rfl
      simp only [hemp, Bool.not_false, if_true]
      refine ⟨_, rfl, ?_, ?_, ?_, ?_⟩
      · intro h; exact Option.noConfusion h
      · intro c1 hc1 hne
        injection hc1 with hc1
        subst hc1
        exact absurd hl hne
      · intro c1 _ _
        rw [GetCellPtr_valid _ pos hv]
        have : ((s.setSlot pos (some { c with impl_ := Impl.EmptyImpl })).setSlot pos none).slot pos
            = none := slot_setSlot_self _ pos none ((inRange_setSlot s pos pos _).mpr hr)
        simp [Sheet.ptrAt, this]
      · intro q hq hne
        have h1 : ((s.setSlot pos (some { c with impl_ := Impl.EmptyImpl })).setSlot pos none).slot q
            = s.slot q := by
          rw [slot_setSlot_other _ pos q _ hv hq hne, slot_setSlot_other _ pos q _ hv hq hne]
        exact ⟨by rw [h1], fun _ => by unfold Sheet.GetText; rw [h1]⟩
    · -- the cell stays as an Empty placeholder
      have hne : (!c.lhs_cells_.isEmpty) = true := by
        cases hc : c.lhs_cells_ with
        | nil => exact absurd hc hl
        | cons a l => rfl
      simp only [hne, Bool.not_true, Bool.false_eq_true, if_false]
      refine ⟨_, rfl, ?_, ?_, ?_, ?_⟩
      · intro h; exact Option.noConfusion h
      · intro c1 _ _
        have hp1 : (s.setSlot pos (some { c with impl_ := Impl.EmptyImpl })).ptrAt pos
            = some ⟨pos, c.stamp⟩ := by simp [Sheet.ptrAt, hslot1]
        refine ⟨⟨⟨pos, c.stamp⟩, ?_⟩, ?_, ?_⟩
        · rw [GetCellPtr_valid _ pos hv, hp1]
        · intro ge
          unfold Sheet.GetText
          rw [hslot1]
          rfl
        · intro fuel
          unfold Sheet.GetValue Sheet.GetCell
          rw [bind_run, GetCellPtr_valid _ pos hv, hp1]
          simp only
          rw [bind_run]
          unfold Cell.GetValue
          rw [bind_run, hderef]
          rfl
      · intro c1 hc1 hl1
        injection hc1 with hc1
        subst hc1
        exact absurd hl1 hl
      · intro q hq hne
        have h1 : (s.setSlot pos (some { c with impl_ := Impl.EmptyImpl })).slot q = s.slot q :=
          slot_setSlot_other _ pos q _ hv hq hne
        exact ⟨by rw [h1], fun _ => by unfold Sheet.GetText; rw [h1]⟩

/-- C8, witness: after `SetCell(A1, "1")`, `SetCell(B1, "=A1")` the call `ClearCell(A1)` obeys
the contract; it leaves an Empty cell at A1, and `GetValue(B1)` is 0. -/
theorem ClearCell_contract_witness :
    (∃ s1, Sheet.ClearCell A1 backrefSheet = .ok () s1
      ∧ (backrefSheet.slot A1 = none → s1 = backrefSheet)
      ∧ (∀ c, backrefSheet.slot A1 = some c → c.lhs_cells_ ≠ [] →
          (∃ p, Sheet.GetCell A1 s1 = .ok (some p) s1)
          ∧ (∀ GetExpression, Sheet.GetText GetExpression A1 s1 = some "")
          ∧ (∀ fuel, (Sheet.GetValue (fuel + 1) A1 s1).value = some (some (.str ""))))
      ∧ (∀ c, backrefSheet.slot A1 = some c → c.lhs_cells_ = [] →
          Sheet.GetCell A1 s1 = .ok none s1)
      ∧ (∀ q, q.IsValid = true → q ≠ A1 →
          (s1.slot q).map Cell.impl_ = (backrefSheet.slot q).map Cell.impl_
          ∧ ∀ GetExpression,
            Sheet.GetText GetExpression q s1 = Sheet.GetText GetExpression q backrefSheet))
    ∧ ((Sheet.ClearCell A1 backrefSheet).after.bind (fun s1 => s1.slot A1))
        = some ⟨0, .EmptyImpl, [⟨B1, 1⟩], []⟩
    ∧ ((Sheet.ClearCell A1 backrefSheet).after.bind
        (fun s1 => (Sheet.GetValue 4 B1 s1).value)) = some (some (.num 0)) :=
  ⟨ClearCell_contract backrefSheet A1 (by decide), by decide!, by decide!⟩

/-! ## Lemmas: evaluation does not depend on the caches -/

theorem bind_ok {α β : Type} {m : M α} {f : α → M β} {s s1 : Sheet} {a : α}
    (h : m s = .ok a s1) : (m >>= f) s = f a s1 := by
  rw [bind_run, h]

theorem bind_overflow {α β : Type} {m : M α} {f : α → M β} {s : Sheet}
    (h : m s = .overflow) : (m >>= f) s = .overflow := by
  rw [bind_run, h]

theorem bind_throw {α β : Type} {m : M α} {f : α → M β} {s s1 : Sheet} {e : Exception}
    (h : m s = .throw e s1) : (m >>= f) s = .throw e s1 := by
  rw [bind_run, h]

theorem Cell.sameModuloCache_refl (c : Cell) : c.sameModuloCache c := ⟨rfl, rfl, rfl, rfl⟩

theorem Cell.sameModuloCache_trans {a b c : Cell} (h1 : a.sameModuloCache b)
    (h2 : b.sameModuloCache c) : a.sameModuloCache c :=
  ⟨h1.1.trans h2.1, h1.2.1.trans h2.2.1, h1.2.2.1.trans h2.2.2.1, h1.2.2.2.trans h2.2.2.2⟩

theorem CacheEq_refl (s : Sheet) : CacheEq s s := by
  intro q
  cases h : s.slot q with
  | none => trivial
  | some c => exact Cell.sameModuloCache_refl c

theorem CacheEq_trans {a b c : Sheet} (h1 : CacheEq a b) (h2 : CacheEq b c) : CacheEq a c := by
  intro q
  have e1 := h1 q
  have e2 := h2 q
  cases ha : a.slot q <;> cases hb : b.slot q <;> cases hc : c.slot q <;>
    rw [ha, hb] at e1 <;> rw [hb, hc] at e2 <;> simp only at e1 e2 ⊢
  exact Cell.sameModuloCache_trans e1 e2

theorem CacheEq_slot {s s1 : Sheet} (h : CacheEq s s1) {q : Position} {c : Cell}
    (hc : s.slot q = some c) : ∃ c1, s1.slot q = some c1 ∧ c.sameModuloCache c1 := by
  have e := h q
  rw [hc] at e
  cases h1 : s1.slot q with
  | none => rw [h1] at e; exact e.elim
  | some c1 => rw [h1] at e; exact ⟨c1, rfl, e⟩

theorem CacheEq_slot_none {s s1 : Sheet} (h : CacheEq s s1) {q : Position}
    (hc : s.slot q = none) : s1.slot q = none := by
  have e := h q
  rw [hc] at e
  cases h1 : s1.slot q with
  | none => rfl
  | some c1 => rw [h1] at e; exact e.elim

theorem slot_sameSlot (s : Sheet) {p q : Position} (h : q.sameSlot p) : s.slot q = s.slot p := by
  unfold Sheet.slot
  rw [h.1, h.2]

theorem CacheEq_setCache (s : Sheet) (p : Position) (c : Cell) (f : FormulaAST)
    (cache cache1 : Option FormulaValue) (hc : s.slot p = some c)
    (hi : c.impl_ = .FormulaImpl f cache) :
    CacheEq s (s.setSlot p (some { c with impl_ := .FormulaImpl f cache1 })) := by
  intro q
  rw [slot_setSlot s p q _ (inRange_of_slot hc)]
  by_cases hq : q.sameSlot p
  · rw [if_pos hq, slot_sameSlot s hq, hc]
    exact ⟨rfl, by rw [hi]; rfl, rfl, rfl⟩
  · rw [if_neg hq]
    cases h : s.slot q with
    | none => trivial
    | some c1 => exact Cell.sameModuloCache_refl c1

theorem InvalidateCache_eq_formula {i : Impl} {f : FormulaAST} {cache : Option FormulaValue}
    (h : (Impl.FormulaImpl f cache).InvalidateCache = i.InvalidateCache) :
    ∃ cache1, i = .FormulaImpl f cache1 := by
  cases i with
  | EmptyImpl => simp [Impl.InvalidateCache] at h
  | TextImpl t => simp [Impl.InvalidateCache] at h
  | FormulaImpl f1 c1 =>
    simp only [Impl.InvalidateCache, Impl.FormulaImpl.injEq, and_true] at h
    exact ⟨c1, by rw [h]⟩

theorem specValue_congr {s s1 : Sheet} (h : CacheEq s s1) (fuel : Nat) :
    ∀ (i i1 : Impl), i.InvalidateCache = i1.InvalidateCache →
      specValue s fuel i = specValue s1 fuel i1 := by
  induction fuel with
  | zero => intro i i1 _; rfl
  | succ n ih =>
    intro i i1 hi
    cases i with
    | EmptyImpl =>
      cases i1 with
      | EmptyImpl => rfl
      | TextImpl t => simp [Impl.InvalidateCache] at hi
      | FormulaImpl f c => simp [Impl.InvalidateCache] at hi
    | TextImpl t =>
      cases i1 with
      | EmptyImpl => simp [Impl.InvalidateCache] at hi
      | TextImpl t1 =>
        simp only [Impl.InvalidateCache, Impl.TextImpl.injEq] at hi
        rw [hi]
        rfl
      | FormulaImpl f c => simp [Impl.InvalidateCache] at hi
    | FormulaImpl f c =>
      obtain ⟨c1, hc1⟩ := InvalidateCache_eq_formula hi
      subst hc1
      have hl : specLookup s (fun c => specValue s n c.impl_)
          = specLookup s1 (fun c => specValue s1 n c.impl_) := by
        funext pos
        unfold specLookup
        split
        · rfl
        · cases hs : s.slot pos with
          | none => rw [CacheEq_slot_none h hs]
          | some c0 =>
            obtain ⟨c2, hc2, hsm⟩ := CacheEq_slot h hs
            rw [hc2]
            simp only
            rw [ih c0.impl_ c2.impl_ hsm.2.1]
      unfold specValue
      rw [hl]

theorem cellAt_eq_some {s : Sheet} {p : CellPtr} {c : Cell} (h : s.cellAt p = some c) :
    s.slot p.pos = some c ∧ c.stamp = p.stamp := by
  unfold Sheet.cellAt at h
  split at h
  · rename_i c0 hc0
    split at h
    · rename_i hst
      injection h with h1
      subst h1
      exact ⟨hc0, hst⟩
    · exact Option.noConfusion h
  · exact Option.noConfusion h

theorem cellAt_of_slot {s : Sheet} {pos : Position} {c : Cell} (h : s.slot pos = some c) :
    s.cellAt ⟨pos, c.stamp⟩ = some c := by
  unfold Sheet.cellAt
  simp [h]

theorem deref_of_cellAt {s : Sheet} {p : CellPtr} {c : Cell} (h : s.cellAt p = some c) :
    deref p s = .ok c s := by
  obtain ⟨h1, h2⟩ := cellAt_eq_some h
  unfold deref
  simp [h1, h2]

theorem modify_of_cellAt {s : Sheet} {p : CellPtr} {c : Cell} (f : Cell → Cell)
    (h : s.cellAt p = some c) : modify p f s = .ok () (s.setSlot p.pos (some (f c))) := by
  obtain ⟨h1, h2⟩ := cellAt_eq_some h
  unfold modify
  simp [h1, h2]

theorem CacheEq_cellAt {s s1 : Sheet} (h : CacheEq s s1) {p : CellPtr} {c : Cell}
    (hc : s.cellAt p = some c) : ∃ c1, s1.cellAt p = some c1 ∧ c.sameModuloCache c1 := by
  obtain ⟨h1, h2⟩ := cellAt_eq_some hc
  obtain ⟨c1, hc1, hsm⟩ := CacheEq_slot h h1
  refine ⟨c1, ?_, hsm⟩
  unfold Sheet.cellAt
  rw [hc1]
  simp only
  rw [if_pos (by rw [← hsm.1]; exact h2)]
theorem specLookup_congr {s s1 : Sheet} (h : CacheEq s s1) (n : Nat) :
    specLookup s (fun c => specValue s n c.impl_)
      = specLookup s1 (fun c => specValue s1 n c.impl_) := by
  funext pos
  unfold specLookup
  split
  · rfl
  · cases hs : s.slot pos with
    | none => rw [CacheEq_slot_none h hs]
    | some c0 =>
      obtain ⟨c2, hc2, hsm⟩ := CacheEq_slot h hs
      rw [hc2]
      simp only
      rw [specValue_congr h n c0.impl_ c2.impl_ hsm.2.1]

theorem GetValue_again (n : Nat)
    (H : ∀ (s : Sheet) (this : CellPtr) (c : Cell), s.cellAt this = some c →
      AgreesValue (Cell.GetValue n this s) s (specValue s n c.impl_))
    {s s1 : Sheet} {p : CellPtr} {c : Cell} {v : Value}
    (hc : s.cellAt p = some c) (hv : specValue s n c.impl_ = some v) (he : CacheEq s s1) :
    ∃ s2, Cell.GetValue n p s1 = .ok v s2 ∧ CacheEq s s2 := by
  obtain ⟨c1, hc1, hsm⟩ := CacheEq_cellAt he hc
  have h1 := H s1 p c1 hc1
  rw [← specValue_congr he n c.impl_ c1.impl_ hsm.2.1, hv] at h1
  obtain ⟨s2, h2, h3⟩ := h1
  exact ⟨s2, h2, CacheEq_trans he h3⟩

theorem functor_agrees (n : Nat)
    (H : ∀ (s : Sheet) (this : CellPtr) (c : Cell), s.cellAt this = some c →
      AgreesValue (Cell.GetValue n this s) s (specValue s n c.impl_))
    (s : Sheet) (pos : Position) :
    Agrees (Formula.functor (Cell.GetValue n) pos s) s
      (specLookup s (fun c => specValue s n c.impl_) pos) := by
  unfold Formula.functor specLookup
  by_cases hv : pos.IsValid = true
  · simp only [hv, Bool.not_true, Bool.false_eq_true, if_false]
    unfold Sheet.GetCell
    rw [bind_ok (GetCellPtr_valid s pos hv)]
    cases hs : s.slot pos with
    | none =>
      simp only [Sheet.ptrAt, hs, Option.map_none']
      exact ⟨s, rfl, CacheEq_refl s⟩
    | some c =>
      simp only [Sheet.ptrAt, hs, Option.map_some']
      have hcell := cellAt_of_slot hs
      have h1 := H s _ c hcell
      cases hval : specValue s n c.impl_ with
      | none =>
        rw [hval] at h1
        rw [bind_overflow h1]
        exact rfl
      | some v =>
        obtain ⟨s2, h2, e2⟩ := GetValue_again n H hcell hval (CacheEq_refl s)
        obtain ⟨s3, h3, e3⟩ := GetValue_again n H hcell hval e2
        obtain ⟨s4, h4, e4⟩ := GetValue_again n H hcell hval e3
        rw [bind_ok h2]
        cases v with
        | num x =>
          simp only
          rw [bind_ok h3]
          exact ⟨s3, rfl, e3⟩
        | str t =>
          simp only
          rw [bind_ok h3]
          simp only
          rw [bind_ok h4]
          simp only
          by_cases ht : t.data.isEmpty = true
          · simp only [ht, Bool.not_true, Bool.false_eq_true, if_false, if_true]
            exact ⟨s4, rfl, e4⟩
          · simp only [ht, Bool.not_false, if_true, if_false]
            cases hp : parseWhole t with
            | none => exact ⟨s4, rfl, e4⟩
            | some x => exact ⟨s4, rfl, e4⟩
        | err e =>
          simp only
          rw [bind_ok h3]
          simp only
          rw [bind_ok h4]
          exact ⟨s4, rfl, e4⟩
  · simp only [hv, Bool.not_false, if_true]
    exact ⟨s, rfl, CacheEq_refl s⟩

theorem Execute_agrees (n : Nat)
    (H : ∀ (s : Sheet) (this : CellPtr) (c : Cell), s.cellAt this = some c →
      AgreesValue (Cell.GetValue n this s) s (specValue s n c.impl_))
    (ast : FormulaAST) :
    ∀ s : Sheet, Agrees (ast.Execute (Formula.functor (Cell.GetValue n)) s) s
      (specExecute (specLookup s (fun c => specValue s n c.impl_)) ast) := by
  induction ast with
  | Number x => intro s; exact ⟨s, rfl, CacheEq_refl s⟩
  | CellRef p => intro s; exact functor_agrees n H s p
  | Unary negate e ih =>
    intro s
    have h := ih s
    unfold FormulaAST.Execute specExecute
    cases hr : specExecute (specLookup s (fun c => specValue s n c.impl_)) e with
    | none =>
      rw [hr] at h
      rw [bind_overflow h]
      exact rfl
    | some v =>
      rw [hr] at h
      cases v with
      | num x =>
        obtain ⟨s1, h1, e1⟩ := h
        rw [bind_ok h1]
        exact ⟨s1, rfl, e1⟩
      | err e0 =>
        obtain ⟨s1, h1, e1⟩ := h
        rw [bind_throw h1]
        exact ⟨s1, rfl, e1⟩
  | Binary op l r ihl ihr =>
    intro s
    have h := ihl s
    unfold FormulaAST.Execute specExecute
    cases hl : specExecute (specLookup s (fun c => specValue s n c.impl_)) l with
    | none =>
      rw [hl] at h
      rw [bind_overflow h]
      exact rfl
    | some v =>
      rw [hl] at h
      cases v with
      | err e0 =>
        obtain ⟨s1, h1, e1⟩ := h
        rw [bind_throw h1]
        exact ⟨s1, rfl, e1⟩
      | num a =>
        obtain ⟨s1, h1, e1⟩ := h
        rw [bind_ok h1]
        have h2 := ihr s1
        rw [← specLookup_congr e1 n] at h2
        simp only
        cases hr : specExecute (specLookup s (fun c => specValue s n c.impl_)) r with
        | none =>
          rw [hr] at h2
          rw [bind_overflow h2]
          exact rfl
        | some w =>
          rw [hr] at h2
          cases w with
          | err e0 =>
            obtain ⟨s2, h3, e2⟩ := h2
            rw [bind_throw h3]
            exact ⟨s2, rfl, CacheEq_trans e1 e2⟩
          | num b =>
            obtain ⟨s2, h3, e2⟩ := h2
            rw [bind_ok h3]
            cases op with
            | Add => exact ⟨s2, rfl, CacheEq_trans e1 e2⟩
            | Sub => exact ⟨s2, rfl, CacheEq_trans e1 e2⟩
            | Mul => exact ⟨s2, rfl, CacheEq_trans e1 e2⟩
            | Div =>
              simp only
              by_cases hb : b = 0
              · simp only [hb, if_true]
                exact ⟨s2, rfl, CacheEq_trans e1 e2⟩
              · simp only [hb, if_false]
                exact ⟨s2, rfl, CacheEq_trans e1 e2⟩

theorem Evaluate_agrees (n : Nat)
    (H : ∀ (s : Sheet) (this : CellPtr) (c : Cell), s.cellAt this = some c →
      AgreesValue (Cell.GetValue n this s) s (specValue s n c.impl_))
    (ast : FormulaAST) (s : Sheet) :
    match specExecute (specLookup s (fun c => specValue s n c.impl_)) ast with
    | some v => ∃ s1, Formula.Evaluate (Cell.GetValue n) ast s = .ok v s1 ∧ CacheEq s s1
    | none => Formula.Evaluate (Cell.GetValue n) ast s = .overflow := by
  have h := Execute_agrees n H ast s
  unfold Formula.Evaluate
  cases hr : specExecute (specLookup s (fun c => specValue s n c.impl_)) ast with
  | none =>
    rw [hr] at h
    simp only
    rw [show ast.Execute (Formula.functor (Cell.GetValue n)) s = .overflow from h]
  | some v =>
    rw [hr] at h
    cases v with
    | num x =>
      obtain ⟨s1, h1, e1⟩ := h
      exact ⟨s1, by rw [h1], e1⟩
    | err e0 =>
      obtain ⟨s1, h1, e1⟩ := h
      exact ⟨s1, by rw [h1], e1⟩

theorem GetValue_agrees (fuel : Nat) :
    ∀ (s : Sheet) (this : CellPtr) (c : Cell), s.cellAt this = some c →
      AgreesValue (Cell.GetValue fuel this s) s (specValue s fuel c.impl_) := by
  induction fuel with
  | zero => intro s this c _; exact rfl
  | succ n ih =>
    intro s this c hc
    unfold Cell.GetValue
    rw [bind_ok (deref_of_cellAt hc)]
    cases hi : c.impl_ with
    | EmptyImpl => exact ⟨s, rfl, CacheEq_refl s⟩
    | TextImpl t => exact ⟨s, rfl, CacheEq_refl s⟩
    | FormulaImpl f cache =>
      simp only
      unfold specValue
      have hE := Evaluate_agrees n ih f s
      cases hr : specExecute (specLookup s (fun c => specValue s n c.impl_)) f with
      | none =>
        rw [hr] at hE
        simp only at hE ⊢
        cases cache with
        | none =>
          simp only [Option.isNone_none, if_true]
          rw [bind_overflow hE]
          exact rfl
        | some v0 =>
          simp only [Option.isNone_some, Bool.false_eq_true, if_false]
          rw [bind_ok (pure_run PUnit.unit s), bind_overflow hE]
          exact rfl
      | some v =>
        rw [hr] at hE
        obtain ⟨s1, h1, e1⟩ := hE
        cases cache with
        | none =>
          simp only [Option.isNone_none, if_true]
          obtain ⟨c1, hc1, hsm⟩ := CacheEq_cellAt e1 hc
          obtain ⟨cache1, hi1⟩ : ∃ cache1, c1.impl_ = .FormulaImpl f cache1 := by
            apply @InvalidateCache_eq_formula c1.impl_ f none
            rw [← hsm.2.1, hi]
          have hm := modify_of_cellAt
            (fun c => ({ c with impl_ := .FormulaImpl f (some v) } : Cell)) hc1
          have e2 : CacheEq s1 (s1.setSlot this.pos (some { c1 with impl_ := .FormulaImpl f (some v) })) :=
            CacheEq_setCache s1 this.pos c1 f cache1 (some v) (cellAt_eq_some hc1).1 hi1
          have hE2 := Evaluate_agrees n ih f
            (s1.setSlot this.pos (some { c1 with impl_ := .FormulaImpl f (some v) }))
          rw [← specLookup_congr (CacheEq_trans e1 e2) n, hr] at hE2
          obtain ⟨s3, h3, e3⟩ := hE2
          rw [bind_ok h1, bind_ok hm, bind_ok h3]
          cases v with
          | num x => exact ⟨s3, rfl, CacheEq_trans (CacheEq_trans e1 e2) e3⟩
          | err e0 => exact ⟨s3, rfl, CacheEq_trans (CacheEq_trans e1 e2) e3⟩
        | some v0 =>
          simp only [Option.isNone_some, Bool.false_eq_true, if_false]
          rw [bind_ok (pure_run PUnit.unit s), bind_ok h1]
          cases v with
          | num x => exact ⟨s1, rfl, e1⟩
          | err e0 => exact ⟨s1, rfl, e1⟩

/-- For every sheet and every valid position holding a cell, a run of `GetValue` and the
evaluation of the current contents in the words of the spec end alike: with the same value,
changing nothing but caches, or both exhaust the budget.  Caches play no part in the value. -/
theorem Sheet_GetValue_agrees (fuel : Nat) (s : Sheet) (pos : Position) (c : Cell)
    (hv : pos.IsValid = true) (hc : s.slot pos = some c) :
    match specValue s fuel c.impl_ with
    | some v => ∃ s1, Sheet.GetValue fuel pos s = .ok (some v) s1 ∧ CacheEq s s1
    | none => Sheet.GetValue fuel pos s = .overflow := by
  have h := GetValue_agrees fuel s ⟨pos, c.stamp⟩ c (cellAt_of_slot hc)
  have hp : s.ptrAt pos = some ⟨pos, c.stamp⟩ := by simp [Sheet.ptrAt, hc]
  unfold Sheet.GetValue Sheet.GetCell
  rw [bind_ok (GetCellPtr_valid s pos hv), hp]
  simp only
  cases hr : specValue s fuel c.impl_ with
  | none =>
    rw [hr] at h
    rw [bind_overflow h]
  | some v =>
    rw [hr] at h
    obtain ⟨s1, h1, e1⟩ := h
    exact ⟨s1, by rw [bind_ok h1]; rfl, e1⟩

theorem GetValue_ok_spec {fuel : Nat} {s s1 : Sheet} {p : CellPtr} {c : Cell} {v : Value}
    (hc : s.cellAt p = some c) (h : Cell.GetValue fuel p s = .ok v s1) :
    specValue s fuel c.impl_ = some v := by
  have h1 := GetValue_agrees fuel s p c hc
  cases hr : specValue s fuel c.impl_ with
  | none =>
    rw [hr] at h1
    rw [show Cell.GetValue fuel p s = .overflow from h1] at h
    exact Res.noConfusion h
  | some v1 =>
    rw [hr] at h1
    obtain ⟨s2, h2, -⟩ := h1
    rw [h2] at h
    injection h with h3 h4
    rw [h3]

/-! ## Lemmas: what the steps of an edit leave in place -/

theorem InvalidateCache_eq_empty {i : Impl} (h : i.InvalidateCache = Impl.EmptyImpl) :
    i = .EmptyImpl := by
  cases i with
  | EmptyImpl => rfl
  | TextImpl t => simp [Impl.InvalidateCache] at h
  | FormulaImpl f c => simp [Impl.InvalidateCache] at h

theorem InvalidateCache_idem (i : Impl) :
    i.InvalidateCache.InvalidateCache = i.InvalidateCache := by
  cases i <;> rfl

theorem Frame_refl (P : CellPtr → Prop) (s : Sheet) : Frame P s s := by
  constructor
  · intro p _ c hc
    exact ⟨c, hc, rfl, rfl, fun x hx _ => hx⟩
  · intro p _ c1 hc1 hn
    rw [hn] at hc1
    exact Option.noConfusion hc1

theorem Frame_trans {P : CellPtr → Prop} {a b c : Sheet} (h1 : Frame P a b) (h2 : Frame P b c) :
    Frame P a c := by
  constructor
  · intro p hp ca hca
    obtain ⟨cb, hcb, hst, him, hl⟩ := h1.1 p hp ca hca
    obtain ⟨cc, hcc, hst2, him2, hl2⟩ := h2.1 p hp cb hcb
    exact ⟨cc, hcc, hst2.trans hst, him2.trans him, fun x hx hP => hl2 x (hl x hx hP) hP⟩
  · intro p hp cc hcc hn
    cases hb : b.slot p with
    | none => exact h2.2 p hp cc hcc hb
    | some cb =>
      have hbe := h1.2 p hp cb hb hn
      obtain ⟨cc1, hcc1, -, him2, -⟩ := h2.1 p hp cb hb
      rw [hcc] at hcc1
      injection hcc1 with hcc1
      subst hcc1
      rw [hbe] at him2
      exact InvalidateCache_eq_empty him2

theorem Frame_mono {P Q : CellPtr → Prop} (hPQ : ∀ x, Q x → P x) {s s1 : Sheet}
    (h : Frame P s s1) : Frame Q s s1 := by
  constructor
  · intro p hp c hc
    obtain ⟨c1, hc1, hst, him, hl⟩ := h.1 p hp c hc
    exact ⟨c1, hc1, hst, him, fun x hx hQ => hl x hx (hPQ x hQ)⟩
  · exact h.2

/-- Rewriting a cell in place, keeping stamp and content up to the cache. -/
theorem Frame_setSlot (P : CellPtr → Prop) (s : Sheet) (pos : Position) (c c1 : Cell)
    (hc : s.slot pos = some c) (hst : c1.stamp = c.stamp)
    (him : c1.impl_.InvalidateCache = c.impl_.InvalidateCache)
    (hl : ∀ x ∈ c.lhs_cells_, P x → x ∈ c1.lhs_cells_) :
    Frame P s (s.setSlot pos (some c1)) := by
  have hr := inRange_of_slot hc
  constructor
  · intro p _ c0 hc0
    rw [slot_setSlot s pos p _ hr]
    by_cases hq : p.sameSlot pos
    · rw [if_pos hq]
      rw [slot_sameSlot s hq, hc] at hc0
      injection hc0 with hc0
      subst hc0
      exact ⟨c1, rfl, hst, him, hl⟩
    · rw [if_neg hq]
      exact ⟨c0, hc0, rfl, rfl, fun x hx _ => hx⟩
  · intro p _ c0 hc0 hn
    rw [slot_setSlot s pos p _ hr] at hc0
    by_cases hq : p.sameSlot pos
    · rw [slot_sameSlot s hq, hc] at hn
      exact Option.noConfusion hn
    · rw [if_neg hq, hn] at hc0
      exact Option.noConfusion hc0

theorem Frame_modify (P : CellPtr → Prop) (p : CellPtr) (f : Cell → Cell)
    (hst : ∀ c, (f c).stamp = c.stamp)
    (him : ∀ c, (f c).impl_.InvalidateCache = c.impl_.InvalidateCache)
    (hl : ∀ c, ∀ x ∈ c.lhs_cells_, P x → x ∈ (f c).lhs_cells_)
    {s s1 : Sheet} {u : Unit} (h : modify p f s = .ok u s1) : Frame P s s1 := by
  obtain ⟨c, hc, -, hs1⟩ := modify_eq_ok h
  rw [hs1]
  exact Frame_setSlot P s p.pos c (f c) hc (hst c) (him c) (hl c)

theorem bind_eq_ok {α β : Type} {m : M α} {f : α → M β} {s s1 : Sheet} {b : β}
    (h : (m >>= f) s = .ok b s1) : ∃ a s0, m s = .ok a s0 ∧ f a s0 = .ok b s1 := by
  rw [bind_run] at h
  split at h
  · rename_i a s0 hm
    exact ⟨a, s0, hm, h⟩
  · exact Res.noConfusion h
  · exact Res.noConfusion h
  · exact Res.noConfusion h

theorem Frame_forEach {α : Type} (P : CellPtr → Prop) (f : α → M Unit) (l : List α)
    (hf : ∀ a ∈ l, ∀ s s1 u, f a s = .ok u s1 → Frame P s s1) :
    ∀ s s1 u, forEach f l s = .ok u s1 → Frame P s s1 := by
  induction l with
  | nil =>
    intro s s1 u h
    injection h with h1 h2
    rw [← h2]
    exact Frame_refl P s
  | cons x xs ih =>
    intro s s1 u h
    unfold forEach at h
    obtain ⟨a, s0, h1, h2⟩ := bind_eq_ok h
    exact Frame_trans (hf x (List.mem_cons_self _ _) s s0 a h1)
      (ih (fun a ha => hf a (List.mem_cons_of_mem _ ha)) s0 s1 u h2)

theorem Frame_CashInvalidation (P : CellPtr → Prop) (fuel : Nat) :
    ∀ (this : CellPtr) (flag : Bool) (s s1 : Sheet) (u : Unit),
      Cell.CashInvalidation fuel this flag s = .ok u s1 → Frame P s s1 := by
  induction fuel with
  | zero =>
    intro this flag s s1 u h
    exact Res.noConfusion h
  | succ n ih =>
    intro this flag s s1 u h
    unfold Cell.CashInvalidation at h
    obtain ⟨c, s0, h1, h2⟩ := bind_eq_ok h
    obtain ⟨hs0, -, -⟩ := deref_eq_ok h1
    subst hs0
    split at h2
    · obtain ⟨a, s2, h3, h4⟩ := bind_eq_ok h2
      have f1 : Frame P s0 s2 := Frame_modify P this
        (fun c => { c with impl_ := c.impl_.InvalidateCache }) (fun _ => rfl)
        (fun c => InvalidateCache_idem c.impl_)
        (fun _ x hx _ => hx) h3
      exact Frame_trans f1
        (Frame_forEach P _ _ (fun d _ s s1 u hd => ih d false s s1 u hd) s2 s1 u h4)
    · injection h2 with h3 h4
      rw [← h4]
      exact Frame_refl P s0

theorem mem_setErase {x y : CellPtr} {l : List CellPtr} (h : x ∈ l) (hne : x ≠ y) :
    x ∈ setErase y l := by
  unfold setErase
  exact List.mem_filter.mpr ⟨h, by simpa using hne⟩

theorem mem_setInsert_self (x : CellPtr) (l : List CellPtr) : x ∈ setInsert x l := by
  unfold setInsert
  split
  · assumption
  · exact List.mem_append_right _ (List.mem_singleton_self x)

theorem mem_setInsert_of_mem {x y : CellPtr} {l : List CellPtr} (h : x ∈ l) :
    x ∈ setInsert y l := by
  unfold setInsert
  split
  · exact h
  · exact List.mem_append_left _ h
theorem onlyThrows_forEach_mem {α : Type} (P : Exception → Prop) (f : α → M Unit) (l : List α)
    (hf : ∀ a ∈ l, OnlyThrows P (f a)) : OnlyThrows P (forEach f l) := by
  induction l with
  | nil => exact onlyThrows_pure P ()
  | cons x xs ih =>
    unfold forEach
    exact onlyThrows_bind P _ _ (hf x (List.mem_cons_self _ _))
      (fun _ => ih (fun a ha => hf a (List.mem_cons_of_mem _ ha)))

theorem onlyThrows_GetCellPtr_valid (P : Exception → Prop) (pos : Position)
    (hv : pos.IsValid = true) : OnlyThrows P (Sheet.GetCellPtr pos) := by
  intro s e s1 h
  rw [GetCellPtr_valid s pos hv] at h
  exact Res.noConfusion h

theorem onlyThrows_link_valid (P : Exception → Prop)
    (SetCell : Position → String → M Unit) (this : CellPtr) (pos : Position)
    (hv : pos.IsValid = true) (hcb : OnlyThrows P (SetCell pos "")) :
    OnlyThrows P (Cell.link SetCell this pos) := by
  unfold Cell.link
  apply onlyThrows_bind P _ _ (onlyThrows_GetCellPtr_valid P pos hv)
  intro found
  apply onlyThrows_bind P
  · cases found with
    | some q => exact onlyThrows_pure P _
    | none =>
      exact onlyThrows_bind P _ _ hcb (fun _ => onlyThrows_GetCellPtr_valid P pos hv)
  · intro curr
    cases curr with
    | none => intro s e s1 h; exact Res.noConfusion h
    | some q =>
      exact onlyThrows_bind P _ _ (onlyThrows_modify P _ _) (fun _ => onlyThrows_modify P _ _)

/-- The part of `Cell::Set` after the cycle check throws nothing when the calls back into
`SetCell` throw nothing. -/
theorem onlyThrows_commit_valid (P : Exception → Prop)
    (SetCell : Position → String → M Unit)
    (fuel : Nat) (this : CellPtr) (impl : Impl)
    (hcb : ∀ p ∈ impl.GetReferencedCells, OnlyThrows P (SetCell p "")) :
    OnlyThrows P (do
      modify this (fun c => { c with impl_ := impl })
      let c ← deref this
      forEach (fun curr_cell =>
        modify curr_cell (fun d => { d with lhs_cells_ := setErase this d.lhs_cells_ }))
        c.rhs_cells_
      modify this (fun c => { c with rhs_cells_ := [] })
      forEach (Cell.link SetCell this) impl.GetReferencedCells
      Cell.CashInvalidation fuel this true) := by
  apply onlyThrows_bind P _ _ (onlyThrows_modify P _ _)
  intro _
  apply onlyThrows_bind P _ _ (onlyThrows_deref P _)
  intro c
  apply onlyThrows_bind P _ _ (onlyThrows_forEach P _ _ (fun _ => onlyThrows_modify P _ _))
  intro _
  apply onlyThrows_bind P _ _ (onlyThrows_modify P _ _)
  intro _
  apply onlyThrows_bind P _ _ (onlyThrows_forEach_mem P _ _
    (fun p hp => onlyThrows_link_valid P SetCell this p (Impl_refs_valid impl p hp) (hcb p hp)))
  intro _
  exact onlyThrows_CashInvalidation P fuel this true

theorem Cell_Set_empty_text (fuel : Nat) (SetCell : Position → String → M Unit)
    (this : CellPtr) (s : Sheet) :
    Cell.Set fuel SetCell this "" s = (do
      modify this (fun c => { c with impl_ := Impl.EmptyImpl })
      let c ← deref this
      forEach (fun curr_cell =>
        modify curr_cell (fun d => { d with lhs_cells_ := setErase this d.lhs_cells_ }))
        c.rhs_cells_
      modify this (fun c => { c with rhs_cells_ := [] })
      forEach (Cell.link SetCell this) Impl.EmptyImpl.GetReferencedCells
      Cell.CashInvalidation fuel this true) s := by
  unfold Cell.Set
  have h0 : ("" : String).data.isEmpty = true := rfl
  simp only [h0, if_true]
  rw [bind_ok (pure_run Impl.EmptyImpl s)]
  have hc0 : Cell.IsThereCircularDependency fuel this Impl.EmptyImpl s = .ok false s := rfl
  rw [bind_ok hc0]
  simp only [Bool.false_eq_true, if_false]

theorem SetCell_empty_no_throw (fuel : Nat) (pos : Position) (hv : pos.IsValid = true) :
    OnlyThrows (fun _ => False) (Sheet.SetCell fuel pos "") := by
  intro s e s1 h
  cases fuel with
  | zero => exact Res.noConfusion h
  | succ n =>
    unfold Sheet.SetCell at h
    simp only [hv, Bool.not_true, Bool.false_eq_true, if_false] at h
    split at h
    · exact Res.noConfusion h
    · rename_i c hc
      rw [Cell_Set_empty_text] at h
      exact onlyThrows_commit_valid (fun _ => False) (Sheet.SetCell n) n _ Impl.EmptyImpl
        (fun p hp => by simp [Impl.GetReferencedCells] at hp) _ e s1 h

theorem slot_mk (rows : List (List (Option Cell))) (n m : Nat) (p : Position) :
    (⟨rows, n⟩ : Sheet).slot p = (⟨rows, m⟩ : Sheet).slot p := rfl

/-- `SetCell(pos, "")` at a position without a cell only adds an Empty cell. -/
theorem Frame_SetCell_fresh (P : CellPtr → Prop) (fuel : Nat) (pos : Position)
    (hv : pos.IsValid = true) (s s1 : Sheet) (u : Unit) (hn : s.slot pos = none)
    (h : Sheet.SetCell fuel pos "" s = .ok u s1) : Frame P s s1 := by
  cases fuel with
  | zero => exact Res.noConfusion h
  | succ n =>
    unfold Sheet.SetCell at h
    simp only [hv, Bool.not_true, Bool.false_eq_true, if_false] at h
    have hg : (Sheet.grow pos s).slot pos = none := by rw [slot_grow]; exact hn
    rw [hg] at h
    simp only at h
    have hr := inRange_grow pos s hv
    have hs2 : ∀ p, (⟨((Sheet.grow pos s).setSlot pos (some (Sheet.grow pos s).newCell)).sheet_,
        (Sheet.grow pos s).allocated + 1⟩ : Sheet).slot p
        = if p.sameSlot pos then some (Sheet.grow pos s).newCell else s.slot p := by
      intro p
      rw [← slot_grow pos p s, ← slot_setSlot _ pos p _ hr]
      rfl
    generalize (⟨((Sheet.grow pos s).setSlot pos (some (Sheet.grow pos s).newCell)).sheet_,
        (Sheet.grow pos s).allocated + 1⟩ : Sheet) = s2 at h hs2
    have hpos : s2.slot pos = some (Sheet.grow pos s).newCell := by
      rw [hs2 pos, if_pos ⟨rfl, rfl⟩]
    rw [hpos] at h
    simp only at h
    rw [Cell_Set_empty_text] at h
    obtain ⟨_, s3, h3, ha⟩ := bind_eq_ok h
    obtain ⟨c3, s3a, h4, hb⟩ := bind_eq_ok ha
    obtain ⟨_, s4, h5, hc⟩ := bind_eq_ok hb
    obtain ⟨_, s5, h6, hd⟩ := bind_eq_ok hc
    obtain ⟨_, s6, h7, h8⟩ := bind_eq_ok hd
    clear h ha hb hc hd
    -- the sheet with the new cell
    have f2 : Frame P s s2 := by
      constructor
      · intro p hp c hc
        refine ⟨c, ?_, rfl, rfl, fun x hx _ => hx⟩
        rw [hs2 p, if_neg]
        · exact hc
        · intro hq
          rw [(Position.sameSlot_iff hp hv).mp hq, hn] at hc
          exact Option.noConfusion hc
      · intro p hp c1 hc1 hnp
        rw [hs2 p] at hc1
        by_cases hq : p.sameSlot pos
        · rw [if_pos hq] at hc1
          injection hc1 with hc1
          rw [← hc1]
          rfl
        · rw [if_neg hq, hnp] at hc1
          exact Option.noConfusion hc1
    obtain ⟨c0, hc0, -, hs3⟩ := modify_eq_ok h3
    simp only at hc0
    rw [hpos] at hc0
    injection hc0 with hc0
    subst hc0
    have f3 : Frame P s2 s3 := by
      rw [hs3]
      exact Frame_setSlot P s2 pos _ _ hpos rfl rfl (fun x hx _ => hx)
    obtain ⟨hs3a, hc3, -⟩ := deref_eq_ok h4
    subst hs3a
    have hc3' : c3.rhs_cells_ = [] := by
      rw [hs3] at hc3
      simp only at hc3
      rw [slot_setSlot_self _ pos _ (inRange_of_slot hpos)] at hc3
      injection hc3 with hc3
      rw [← hc3]
      rfl
    rw [hc3'] at h5
    injection h5 with _ h5
    subst h5
    have f5 : Frame P s3a s5 := Frame_modify P _
      (fun c => { c with rhs_cells_ := [] }) (fun _ => rfl) (fun _ => rfl)
      (fun _ x hx _ => hx) h6
    injection h7 with _ h7
    subst h7
    exact Frame_trans (Frame_trans (Frame_trans f2 f3) f5)
      (Frame_CashInvalidation P n _ true _ _ u h8)
theorem ptrAt_eq_some {s : Sheet} {pos : Position} {q : CellPtr} (h : s.ptrAt pos = some q) :
    ∃ d, s.slot pos = some d ∧ q = ⟨pos, d.stamp⟩ := by
  unfold Sheet.ptrAt at h
  cases hs : s.slot pos with
  | none => rw [hs] at h; exact Option.noConfusion h
  | some d =>
    rw [hs] at h
    injection h with h
    exact ⟨d, rfl, h.symm⟩

theorem ptrAt_eq_none {s : Sheet} {pos : Position} (h : s.ptrAt pos = none) :
    s.slot pos = none := by
  unfold Sheet.ptrAt at h
  cases hs : s.slot pos with
  | none => rfl
  | some d => rw [hs] at h; exact Option.noConfusion h

/-- Installing one edge (cell.cpp 188-189) once the target is resolved. -/
theorem Frame_link_tail (P : CellPtr → Prop) (this : CellPtr) (pos : Position)
    (sa s1 : Sheet) (u : Unit)
    (h : ((match sa.ptrAt pos with
      | none => fun _ => Res.ub
      | some q => do
        modify this (fun c => { c with rhs_cells_ := setInsert q c.rhs_cells_ })
        modify q (fun c => { c with lhs_cells_ := setInsert this c.lhs_cells_ })) : M Unit) sa
      = .ok u s1) :
    Frame P sa s1 ∧ ∃ d, s1.slot pos = some d ∧ this ∈ d.lhs_cells_ := by
  cases hp : sa.ptrAt pos with
  | none =>
    rw [hp] at h
    exact Res.noConfusion h
  | some q =>
    rw [hp] at h
    simp only at h
    obtain ⟨d, -, hq⟩ := ptrAt_eq_some hp
    obtain ⟨_, sb, h1, h2⟩ := bind_eq_ok h
    have f1 : Frame P sa sb := Frame_modify P this
      (fun c => { c with rhs_cells_ := setInsert q c.rhs_cells_ }) (fun _ => rfl) (fun _ => rfl)
      (fun _ x hx _ => hx) h1
    have f2 : Frame P sb s1 := Frame_modify P q
      (fun c => { c with lhs_cells_ := setInsert this c.lhs_cells_ }) (fun _ => rfl)
      (fun _ => rfl) (fun _ x hx _ => mem_setInsert_of_mem hx) h2
    refine ⟨Frame_trans f1 f2, ?_⟩
    obtain ⟨c, hc, -, hs1⟩ := modify_eq_ok h2
    rw [hq] at hc hs1
    simp only at hc hs1
    refine ⟨{ c with lhs_cells_ := setInsert this c.lhs_cells_ }, ?_, ?_⟩
    · rw [hs1, slot_setSlot_self _ pos _ (inRange_of_slot hc)]
    · exact mem_setInsert_self this c.lhs_cells_

theorem Frame_link (P : CellPtr → Prop) (n : Nat) (this : CellPtr) (pos : Position)
    (hv : pos.IsValid = true) (s s1 : Sheet) (u : Unit)
    (h : Cell.link (Sheet.SetCell n) this pos s = .ok u s1) :
    Frame P s s1 ∧ ∃ d, s1.slot pos = some d ∧ this ∈ d.lhs_cells_ := by
  unfold Cell.link at h
  rw [bind_ok (GetCellPtr_valid s pos hv)] at h
  obtain ⟨curr, sa, h1, h2⟩ := bind_eq_ok h
  cases hp : s.ptrAt pos with
  | some q =>
    rw [hp] at h1
    simp only at h1
    injection h1 with h1a h1b
    subst h1a h1b
    have h3 : ((match s.ptrAt pos with
      | none => fun _ => Res.ub
      | some q => do
        modify this (fun c => { c with rhs_cells_ := setInsert q c.rhs_cells_ })
        modify q (fun c => { c with lhs_cells_ := setInsert this c.lhs_cells_ })) : M Unit) s
      = .ok u s1 := by
      rw [hp]; exact h2
    exact Frame_link_tail P this pos s s1 u h3
  | none =>
    rw [hp] at h1
    simp only at h1
    obtain ⟨_, sb, h4, h5⟩ := bind_eq_ok h1
    rw [GetCellPtr_valid sb pos hv] at h5
    injection h5 with h5a h5b
    subst h5a h5b
    have f1 : Frame P s sb := Frame_SetCell_fresh P n pos hv s sb _ (ptrAt_eq_none hp) h4
    obtain ⟨f2, hd⟩ := Frame_link_tail P this pos sb s1 u h2
    exact ⟨Frame_trans f1 f2, hd⟩

theorem Frame_linkLoop (n : Nat) (this : CellPtr) (l : List Position)
    (hl : ∀ p ∈ l, p.IsValid = true) :
    ∀ (s s1 : Sheet) (u : Unit), forEach (Cell.link (Sheet.SetCell n) this) l s = .ok u s1 →
      Frame (fun _ => True) s s1 ∧ ∀ q ∈ l, ∃ d, s1.slot q = some d ∧ this ∈ d.lhs_cells_ := by
  induction l with
  | nil =>
    intro s s1 u h
    injection h with _ h2
    rw [← h2]
    exact ⟨Frame_refl _ s, fun q hq => by simp at hq⟩
  | cons x xs ih =>
    intro s s1 u h
    unfold forEach at h
    obtain ⟨a, s0, h1, h2⟩ := bind_eq_ok h
    obtain ⟨f1, d, hd, hmem⟩ := Frame_link (fun _ => True) n this x
      (hl x (List.mem_cons_self _ _)) s s0 a h1
    obtain ⟨f2, hrest⟩ := ih (fun p hp => hl p (List.mem_cons_of_mem _ hp)) s0 s1 u h2
    refine ⟨Frame_trans f1 f2, ?_⟩
    intro q hq
    rcases List.mem_cons.mp hq with hq1 | hq1
    · subst hq1
      obtain ⟨d1, hd1, -, -, hl1⟩ := f2.1 q (hl q (List.mem_cons_self _ _)) d hd
      exact ⟨d1, hd1, hl1 this hmem trivial⟩
    · exact hrest q hq1

/-- The part of `Cell::Set` after the cycle check, when it returns: seen from the sheet in
which the new content is already installed, every other step keeps the cells, their contents
and all incoming-set members but the edited cell; and all new references are alive. -/
theorem commit_ok (n fuel : Nat) (this : CellPtr) (impl : Impl) (s s1 : Sheet) (u : Unit)
    (h : (do
      modify this (fun c => { c with impl_ := impl })
      let c ← deref this
      forEach (fun curr_cell =>
        modify curr_cell (fun d => { d with lhs_cells_ := setErase this d.lhs_cells_ }))
        c.rhs_cells_
      modify this (fun c => { c with rhs_cells_ := [] })
      forEach (Cell.link (Sheet.SetCell n) this) impl.GetReferencedCells
      Cell.CashInvalidation fuel this true : M Unit) s = .ok u s1) :
    ∃ c, s.slot this.pos = some c ∧ c.stamp = this.stamp
      ∧ Frame (fun x => x ≠ this) (s.setSlot this.pos (some { c with impl_ := impl })) s1
      ∧ ∀ q ∈ impl.GetReferencedCells, ∃ d, s1.slot q = some d ∧ this ∈ d.lhs_cells_ := by
  obtain ⟨_, s3, h3, ha⟩ := bind_eq_ok h
  obtain ⟨c3, s3a, h4, hb⟩ := bind_eq_ok ha
  obtain ⟨_, s4, h5, hc⟩ := bind_eq_ok hb
  obtain ⟨_, s5, h6, hd⟩ := bind_eq_ok hc
  obtain ⟨_, s6, h7, h8⟩ := bind_eq_ok hd
  clear h ha hb hc hd
  obtain ⟨c, hc, hst, hs3⟩ := modify_eq_ok h3
  obtain ⟨hs3a, -, -⟩ := deref_eq_ok h4
  subst hs3a
  refine ⟨c, hc, hst, ?_, ?_⟩
  · rw [← hs3]
    have f4 : Frame (fun x => x ≠ this) s3a s4 :=
      Frame_forEach _ _ _ (fun curr _ sa sb ub hm =>
        Frame_modify (fun x => x ≠ this) curr
          (fun d => { d with lhs_cells_ := setErase this d.lhs_cells_ }) (fun _ => rfl)
          (fun _ => rfl) (fun _ x hx hne => mem_setErase hx hne) hm) s3a s4 _ h5
    have f5 : Frame (fun x => x ≠ this) s4 s5 := Frame_modify _ this
      (fun c => { c with rhs_cells_ := [] }) (fun _ => rfl) (fun _ => rfl)
      (fun _ x hx _ => hx) h6
    have f6 := (Frame_linkLoop n this impl.GetReferencedCells (Impl_refs_valid impl) s5 s6 _ h7).1
    have f7 := Frame_CashInvalidation (fun x => x ≠ this) fuel this true s6 s1 u h8
    exact Frame_trans (Frame_trans (Frame_trans f4 f5) (Frame_mono (fun _ _ => trivial) f6)) f7
  · intro q hq
    obtain ⟨d, hd, hmem⟩ :=
      (Frame_linkLoop n this impl.GetReferencedCells (Impl_refs_valid impl) s5 s6 _ h7).2 q hq
    have f7 := Frame_CashInvalidation (fun _ => True) fuel this true s6 s1 u h8
    obtain ⟨d1, hd1, -, -, hl1⟩ := f7.1 q (Impl_refs_valid impl q hq) d hd
    exact ⟨d1, hd1, hl1 this hmem trivial⟩
/-! ## Lemmas: the references of every formula stay alive -/

theorem formula_of_Frame {P : CellPtr → Prop} {s s1 : Sheet} (hF : Frame P s s1)
    {p : Position} (hp : p.IsValid = true) {c1 : Cell} {f : FormulaAST}
    {cache : Option FormulaValue} (hc1 : s1.slot p = some c1)
    (hi : c1.impl_ = .FormulaImpl f cache) :
    ∃ c cache0, s.slot p = some c ∧ c.stamp = c1.stamp ∧ c.impl_ = .FormulaImpl f cache0 := by
  cases hs : s.slot p with
  | none =>
    have := hF.2 p hp c1 hc1 hs
    rw [hi] at this
    exact Impl.noConfusion this
  | some c =>
    obtain ⟨c2, hc2, hst, him, -⟩ := hF.1 p hp c hs
    rw [hc1] at hc2
    injection hc2 with hc2
    subst hc2
    rw [hi] at him
    obtain ⟨cache0, h0⟩ := InvalidateCache_eq_formula him
    exact ⟨c, cache0, rfl, hst.symm, h0⟩

theorem alive_of_Frame {s s1 : Sheet} (hI : s.ReferencesAlive)
    (hF : Frame (fun _ => True) s s1) : s1.ReferencesAlive := by
  intro p c1 f cache hp hc1 hi q hq
  obtain ⟨c, cache0, hc, hst, hi0⟩ := formula_of_Frame hF hp hc1 hi
  obtain ⟨d, hd, hmem⟩ := hI p c f cache0 hp hc hi0 q hq
  obtain ⟨d1, hd1, -, -, hl⟩ := hF.1 q (GetReferencedCells_valid f q hq) d hd
  refine ⟨d1, hd1, ?_⟩
  rw [← hst]
  exact hl _ hmem trivial

theorem aliveExcept_of_Frame {s s1 : Sheet} {this : CellPtr}
    (hI : s.ReferencesAliveExcept this.pos)
    (hF : Frame (fun x => x ≠ this) s s1) : s1.ReferencesAliveExcept this.pos := by
  intro p c1 f cache hp hne hc1 hi q hq
  obtain ⟨c, cache0, hc, hst, hi0⟩ := formula_of_Frame hF hp hc1 hi
  obtain ⟨d, hd, hmem⟩ := hI p c f cache0 hp hne hc hi0 q hq
  obtain ⟨d1, hd1, -, -, hl⟩ := hF.1 q (GetReferencedCells_valid f q hq) d hd
  refine ⟨d1, hd1, ?_⟩
  rw [← hst]
  apply hl _ hmem
  intro h
  apply hne
  rw [← h]

/-- Replacing the content of the cell at `pos` leaves the references of all other cells
alive. -/
theorem aliveExcept_setImpl {s : Sheet} (hI : s.ReferencesAlive) (pos : Position)
    (hv : pos.IsValid = true) (c : Cell) (hc : s.slot pos = some c) (impl : Impl) :
    (s.setSlot pos (some { c with impl_ := impl })).ReferencesAliveExcept pos := by
  intro p c1 f cache hp hne hc1 hi q hq
  rw [slot_setSlot_other s pos p _ hv hp hne] at hc1
  obtain ⟨d, hd, hmem⟩ := hI p c1 f cache hp hc1 hi q hq
  by_cases hqp : q = pos
  · subst hqp
    rw [hc] at hd
    injection hd with hd
    subst hd
    exact ⟨_, slot_setSlot_self s q _ (inRange_of_slot hc), hmem⟩
  · refine ⟨d, ?_, hmem⟩
    rw [slot_setSlot_other s pos q _ hv (GetReferencedCells_valid f q hq) hqp]
    exact hd

/-- The sheet in which `Sheet::SetCell` calls `Cell::Set`: the grid has grown and a cell
exists at `pos`. -/
theorem Frame_insert (P : CellPtr → Prop) (s : Sheet) (pos : Position)
    (hv : pos.IsValid = true) :
    Frame P s (match (Sheet.grow pos s).slot pos with
      | some _ => Sheet.grow pos s
      | none => (⟨((Sheet.grow pos s).setSlot pos (some (Sheet.grow pos s).newCell)).sheet_,
          (Sheet.grow pos s).allocated + 1⟩ : Sheet)) := by
  cases hg : (Sheet.grow pos s).slot pos with
  | some c0 =>
    simp only
    constructor
    · intro p _ c hc
      exact ⟨c, by rw [slot_grow]; exact hc, rfl, rfl, fun x hx _ => hx⟩
    · intro p _ c1 hc1 hn
      rw [slot_grow, hn] at hc1
      exact Option.noConfusion hc1
  | none =>
    simp only
    have hn : s.slot pos = none := by rw [← slot_grow pos pos s]; exact hg
    have hr := inRange_grow pos s hv
    have hs2 : ∀ p, (⟨((Sheet.grow pos s).setSlot pos (some (Sheet.grow pos s).newCell)).sheet_,
        (Sheet.grow pos s).allocated + 1⟩ : Sheet).slot p
        = if p.sameSlot pos then some (Sheet.grow pos s).newCell else s.slot p := by
      intro p
      rw [← slot_grow pos p s, ← slot_setSlot _ pos p _ hr]
      rfl
    constructor
    · intro p hp c hc
      refine ⟨c, ?_, rfl, rfl, fun x hx _ => hx⟩
      rw [hs2 p, if_neg]
      · exact hc
      · intro hq
        rw [(Position.sameSlot_iff hp hv).mp hq, hn] at hc
        exact Option.noConfusion hc
    · intro p hp c1 hc1 hnp
      rw [hs2 p] at hc1
      by_cases hq : p.sameSlot pos
      · rw [if_pos hq] at hc1
        injection hc1 with hc1
        rw [← hc1]
        rfl
      · rw [if_neg hq, hnp] at hc1
        exact Option.noConfusion hc1

theorem alive_Cell_Set (n : Nat) (pos : Position) (hv : pos.IsValid = true) (c : Cell)
    (text : String) (s s1 : Sheet) (hI : s.ReferencesAlive) (hc : s.slot pos = some c)
    (h : (Cell.Set n (Sheet.SetCell n) ⟨pos, c.stamp⟩ text s).after = some s1) :
    s1.ReferencesAlive := by
  unfold Cell.Set at h
  rw [bind_run] at h
  rcases makeImpl_state text s with ⟨impl, hi⟩ | ⟨e, -, hi⟩
  · rw [hi] at h
    simp only at h
    rw [bind_run] at h
    rcases IsThereCircularDependency_state n ⟨pos, c.stamp⟩ impl s with ⟨b, hb⟩ | hb | hb
    · rw [hb] at h
      simp only at h
      cases b with
      | true =>
        simp only [if_true] at h
        injection h with h
        rw [← h]
        exact hI
      | false =>
        simp only [Bool.false_eq_true, if_false] at h
        generalize hr : (do
          modify ⟨pos, c.stamp⟩ (fun c => { c with impl_ := impl })
          let c0 ← deref ⟨pos, c.stamp⟩
          forEach (fun curr_cell =>
            modify curr_cell (fun d =>
              { d with lhs_cells_ := setErase ⟨pos, c.stamp⟩ d.lhs_cells_ }))
            c0.rhs_cells_
          modify ⟨pos, c.stamp⟩ (fun c => { c with rhs_cells_ := [] })
          forEach (Cell.link (Sheet.SetCell n) ⟨pos, c.stamp⟩) impl.GetReferencedCells
          Cell.CashInvalidation n ⟨pos, c.stamp⟩ true : M Unit) s = r at h
        cases r with
        | ub => exact Option.noConfusion h
        | overflow => exact Option.noConfusion h
        | throw e s2 =>
          exact (onlyThrows_commit_valid (fun _ => False) (Sheet.SetCell n) n ⟨pos, c.stamp⟩ impl
            (fun p hp => SetCell_empty_no_throw n p (Impl_refs_valid impl p hp)) s e s2 hr).elim
        | ok u s2 =>
          injection h with h
          subst h
          obtain ⟨c0, hc0, -, hF, hrefs⟩ := commit_ok n n ⟨pos, c.stamp⟩ impl s s2 u hr
          simp only at hc0 hF
          rw [hc] at hc0
          injection hc0 with hc0
          subst hc0
          have hE := @aliveExcept_of_Frame _ _ ⟨pos, c.stamp⟩
            (aliveExcept_setImpl hI pos hv c hc impl) hF
          intro p c1 f cache hp hc1 hi1 q hq
          by_cases hpp : p = pos
          · subst hpp
            obtain ⟨c2, hc2, hst, him, -⟩ := hF.1 p hp _
              (slot_setSlot_self s p (some { c with impl_ := impl }) (inRange_of_slot hc))
            rw [hc1] at hc2
            injection hc2 with hc2
            subst hc2
            simp only at hst him
            rw [hi1] at him
            obtain ⟨cache1, hi2⟩ := InvalidateCache_eq_formula him
            have hq2 : q ∈ impl.GetReferencedCells := by rw [hi2]; exact hq
            obtain ⟨d, hd, hmem⟩ := hrefs q hq2
            exact ⟨d, hd, by rw [hst]; exact hmem⟩
          · exact hE p c1 f cache hp hpp hc1 hi1 q hq
    · rw [hb] at h; exact Option.noConfusion h
    · rw [hb] at h; exact Option.noConfusion h
  · rw [hi] at h
    simp only at h
    injection h with h
    rw [← h]
    exact hI

theorem alive_SetCell (fuel : Nat) (pos : Position) (text : String) (s s1 : Sheet)
    (hI : s.ReferencesAlive) (h : (Sheet.SetCell fuel pos text s).after = some s1) :
    s1.ReferencesAlive := by
  cases fuel with
  | zero => exact Option.noConfusion h
  | succ n =>
    unfold Sheet.SetCell at h
    by_cases hv : pos.IsValid = true
    · simp only [hv, Bool.not_true, Bool.false_eq_true, if_false] at h
      have hF := Frame_insert (fun _ => True) s pos hv
      cases hg : (Sheet.grow pos s).slot pos with
      | some c0 =>
        simp only [hg] at h hF
        exact alive_Cell_Set n pos hv c0 text _ s1 (alive_of_Frame hI hF) hg h
      | none =>
        simp only [hg] at h hF
        have hpos : (⟨((Sheet.grow pos s).setSlot pos (some (Sheet.grow pos s).newCell)).sheet_,
            (Sheet.grow pos s).allocated + 1⟩ : Sheet).slot pos
            = some (Sheet.grow pos s).newCell :=
          slot_setSlot_self (Sheet.grow pos s) pos _ (inRange_grow pos s hv)
        simp only [hpos] at h
        exact alive_Cell_Set n pos hv _ text _ s1 (alive_of_Frame hI hF) hpos h
    · simp only [hv, Bool.not_false, if_true] at h
      injection h with h
      rw [← h]
      exact hI

theorem ClearCell_result (s : Sheet) (pos : Position) (hv : pos.IsValid = true) :
    Sheet.ClearCell pos s = .ok ()
      (match s.slot pos with
        | none => s
        | some c =>
          if c.lhs_cells_ = [] then
            (s.setSlot pos (some { c with impl_ := Impl.EmptyImpl })).setSlot pos none
          else s.setSlot pos (some { c with impl_ := Impl.EmptyImpl })) := by
  unfold Sheet.ClearCell
  simp only [hv, Bool.not_true, Bool.false_eq_true, if_false]
  unfold Sheet.GetCell
  rw [bind_ok (GetCellPtr_valid s pos hv)]
  cases hs : s.slot pos with
  | none =>
    simp [Sheet.ptrAt, hs, pure_run]
  | some c =>
    have hr : s.inRange pos := inRange_of_slot hs
    have hptr : s.ptrAt pos = some ⟨pos, c.stamp⟩ := by simp [Sheet.ptrAt, hs]
    have hclear : Cell.Clear ⟨pos, c.stamp⟩ s
        = .ok () (s.setSlot pos (some { c with impl_ := Impl.EmptyImpl })) :=
      modify_of_slot s pos c _ hs
    have hslot1 : (s.setSlot pos (some { c with impl_ := Impl.EmptyImpl })).slot pos
        = some { c with impl_ := Impl.EmptyImpl } := slot_setSlot_self s pos _ hr
    have hderef : deref ⟨pos, c.stamp⟩ (s.setSlot pos (some { c with impl_ := Impl.EmptyImpl }))
        = .ok { c with impl_ := Impl.EmptyImpl }
          (s.setSlot pos (some { c with impl_ := Impl.EmptyImpl })) :=
      deref_of_slot _ pos { c with impl_ := Impl.EmptyImpl } hslot1
    simp only [hptr]
    rw [bind_ok hclear]
    unfold Cell.IsReferenced
    rw [bind_run, bind_run, hderef]
    simp only [pure_run]
    by_cases hl : c.lhs_cells_ = []
    · have hemp : (!c.lhs_cells_.isEmpty) = false := by rw [hl]; rfl
      simp only [hemp, Bool.not_false, if_true]
      rw [if_pos hl]
    · have hne : (!c.lhs_cells_.isEmpty) = true := by
        cases hc : c.lhs_cells_ with
        | nil => exact absurd hc hl
        | cons a l => rfl
      simp only [hne, Bool.not_true, Bool.false_eq_true, if_false]
      rw [if_neg hl]
      rfl

theorem alive_ClearCell (pos : Position) (s s1 : Sheet)
    (hI : s.ReferencesAlive) (h : (Sheet.ClearCell pos s).after = some s1) :
    s1.ReferencesAlive := by
  by_cases hv : pos.IsValid = true
  · rw [ClearCell_result s pos hv] at h
    injection h with h
    cases hs : s.slot pos with
    | none =>
      rw [hs] at h
      simp only at h
      rw [← h]
      exact hI
    | some c =>
      rw [hs] at h
      simp only at h
      have hr : s.inRange pos := inRange_of_slot hs
      by_cases hl : c.lhs_cells_ = []
      · rw [if_pos hl] at h
        subst h
        intro p c1 f cache hp hc1 hi q hq
        have hpp : p ≠ pos := by
          intro hpp
          subst hpp
          rw [slot_setSlot_self _ p none ((inRange_setSlot s p p _).mpr hr)] at hc1
          exact Option.noConfusion hc1
        rw [slot_setSlot_other _ pos p _ hv hp hpp, slot_setSlot_other _ pos p _ hv hp hpp]
          at hc1
        obtain ⟨d, hd, hmem⟩ := hI p c1 f cache hp hc1 hi q hq
        have hqp : q ≠ pos := by
          intro hqp
          subst hqp
          rw [hs] at hd
          injection hd with hd
          subst hd
          rw [hl] at hmem
          simp at hmem
        have hqv := GetReferencedCells_valid f q hq
        refine ⟨d, ?_, hmem⟩
        rw [slot_setSlot_other _ pos q _ hv hqv hqp, slot_setSlot_other _ pos q _ hv hqv hqp]
        exact hd
      · rw [if_neg hl] at h
        subst h
        intro p c1 f cache hp hc1 hi q hq
        have hpp : p ≠ pos := by
          intro hpp
          subst hpp
          rw [slot_setSlot_self _ p _ hr] at hc1
          injection hc1 with hc1
          rw [← hc1] at hi
          exact Impl.noConfusion hi
        rw [slot_setSlot_other _ pos p _ hv hp hpp] at hc1
        obtain ⟨d, hd, hmem⟩ := hI p c1 f cache hp hc1 hi q hq
        by_cases hqp : q = pos
        · subst hqp
          rw [hs] at hd
          injection hd with hd
          subst hd
          exact ⟨_, slot_setSlot_self s q _ hr, hmem⟩
        · refine ⟨d, ?_, hmem⟩
          rw [slot_setSlot_other _ pos q _ hv (GetReferencedCells_valid f q hq) hqp]
          exact hd
  · unfold Sheet.ClearCell at h
    simp only [hv, Bool.not_false, if_true] at h
    injection h with h
    rw [← h]
    exact hI

theorem alive_empty : Sheet.empty.ReferencesAlive := by
  intro p c f cache _ hc
  exact Option.noConfusion hc

theorem alive_of_reachable {s : Sheet} (h : Reachable s) : s.ReferencesAlive := by
  induction h with
  | empty => exact alive_empty
  | step fuel c s s1 _ hstep ih =>
    cases c with
    | SetCell pos text => exact alive_SetCell fuel pos text s s1 ih hstep
    | ClearCell pos => exact alive_ClearCell pos s s1 ih hstep

/-- C9 (counterexample): `SetCell(A1, "")` on the empty sheet leaves an Empty cell at A1 that
no cell references; the sheet is reachable and violates the lifetime invariant as stated. -/
theorem empty_unreferenced_cell_reachable :
    Reachable emptyTextSheet ∧ ¬ emptyTextSheet.Lifetime := by
  have hs : emptyTextSheet.sheet_ = [[some ⟨0, .EmptyImpl, [], []⟩]] := by decide!
  have hall : ∀ (q : Position) (c : Cell), emptyTextSheet.slot q = some c →
      c.impl_ = .EmptyImpl := by
    intro q c h
    unfold Sheet.slot at h
    rw [hs] at h
    generalize q.row.toNat = i at h
    generalize q.col.toNat = j at h
    match i, j with
    | 0, 0 =>
      simp at h
      rw [← h]
    | 0, j + 1 => simp at h
    | i + 1, _ => simp at h
  constructor
  · apply reachable_trace 4 [.SetCell A1 ""] Sheet.empty emptyTextSheet Reachable.empty
    decide!
  · intro hL
    have h1 : (emptyTextSheet.slot A1).isSome = true := by decide!
    rcases (hL A1 (by decide)).mp h1 with ⟨c, hc, hne⟩ | ⟨q, c, f, cache, -, hc, hi, -⟩
    · exact hne (hall A1 c hc)
    · rw [hall q c hc] at hi
      exact Impl.noConfusion hi

/-- C9 (amended): in every sheet reachable from the empty sheet by `SetCell` and `ClearCell`
calls, a cell exists at every valid position whose content is non-Empty or which the formula
of some existing cell references; moreover the incoming set of a referenced cell contains
the cell that references it. -/
theorem referenced_or_nonempty_exists (s : Sheet) (h : Reachable s) :
    (∀ p : Position, p.IsValid = true →
      (s.NonEmptyAt p ∨ s.ReferencedAt p) → (s.slot p).isSome = true)
    ∧ s.ReferencesAlive := by
  have hA := alive_of_reachable h
  refine ⟨?_, hA⟩
  intro p _ hp
  rcases hp with ⟨c, hc, -⟩ | ⟨q, c, f, cache, hq, hc, hi, hmem⟩
  · rw [hc]; rfl
  · obtain ⟨d, hd, -⟩ := hA q c f cache hq hc hi p hmem
    rw [hd]; rfl

/-- C9, witness of the amended claim: after `SetCell(A1, "1")`, `SetCell(B1, "=A1")` the
formula at B1 references A1, and a cell exists at A1. -/
theorem referenced_or_nonempty_exists_witness :
    Reachable backrefSheet ∧ backrefSheet.ReferencedAt A1
      ∧ (backrefSheet.slot A1).isSome = true := by
  have hr : Reachable backrefSheet := by
    apply reachable_trace 4 [.SetCell A1 "1", .SetCell B1 "=A1"] Sheet.empty backrefSheet
      Reachable.empty
    decide!
  have href : backrefSheet.ReferencedAt A1 :=
    ⟨B1, ⟨1, .FormulaImpl (.CellRef A1) none, [], [⟨A1, 0⟩]⟩, .CellRef A1, none,
      by decide, by decide!, rfl, by decide⟩
  exact ⟨hr, href,
    (referenced_or_nonempty_exists backrefSheet hr).1 A1 (by decide) (Or.inr href)⟩

/-! ## Lemmas: printable size -/

theorem foldl_preserves {α β : Type} (P : β → Prop) (f : β → α → β) (l : List α)
    (h : ∀ x ∈ l, ∀ b, P b → P (f b x)) : ∀ b, P b → P (l.foldl f b) := by
  induction l with
  | nil => intro b hb; exact hb
  | cons x xs ih =>
    intro b hb
    exact ih (fun y hy => h y (List.mem_cons_of_mem _ hy)) _ (h x (List.mem_cons_self _ _) b hb)

theorem foldl_establishes {α β : Type} (P : β → Prop) (f : β → α → β) (l : List α) (x : α)
    (hx : x ∈ l) (hest : ∀ b, P (f b x)) (hpres : ∀ y b, P b → P (f b y)) :
    ∀ b, P (l.foldl f b) := by
  intro b
  obtain ⟨l1, l2, hl⟩ := List.append_of_mem hx
  rw [hl, List.foldl_append, List.foldl_cons]
  exact foldl_preserves P f l2 (fun y _ b hb => hpres y b hb) _ (hest _)

theorem visitSlot_mono (s : Sheet) (i j : Nat) (sz : Size) :
    sz.rows ≤ (s.visitSlot i j sz).rows ∧ sz.cols ≤ (s.visitSlot i j sz).cols := by
  unfold Sheet.visitSlot
  split
  · constructor
    · simp only; split <;> omega
    · simp only; split <;> omega
  · exact ⟨le_refl _, le_refl _⟩

theorem visitSlot_cover (s : Sheet) (i j : Nat) (sz : Size) (h : s.hasCell i j) :
    (i : Int) < (s.visitSlot i j sz).rows ∧ (j : Int) < (s.visitSlot i j sz).cols := by
  unfold Sheet.visitSlot
  unfold Sheet.hasCell at h
  rw [if_pos h]
  constructor
  · simp only; split <;> omega
  · simp only; split <;> omega

theorem visitSlot_attained (s : Sheet) (i j : Nat) (sz : Size) (h : s.Attained sz) :
    s.Attained (s.visitSlot i j sz) := by
  unfold Sheet.visitSlot
  split
  · rename_i hc
    constructor
    · simp only
      split
      · right; exact ⟨i, j, hc, rfl⟩
      · exact h.1
    · simp only
      split
      · right; exact ⟨i, j, hc, rfl⟩
      · exact h.2
  · exact h

theorem scanRow_keeps (s : Sheet) (i : Nat) (i0 j0 : Nat) (sz : Size)
    (h : (i0 : Int) < sz.rows ∧ (j0 : Int) < sz.cols) :
    (i0 : Int) < (s.scanRow i sz).rows ∧ (j0 : Int) < (s.scanRow i sz).cols := by
  unfold Sheet.scanRow
  apply foldl_preserves (fun sz : Size => (i0 : Int) < sz.rows ∧ (j0 : Int) < sz.cols) _ _ _ sz h
  intro j _ b hb
  have := visitSlot_mono s i j b
  exact ⟨by omega, by omega⟩

theorem hasCell_inside {s : Sheet} {i j : Nat} (h : s.hasCell i j) :
    i < s.sheet_.length ∧ j < (s.sheet_.getD i []).length := by
  unfold Sheet.hasCell at h
  constructor
  · by_contra hc
    rw [List.getD_eq_default s.sheet_ [] (by omega)] at h
    simp at h
  · by_contra hc
    rw [List.getD_eq_default (s.sheet_.getD i []) none (by omega)] at h
    simp at h

theorem scanRow_cover (s : Sheet) (i j : Nat) (sz : Size) (h : s.hasCell i j) :
    (i : Int) < (s.scanRow i sz).rows ∧ (j : Int) < (s.scanRow i sz).cols := by
  unfold Sheet.scanRow
  apply foldl_establishes (fun sz : Size => (i : Int) < sz.rows ∧ (j : Int) < sz.cols) _ _ j
  · rw [List.mem_reverse, List.mem_range]
    exact (hasCell_inside h).2
  · intro b; exact visitSlot_cover s i j b h
  · intro y b hb
    have := visitSlot_mono s i y b
    exact ⟨by omega, by omega⟩

theorem scanRow_attained (s : Sheet) (i : Nat) (sz : Size) (h : s.Attained sz) :
    s.Attained (s.scanRow i sz) := by
  unfold Sheet.scanRow
  exact foldl_preserves s.Attained _ _ (fun j _ b hb => visitSlot_attained s i j b hb) sz h

theorem GetPrintableSize_cover (s : Sheet) (i j : Nat) (h : s.hasCell i j) :
    (i : Int) < s.GetPrintableSize.rows ∧ (j : Int) < s.GetPrintableSize.cols := by
  have hin := hasCell_inside h
  unfold Sheet.GetPrintableSize
  have hne : s.sheet_.isEmpty = false := by
    cases hs : s.sheet_ with
    | nil => rw [hs] at hin; simp at hin
    | cons a l => rfl
  simp only [hne, Bool.false_eq_true, if_false]
  apply foldl_establishes (fun sz : Size => (i : Int) < sz.rows ∧ (j : Int) < sz.cols) _ _ i
  · rw [List.mem_reverse, List.mem_range]
    exact hin.1
  · intro b; exact scanRow_cover s i j b h
  · intro y b hb; exact scanRow_keeps s y i j b hb

theorem GetPrintableSize_attained (s : Sheet) : s.Attained s.GetPrintableSize := by
  have h0 : s.Attained ⟨0, 0⟩ := ⟨Or.inl rfl, Or.inl rfl⟩
  unfold Sheet.GetPrintableSize
  split
  · exact h0
  · exact foldl_preserves s.Attained _ _ (fun i _ b hb => scanRow_attained s i b hb) _ h0

/-- C11: `GetPrintableSize` returns the minimal bounding box of the existing cells of any
jagged grid: every existing cell has `row < R` and `col < C`; every other pair of
non-negative extents with that property is at least as large in both components; `R` and
`C` are each zero or one more than the row, respectively column, index of an existing cell,
so they are one more than the largest such index; and the result is (0, 0) when no slot
holds a cell. -/
theorem GetPrintableSize_minimal_box (s : Sheet) :
    (∀ i j, s.hasCell i j →
      (i : Int) < s.GetPrintableSize.rows ∧ (j : Int) < s.GetPrintableSize.cols)
    ∧ (∀ R C : Int, 0 ≤ R → 0 ≤ C →
        (∀ i j, s.hasCell i j → (i : Int) < R ∧ (j : Int) < C) →
        s.GetPrintableSize.rows ≤ R ∧ s.GetPrintableSize.cols ≤ C)
    ∧ s.Attained s.GetPrintableSize
    ∧ ((∀ i j, ¬ s.hasCell i j) → s.GetPrintableSize = ⟨0, 0⟩) := by
  have hA := GetPrintableSize_attained s
  refine ⟨GetPrintableSize_cover s, ?_, hA, ?_⟩
  · intro R C hR hC hall
    constructor
    · rcases hA.1 with h | ⟨i, j, hc, h⟩
      · omega
      · have := (hall i j hc).1; omega
    · rcases hA.2 with h | ⟨i, j, hc, h⟩
      · omega
      · have := (hall i j hc).2; omega
  · intro hnone
    have hr : s.GetPrintableSize.rows = 0 := by
      rcases hA.1 with h | ⟨i, j, hc, _⟩
      · exact h
      · exact absurd hc (hnone i j)
    have hc : s.GetPrintableSize.cols = 0 := by
      rcases hA.2 with h | ⟨i, j, hc, _⟩
      · exact h
      · exact absurd hc (hnone i j)
    cases hsz : s.GetPrintableSize with
    | mk r c =>
      rw [hsz] at hr hc
      simp only at hr hc
      rw [hr, hc]

/-- C11, evaluation: the grid with cells at (0,0) and (4,2) only has printable size (5, 3);
a grid of empty slots has (0, 0). -/
theorem GetPrintableSize_examples :
    twoCornerSheet.GetPrintableSize = ⟨5, 3⟩
    ∧ (⟨[[none, none], [], [none]], 0⟩ : Sheet).GetPrintableSize = ⟨0, 0⟩ := by
  decide

/-- C13 (the code at the failing input): for the formula `A1+B1+A1`, whose cell list is
[A1, B1, A1], `GetReferencedCells` returns [A1, B1, A1]: `std::unique` drops only adjacent
repetitions, so A1 occurs twice. -/
theorem GetReferencedCells_keeps_distant_duplicate :
    (ParseFormulaAST "A1+B1+A1").map FormulaAST.GetCells = some [A1, B1, A1]
    ∧ (ParseFormulaAST "A1+B1+A1").map Formula.GetReferencedCells = some [A1, B1, A1]
    ∧ (ParseFormulaAST "A1+A1+B1").map Formula.GetReferencedCells = some [A1, B1] := by
  decide!

/-- C14 (the code at the failing input): on the sheet holding `A1 = "=B1"`, after
`SetCell(A1, "")` the incoming set of the cell at B1 is empty, after `ClearCell(A1)` it still
holds the pointer to the cell of A1; and on the sheet with `A1 = "1"`, `B1 = "=A1"` and a
filled cache at B1, `SetCell(A1, "")` empties that cache while `ClearCell(A1)` leaves it
populated. -/
theorem SetCell_empty_differs_from_ClearCell :
    ((Sheet.SetCell 4 A1 "" oneFormulaSheet).after.bind (fun s => s.slot B1))
        = some ⟨1, .EmptyImpl, [], []⟩
    ∧ ((Sheet.ClearCell A1 oneFormulaSheet).after.bind (fun s => s.slot B1))
        = some ⟨1, .EmptyImpl, [⟨A1, 0⟩], []⟩
    ∧ ((Sheet.SetCell 4 A1 "" backrefSheetRead).after.bind (fun s => s.slot B1))
        = some ⟨1, .FormulaImpl (.CellRef A1) none, [], [⟨A1, 0⟩]⟩
    ∧ ((Sheet.ClearCell A1 backrefSheetRead).after.bind (fun s => s.slot B1))
        = some ⟨1, .FormulaImpl (.CellRef A1) (some (.num 1)), [], [⟨A1, 0⟩]⟩ := by
  decide!

/-- C15 (the code at the failing input): after `SetCell(A1, "=B1")`, `ClearCell(A1)` the cell
of A1 is destroyed, so it has no outgoing set, but its pointer is still in the incoming set
of the cell at B1; the reachable sheet is not edge-symmetric. -/
theorem ClearCell_breaks_edge_symmetry :
    Reachable danglingSheet
    ∧ danglingSheet.slot A1 = none
    ∧ danglingSheet.incoming ⟨B1, 1⟩ = [⟨A1, 0⟩]
    ∧ danglingSheet.outgoing ⟨A1, 0⟩ = []
    ∧ ¬ danglingSheet.EdgeSymmetric := by
  have h3 : danglingSheet.incoming ⟨B1, 1⟩ = [⟨A1, 0⟩] := by decide!
  have h4 : danglingSheet.outgoing ⟨A1, 0⟩ = [] := by decide!
  refine ⟨?_, by decide!, h3, h4, ?_⟩
  · apply reachable_trace 4 [.SetCell A1 "=B1", .ClearCell A1] Sheet.empty danglingSheet
      Reachable.empty
    decide!
  · intro h
    have := (h ⟨A1, 0⟩ ⟨B1, 1⟩).mpr (by rw [h3]; exact List.mem_singleton_self _)
    rw [h4] at this
    exact List.not_mem_nil _ this

/-- C16 (the code at the failing input): after `SetCell(A1, "1")`, `SetCell(B1, "=A1")`,
`GetValue(B1)`, `ClearCell(A1)` the cache of the formula cell at B1 still holds 1, while
evaluating its formula against the current sheet gives 0. -/
theorem ClearCell_leaves_stale_cache :
    staleSheet.slot B1 = some ⟨1, .FormulaImpl (.CellRef A1) (some (.num 1)), [], [⟨A1, 0⟩]⟩
    ∧ staleSheet.slot A1 = some ⟨0, .EmptyImpl, [⟨B1, 1⟩], []⟩
    ∧ specValue staleSheet 4 (.FormulaImpl (.CellRef A1) (some (.num 1))) = some (.num 0)
    ∧ (Formula.Evaluate (Cell.GetValue 4) (.CellRef A1) staleSheet).value = some (.num 0) := by
  decide!

/-! ## Lemmas: `SetCell` on an existing cell and on a Literal -/

theorem grow_of_inRange (pos : Position) (s : Sheet) (hv : pos.IsValid = true)
    (h : s.inRange pos) : Sheet.grow pos s = s := by
  rw [Position.IsValid_iff] at hv
  obtain ⟨h1, h2⟩ := h
  unfold Sheet.grow
  have hne : s.sheet_.isEmpty = false := by
    cases hs : s.sheet_ with
    | nil => rw [hs] at h1; simp at h1
    | cons a l => rfl
  have hrow : decide (pos.row ≥ (s.sheet_.length : Int)) = false := by
    simp only [decide_eq_false_iff_not, not_le]
    omega
  simp only [hne, hrow, Bool.or_self, Bool.false_eq_true, if_false]
  have hcol : decide (pos.col ≥ ((s.sheet_.getD pos.row.toNat []).length : Int)) = false := by
    simp only [decide_eq_false_iff_not, not_le]
    omega
  simp only [hcol, Bool.false_eq_true, if_false]

/-- On a position that holds a cell `Sheet::SetCell` is the call of `Cell::Set` on that
cell. -/
theorem SetCell_of_slot (n : Nat) (pos : Position) (text : String) (s : Sheet) (c : Cell)
    (hv : pos.IsValid = true) (hc : s.slot pos = some c) :
    Sheet.SetCell (n + 1) pos text s = Cell.Set n (Sheet.SetCell n) ⟨pos, c.stamp⟩ text s := by
  unfold Sheet.SetCell
  simp only [hv, Bool.not_true, Bool.false_eq_true, if_false]
  rw [grow_of_inRange pos s hv (inRange_of_slot hc)]
  simp only [hc]

/-- `Cell::Set` with a non-empty text that is no formula: the candidate is a `TextImpl`, the
cycle check returns false at once, and what remains is the commit. -/
theorem Cell_Set_literal (fuel : Nat) (SetCell : Position → String → M Unit)
    (this : CellPtr) (t : String) (s : Sheet) (hne : t.data.isEmpty = false)
    (hlit : ¬ (t.data.head? = some FORMULA_SIGN ∧ t.data.length > 1)) :
    Cell.Set fuel SetCell this t s = (do
      modify this (fun c => { c with impl_ := Impl.TextImpl t })
      let c ← deref this
      forEach (fun curr_cell =>
        modify curr_cell (fun d => { d with lhs_cells_ := setErase this d.lhs_cells_ }))
        c.rhs_cells_
      modify this (fun c => { c with rhs_cells_ := [] })
      forEach (Cell.link SetCell this) (Impl.TextImpl t).GetReferencedCells
      Cell.CashInvalidation fuel this true : M Unit) s := by
  unfold Cell.Set
  simp only [hne, Bool.false_eq_true, if_false, hlit]
  have h1 : TextImpl.ctor t s = .ok (.TextImpl t) s := by
    unfold TextImpl.ctor
    simp only [hne, Bool.false_eq_true, if_false]
    rfl
  rw [bind_ok h1]
  have hc0 : Cell.IsThereCircularDependency fuel this (Impl.TextImpl t) s = .ok false s := rfl
  rw [bind_ok hc0]
  simp only [Bool.false_eq_true, if_false]

theorem loop_cascade_from_D1 (SetCell : Position → String → M Unit) (n : Nat) :
    Cell.Set n SetCell ⟨D1, 2⟩ "1" loopSheet
      = Cell.CashInvalidation n ⟨D1, 2⟩ true loopSheetEdited := by
  rw [Cell_Set_literal n SetCell ⟨D1, 2⟩ "1" loopSheet (by decide) (by decide)]
  have h1 : modify ⟨D1, 2⟩ (fun c => { c with impl_ := Impl.TextImpl "1" }) loopSheet
      = .ok () loopSheetEdited := by decide!
  have h2 : deref ⟨D1, 2⟩ loopSheetEdited
      = .ok ⟨2, .TextImpl "1", [⟨A1, 0⟩], []⟩ loopSheetEdited := by decide!
  have h3 : modify ⟨D1, 2⟩ (fun c => { c with rhs_cells_ := [] }) loopSheetEdited
      = .ok () loopSheetEdited := by decide!
  rw [bind_ok h1, bind_ok h2]
  dsimp only
  simp only [forEach]
  rw [bind_ok (pure_run () loopSheetEdited), bind_ok h3]
  rw [bind_ok (pure_run () loopSheetEdited)]

theorem loop_cascade_overflow (n : Nat) :
    Cell.CashInvalidation n ⟨A1, 0⟩ false loopSheetEdited = .overflow
    ∧ Cell.CashInvalidation n ⟨B1, 1⟩ false loopSheetEdited = .overflow
    ∧ Cell.CashInvalidation n ⟨C1, 3⟩ false loopSheetEdited = .overflow := by
  induction n with
  | zero => exact ⟨rfl, rfl, rfl⟩
  | succ n ih =>
    have dA : deref ⟨A1, 0⟩ loopSheetEdited
        = .ok ⟨0, .EmptyImpl, [⟨C1, 3⟩], [⟨B1, 1⟩, ⟨D1, 2⟩]⟩ loopSheetEdited := by decide!
    have dB : deref ⟨B1, 1⟩ loopSheetEdited
        = .ok ⟨1, .EmptyImpl, [⟨A1, 0⟩], [⟨C1, 3⟩]⟩ loopSheetEdited := by decide!
    have dC : deref ⟨C1, 3⟩ loopSheetEdited
        = .ok ⟨3, .EmptyImpl, [⟨B1, 1⟩], [⟨A1, 0⟩]⟩ loopSheetEdited := by decide!
    have mA : modify ⟨A1, 0⟩ (fun c => { c with impl_ := c.impl_.InvalidateCache })
        loopSheetEdited = .ok () loopSheetEdited := by decide!
    have mB : modify ⟨B1, 1⟩ (fun c => { c with impl_ := c.impl_.InvalidateCache })
        loopSheetEdited = .ok () loopSheetEdited := by decide!
    have mC : modify ⟨C1, 3⟩ (fun c => { c with impl_ := c.impl_.InvalidateCache })
        loopSheetEdited = .ok () loopSheetEdited := by decide!
    refine ⟨?_, ?_, ?_⟩
    · unfold Cell.CashInvalidation
      rw [bind_ok dA]
      simp only [Impl.IsCacheValid, Bool.true_or, if_true]
      rw [bind_ok mA]
      simp only [forEach]
      rw [bind_overflow ih.2.2]
    · unfold Cell.CashInvalidation
      rw [bind_ok dB]
      simp only [Impl.IsCacheValid, Bool.true_or, if_true]
      rw [bind_ok mB]
      simp only [forEach]
      rw [bind_overflow ih.1]
    · unfold Cell.CashInvalidation
      rw [bind_ok dC]
      simp only [Impl.IsCacheValid, Bool.true_or, if_true]
      rw [bind_ok mC]
      simp only [forEach]
      rw [bind_overflow ih.2.1]

/-- C18 (the code at the failing input): the sheet reached by `SetCell(A1, "=B1+D1")`,
`SetCell(B1, "=C1")`, `SetCell(C1, "=A1")`, `ClearCell(A1)`, `ClearCell(B1)`, `ClearCell(C1)`
holds three Empty cells whose incoming sets form a cycle; on it the cascade started by
`SetCell(D1, "1")` never returns: the call exhausts every call budget. -/
theorem cascade_loops_on_empty_cycle :
    Reachable loopSheet ∧ ∀ fuel, Sheet.SetCell fuel D1 "1" loopSheet = .overflow := by
  constructor
  · apply reachable_trace 4 [.SetCell A1 "=B1+D1", .SetCell B1 "=C1", .SetCell C1 "=A1",
      .ClearCell A1, .ClearCell B1, .ClearCell C1] Sheet.empty loopSheet Reachable.empty
    decide!
  · intro fuel
    cases fuel with
    | zero => rfl
    | succ n =>
      have hs : loopSheet.slot D1 = some ⟨2, .EmptyImpl, [⟨A1, 0⟩], []⟩ := by decide!
      rw [SetCell_of_slot n D1 "1" loopSheet _ (by decide) hs, loop_cascade_from_D1]
      cases n with
      | zero => rfl
      | succ m =>
        have dD : deref ⟨D1, 2⟩ loopSheetEdited
            = .ok ⟨2, .TextImpl "1", [⟨A1, 0⟩], []⟩ loopSheetEdited := by decide!
        have mD : modify ⟨D1, 2⟩ (fun c => { c with impl_ := c.impl_.InvalidateCache })
            loopSheetEdited = .ok () loopSheetEdited := by decide!
        unfold Cell.CashInvalidation
        rw [bind_ok dD]
        simp only [Impl.IsCacheValid, Bool.true_or, if_true]
        rw [bind_ok mD]
        simp only [forEach]
        rw [bind_overflow (loop_cascade_overflow m).1]
theorem InvalidateCache_eq_text {i : Impl} {t : String}
    (h : i.InvalidateCache = (Impl.TextImpl t).InvalidateCache) : i = .TextImpl t := by
  cases i with
  | EmptyImpl => simp [Impl.InvalidateCache] at h
  | TextImpl t1 => simpa [Impl.InvalidateCache] using h
  | FormulaImpl f c => simp [Impl.InvalidateCache] at h

/-- `Cell::Set` with a Literal never throws, and when it returns the cell holds the
Literal. -/
theorem Cell_Set_literal_post (n : Nat) (pos : Position) (c : Cell) (t : String) (s : Sheet)
    (hv : pos.IsValid = true) (hne : t.data.isEmpty = false)
    (hlit : ¬ (t.data.head? = some FORMULA_SIGN ∧ t.data.length > 1)) :
    (∀ e s1, Cell.Set n (Sheet.SetCell n) ⟨pos, c.stamp⟩ t s ≠ .throw e s1)
    ∧ (∀ u s1, Cell.Set n (Sheet.SetCell n) ⟨pos, c.stamp⟩ t s = .ok u s1 →
        ∃ c1, s1.slot pos = some c1 ∧ c1.impl_ = .TextImpl t) := by
  rw [Cell_Set_literal n (Sheet.SetCell n) ⟨pos, c.stamp⟩ t s hne hlit]
  constructor
  · intro e s1 h
    exact onlyThrows_commit_valid (fun _ => False) (Sheet.SetCell n) n ⟨pos, c.stamp⟩
      (Impl.TextImpl t) (fun p hp => by simp [Impl.GetReferencedCells] at hp) s e s1 h
  · intro u s1 h
    obtain ⟨c0, hc0, -, hF, -⟩ := commit_ok n n ⟨pos, c.stamp⟩ (Impl.TextImpl t) s s1 u h
    simp only at hc0 hF
    have hs3 : (s.setSlot pos (some { c0 with impl_ := Impl.TextImpl t })).slot pos
        = some { c0 with impl_ := Impl.TextImpl t } :=
      slot_setSlot_self s pos _ (inRange_of_slot hc0)
    obtain ⟨c1, hc1, -, him, -⟩ := hF.1 pos hv _ hs3
    exact ⟨c1, hc1, InvalidateCache_eq_text him⟩

theorem SetCell_literal_post (fuel : Nat) (pos : Position) (t : String) (s : Sheet)
    (hv : pos.IsValid = true) (hne : t.data.isEmpty = false)
    (hlit : ¬ (t.data.head? = some FORMULA_SIGN ∧ t.data.length > 1)) :
    (∀ e s1, Sheet.SetCell fuel pos t s ≠ .throw e s1)
    ∧ (∀ u s1, Sheet.SetCell fuel pos t s = .ok u s1 →
        ∃ c1, s1.slot pos = some c1 ∧ c1.impl_ = .TextImpl t) := by
  cases fuel with
  | zero =>
    exact ⟨fun e s1 h => Res.noConfusion h, fun u s1 h => Res.noConfusion h⟩
  | succ n =>
    obtain ⟨c, hc⟩ := slot_after_insert s pos hv
    unfold Sheet.SetCell
    simp only [hv, Bool.not_true, Bool.false_eq_true, if_false]
    rw [hc]
    exact Cell_Set_literal_post n pos c t _ hv hne hlit

/-- At a position without a cell `SetCell` with a Literal succeeds on every sheet. -/
theorem SetCell_literal_fresh (n : Nat) (pos : Position) (t : String) (s : Sheet)
    (hv : pos.IsValid = true) (hn : s.slot pos = none) (hne : t.data.isEmpty = false)
    (hlit : ¬ (t.data.head? = some FORMULA_SIGN ∧ t.data.length > 1)) :
    ∃ s1, Sheet.SetCell (n + 2) pos t s = .ok () s1 := by
  unfold Sheet.SetCell
  simp only [hv, Bool.not_true, Bool.false_eq_true, if_false]
  have hg : (Sheet.grow pos s).slot pos = none := by rw [slot_grow]; exact hn
  rw [hg]
  simp only
  have hpos : (⟨((Sheet.grow pos s).setSlot pos (some (Sheet.grow pos s).newCell)).sheet_,
      (Sheet.grow pos s).allocated + 1⟩ : Sheet).slot pos
      = some (Sheet.grow pos s).newCell :=
    slot_setSlot_self (Sheet.grow pos s) pos _ (inRange_grow pos s hv)
  generalize (⟨((Sheet.grow pos s).setSlot pos (some (Sheet.grow pos s).newCell)).sheet_,
      (Sheet.grow pos s).allocated + 1⟩ : Sheet) = s2 at hpos
  generalize hnc : (Sheet.grow pos s).newCell = nc at hpos
  have hl : nc.lhs_cells_ = [] := by rw [← hnc]; rfl
  have hr : nc.rhs_cells_ = [] := by rw [← hnc]; rfl
  rw [hpos]
  simp only
  rw [Cell_Set_literal (n + 1) _ ⟨pos, nc.stamp⟩ t s2 hne hlit]
  have hin := inRange_of_slot hpos
  have h1 := modify_of_slot s2 pos nc (fun c => { c with impl_ := Impl.TextImpl t }) hpos
  have hs3 := slot_setSlot_self s2 pos (some ({ nc with impl_ := Impl.TextImpl t } : Cell)) hin
  generalize s2.setSlot pos (some ({ nc with impl_ := Impl.TextImpl t } : Cell)) = s3 at h1 hs3
  have h2 := deref_of_slot s3 pos ({ nc with impl_ := Impl.TextImpl t } : Cell) hs3
  have h3 := modify_of_slot s3 pos ({ nc with impl_ := Impl.TextImpl t } : Cell)
    (fun c => { c with rhs_cells_ := [] }) hs3
  have hs4 := slot_setSlot_self s3 pos
    (some ({ nc with impl_ := Impl.TextImpl t, rhs_cells_ := [] } : Cell)) (inRange_of_slot hs3)
  generalize s3.setSlot pos
    (some ({ nc with impl_ := Impl.TextImpl t, rhs_cells_ := [] } : Cell)) = s4 at h3 hs4
  have h4 := deref_of_slot s4 pos
    ({ nc with impl_ := Impl.TextImpl t, rhs_cells_ := [] } : Cell) hs4
  have h5 := modify_of_slot s4 pos
    ({ nc with impl_ := Impl.TextImpl t, rhs_cells_ := [] } : Cell)
    (fun c => { c with impl_ := c.impl_.InvalidateCache }) hs4
  rw [bind_ok h1, bind_ok h2]
  dsimp only
  rw [hr]
  simp only [forEach]
  rw [bind_ok (pure_run () s3), bind_ok h3]
  rw [bind_ok (pure_run () s4)]
  unfold Cell.CashInvalidation
  rw [bind_ok h4]
  simp only [Bool.or_true, if_true]
  rw [bind_ok h5, hl]
  exact ⟨_, rfl⟩
theorem reachable_danglingSheet : Reachable danglingSheet := by
  apply reachable_trace 4 [.SetCell A1 "=B1", .ClearCell A1] Sheet.empty danglingSheet
    Reachable.empty
  decide!

theorem dangling_cascade_from_B1 (SetCell : Position → String → M Unit) (n : Nat) :
    Cell.Set n SetCell ⟨B1, 1⟩ "5" danglingSheet
      = Cell.CashInvalidation n ⟨B1, 1⟩ true danglingSheetEdited := by
  rw [Cell_Set_literal n SetCell ⟨B1, 1⟩ "5" danglingSheet (by decide) (by decide)]
  have h1 : modify ⟨B1, 1⟩ (fun c => { c with impl_ := Impl.TextImpl "5" }) danglingSheet
      = .ok () danglingSheetEdited := by decide!
  have h2 : deref ⟨B1, 1⟩ danglingSheetEdited
      = .ok ⟨1, .TextImpl "5", [⟨A1, 0⟩], []⟩ danglingSheetEdited := by decide!
  have h3 : modify ⟨B1, 1⟩ (fun c => { c with rhs_cells_ := [] }) danglingSheetEdited
      = .ok () danglingSheetEdited := by decide!
  rw [bind_ok h1, bind_ok h2]
  dsimp only
  simp only [forEach]
  rw [bind_ok (pure_run () danglingSheetEdited), bind_ok h3]
  rw [bind_ok (pure_run () danglingSheetEdited)]

theorem dangling_SetCell_not_ok (fuel : Nat) :
    (Sheet.SetCell fuel B1 "5" danglingSheet).isOk = false := by
  cases fuel with
  | zero => rfl
  | succ n =>
    have hs : danglingSheet.slot B1 = some ⟨1, .EmptyImpl, [⟨A1, 0⟩], []⟩ := by decide!
    rw [SetCell_of_slot n B1 "5" danglingSheet _ (by decide) hs, dangling_cascade_from_B1]
    cases n with
    | zero => rfl
    | succ m =>
      have dB : deref ⟨B1, 1⟩ danglingSheetEdited
          = .ok ⟨1, .TextImpl "5", [⟨A1, 0⟩], []⟩ danglingSheetEdited := by decide!
      have mB : modify ⟨B1, 1⟩ (fun c => { c with impl_ := c.impl_.InvalidateCache })
          danglingSheetEdited = .ok () danglingSheetEdited := by decide!
      have dA : deref ⟨A1, 0⟩ danglingSheetEdited = .ub := by decide!
      unfold Cell.CashInvalidation
      rw [bind_ok dB]
      simp only [Impl.IsCacheValid, Bool.true_or, if_true]
      rw [bind_ok mB]
      simp only [forEach]
      cases m with
      | zero => rfl
      | succ k =>
        unfold Cell.CashInvalidation
        rw [bind_run, bind_run, dA]
        rfl

/-- C12 (the code at the failing input): after `SetCell(A1, "=B1")`, `ClearCell(A1)` the
incoming set of the cell at B1 holds a pointer to the destroyed cell of A1, and
`SetCell(B1, "5")` dereferences it in the invalidation cascade: the call has undefined
behaviour and succeeds with no call budget.  Apart from the cascade the code does what the
claim says: on every sheet, for every valid position and every non-empty text that is no
formula, `SetCell` throws nothing, and whenever it returns, `GetText` is the text, the
content references no cell and `GetValue` is the text without a leading apostrophe; at a
position that holds no cell it always returns. -/
theorem literal_SetCell_reaches_destroyed_cell :
    Reachable danglingSheet
    ∧ Sheet.SetCell 4 B1 "5" danglingSheet = .ub
    ∧ (∀ fuel, (Sheet.SetCell fuel B1 "5" danglingSheet).isOk = false)
    ∧ (∀ (fuel : Nat) (pos : Position) (t : String) (s : Sheet), pos.IsValid = true →
        t.data.isEmpty = false → ¬ (t.data.head? = some FORMULA_SIGN ∧ t.data.length > 1) →
        (∀ e s1, Sheet.SetCell fuel pos t s ≠ .throw e s1)
        ∧ (∀ s1, Sheet.SetCell fuel pos t s = .ok () s1 →
            (∀ GetExpression, Sheet.GetText GetExpression pos s1 = some t)
            ∧ (s1.slot pos).map (fun c => c.impl_.GetReferencedCells) = some []
            ∧ (∀ n, (Sheet.GetValue (n + 1) pos s1).value
                = some (some (.str (if t.data.head? = some ESCAPE_SIGN then substr1 t else t))))))
    ∧ (∀ (n : Nat) (pos : Position) (t : String) (s : Sheet), pos.IsValid = true →
        t.data.isEmpty = false → ¬ (t.data.head? = some FORMULA_SIGN ∧ t.data.length > 1) →
        s.slot pos = none → ∃ s1, Sheet.SetCell (n + 2) pos t s = .ok () s1) := by
  refine ⟨reachable_danglingSheet, by decide!, dangling_SetCell_not_ok, ?_, ?_⟩
  · intro fuel pos t s hv hne hlit
    obtain ⟨h1, h2⟩ := SetCell_literal_post fuel pos t s hv hne hlit
    refine ⟨h1, ?_⟩
    intro s1 hok
    obtain ⟨c1, hc1, hi⟩ := h2 () s1 hok
    refine ⟨?_, ?_, ?_⟩
    · intro ge
      unfold Sheet.GetText
      rw [hc1]
      simp only [Option.map_some', hi]
      rfl
    · rw [hc1]
      simp only [Option.map_some', hi]
      rfl
    · intro n
      have hp : s1.ptrAt pos = some ⟨pos, c1.stamp⟩ := by simp [Sheet.ptrAt, hc1]
      unfold Sheet.GetValue Sheet.GetCell
      rw [bind_ok (GetCellPtr_valid s1 pos hv), hp]
      simp only
      unfold Cell.GetValue
      rw [bind_run, bind_run, deref_of_slot s1 pos c1 hc1]
      simp only [hi]
      rfl
  · intro n pos t s hv hne hlit hn
    exact SetCell_literal_fresh n pos t s hv hn hne hlit

/-! ## Lemmas: outgoing edges stay mirrored -/

theorem linkedBut_mono {E F : CellPtr → CellPtr → Prop} (hEF : ∀ a b, E a b → F a b)
    {s : Sheet} (h : s.RhsLinkedBut E) : s.RhsLinkedBut F := by
  intro p c hp hc b hb
  rcases h p c hp hc b hb with h1 | h1
  · exact Or.inl (hEF _ _ h1)
  · exact Or.inr h1

/-- Discharging the excepted edges. -/
theorem linkedBut_close {E : CellPtr → CellPtr → Prop} {s : Sheet} (h : s.RhsLinkedBut E)
    (hE : ∀ (p : Position) (c : Cell), p.IsValid = true → s.slot p = some c →
      ∀ b ∈ c.rhs_cells_, E ⟨p, c.stamp⟩ b → s.Linked ⟨p, c.stamp⟩ b) : s.RhsLinked := by
  intro p c hp hc b hb
  rcases h p c hp hc b hb with h1 | h1
  · exact Or.inr (hE p c hp hc b hb h1)
  · exact Or.inr h1

theorem cellAt_setSlot (s : Sheet) (pos : Position) (c1 : Cell) (hr : s.inRange pos)
    (b : CellPtr) :
    (s.setSlot pos (some c1)).cellAt b
      = if b.pos.sameSlot pos then (if c1.stamp = b.stamp then some c1 else none)
        else s.cellAt b := by
  unfold Sheet.cellAt
  rw [slot_setSlot s pos b.pos _ hr]
  by_cases hq : b.pos.sameSlot pos
  · rw [if_pos hq, if_pos hq]
  · rw [if_neg hq, if_neg hq]

/-- Rewriting one cell in place: members that enter its outgoing set and members that leave
its incoming set must be excepted edges. -/
theorem linkedBut_setSlot (E : CellPtr → CellPtr → Prop) (s : Sheet) (pos : Position)
    (c c1 : Cell) (hc : s.slot pos = some c) (hst : c1.stamp = c.stamp)
    (hr : ∀ p : Position, p.IsValid = true → p.sameSlot pos →
      ∀ b ∈ c1.rhs_cells_, b ∈ c.rhs_cells_ ∨ E ⟨p, c.stamp⟩ b)
    (hl : ∀ a ∈ c.lhs_cells_, a ∈ c1.lhs_cells_ ∨ ∀ b, E a b)
    (h : s.RhsLinkedBut E) : (s.setSlot pos (some c1)).RhsLinkedBut E := by
  have hrange := inRange_of_slot hc
  -- mirrored edges stay mirrored
  have keep : ∀ a b, s.Linked a b → E a b ∨ (s.setSlot pos (some c1)).Linked a b := by
    intro a b hab
    obtain ⟨hbv, d, hd, hmem⟩ := hab
    rw [Sheet.Linked, cellAt_setSlot s pos c1 hrange b]
    by_cases hq : b.pos.sameSlot pos
    · obtain ⟨hd1, hd2⟩ := cellAt_eq_some hd
      rw [slot_sameSlot s hq, hc] at hd1
      injection hd1 with hd1
      subst hd1
      rcases hl a hmem with h1 | h1
      · right
        refine ⟨hbv, c1, ?_, h1⟩
        rw [if_pos hq, if_pos (hst.trans hd2)]
      · exact Or.inl (h1 b)
    · right
      refine ⟨hbv, d, ?_, hmem⟩
      rw [if_neg hq]
      exact hd
  intro p c0 hp hc0 b hb
  rw [slot_setSlot s pos p _ hrange] at hc0
  by_cases hq : p.sameSlot pos
  · rw [if_pos hq] at hc0
    injection hc0 with hc0
    subst hc0
    rw [hst]
    rcases hr p hp hq b hb with h1 | h1
    · rcases h p c hp (by rw [slot_sameSlot s hq]; exact hc) b h1 with h2 | h2
      · exact Or.inl h2
      · exact keep _ _ h2
    · exact Or.inl h1
  · rw [if_neg hq] at hc0
    rcases h p c0 hp hc0 b hb with h2 | h2
    · exact Or.inl h2
    · exact keep _ _ h2

theorem linkedBut_modify (E : CellPtr → CellPtr → Prop) (x : CellPtr) (f : Cell → Cell)
    (hst : ∀ c, (f c).stamp = c.stamp)
    (hr : ∀ c, c.stamp = x.stamp → ∀ p : Position, p.IsValid = true → p.sameSlot x.pos →
      ∀ b ∈ (f c).rhs_cells_, b ∈ c.rhs_cells_ ∨ E ⟨p, c.stamp⟩ b)
    (hl : ∀ c, ∀ a ∈ c.lhs_cells_, a ∈ (f c).lhs_cells_ ∨ ∀ b, E a b)
    {s s1 : Sheet} {u : Unit} (hm : modify x f s = .ok u s1) (h : s.RhsLinkedBut E) :
    s1.RhsLinkedBut E := by
  obtain ⟨c, hc, hcs, hs1⟩ := modify_eq_ok hm
  rw [hs1]
  exact linkedBut_setSlot E s x.pos c (f c) hc (hst c) (hr c hcs) (hl c) h

/-- An invariant kept by every step of a loop is kept by the loop. -/
theorem inv_forEach {α : Type} (I : Sheet → Prop) (f : α → M Unit) (l : List α)
    (hf : ∀ a ∈ l, ∀ s s1 u, f a s = .ok u s1 → I s → I s1) :
    ∀ s s1 u, forEach f l s = .ok u s1 → I s → I s1 := by
  induction l with
  | nil =>
    intro s s1 u h hI
    injection h with h1 h2
    rw [← h2]
    exact hI
  | cons x xs ih =>
    intro s s1 u h hI
    unfold forEach at h
    obtain ⟨a, s0, h1, h2⟩ := bind_eq_ok h
    exact ih (fun a ha => hf a (List.mem_cons_of_mem _ ha)) s0 s1 u h2
      (hf x (List.mem_cons_self _ _) s s0 a h1 hI)

theorem linkedBut_CashInvalidation (E : CellPtr → CellPtr → Prop) (fuel : Nat) :
    ∀ (this : CellPtr) (flag : Bool) (s s1 : Sheet) (u : Unit),
      Cell.CashInvalidation fuel this flag s = .ok u s1 → s.RhsLinkedBut E →
      s1.RhsLinkedBut E := by
  induction fuel with
  | zero =>
    intro this flag s s1 u h
    exact Res.noConfusion h
  | succ n ih =>
    intro this flag s s1 u h hI
    unfold Cell.CashInvalidation at h
    obtain ⟨c, s0, h1, h2⟩ := bind_eq_ok h
    obtain ⟨hs0, -, -⟩ := deref_eq_ok h1
    subst hs0
    split at h2
    · obtain ⟨a, s2, h3, h4⟩ := bind_eq_ok h2
      have f1 : s2.RhsLinkedBut E := linkedBut_modify E this
        (fun c => { c with impl_ := c.impl_.InvalidateCache }) (fun _ => rfl)
        (fun _ _ _ _ _ b hb => Or.inl hb) (fun _ a ha => Or.inl ha) h3 hI
      exact inv_forEach (fun t => t.RhsLinkedBut E) _ _
        (fun d _ s s1 u hd => ih d false s s1 u hd) s2 s1 u h4 f1
    · injection h2 with h3 h4
      rw [← h4]
      exact hI

theorem mem_setInsert_iff {x y : CellPtr} {l : List CellPtr} :
    x ∈ setInsert y l ↔ x ∈ l ∨ x = y := by
  unfold setInsert
  split
  · constructor
    · exact Or.inl
    · rintro (h | h)
      · exact h
      · rw [h]; assumption
  · simp [List.mem_append]

theorem cellAt_congr {s s1 : Sheet} {b : CellPtr} (h : s1.slot b.pos = s.slot b.pos) :
    s1.cellAt b = s.cellAt b := by
  unfold Sheet.cellAt
  rw [h]

/-- A sheet that keeps every cell and adds cells without outgoing edges. -/
theorem linkedBut_extend (E : CellPtr → CellPtr → Prop) (s s2 : Sheet)
    (h1 : ∀ p : Position, p.IsValid = true → ∀ c1, s2.slot p = some c1 →
      s.slot p = some c1 ∨ c1.rhs_cells_ = [])
    (h2 : ∀ q : Position, q.IsValid = true → ∀ d, s.slot q = some d → s2.slot q = some d)
    (h : s.RhsLinkedBut E) : s2.RhsLinkedBut E := by
  intro p c hp hc b hb
  rcases h1 p hp c hc with h3 | h3
  · rcases h p c hp h3 b hb with h4 | ⟨hbv, d, hd, hmem⟩
    · exact Or.inl h4
    · right
      refine ⟨hbv, d, ?_, hmem⟩
      obtain ⟨hd1, hd2⟩ := cellAt_eq_some hd
      rw [cellAt_congr ((h2 b.pos hbv d hd1).trans hd1.symm)]
      exact hd
  · rw [h3] at hb
    simp at hb

/-- The sheet in which `Sheet::SetCell` calls `Cell::Set` keeps the outgoing edges mirrored. -/
theorem linkedBut_insert (E : CellPtr → CellPtr → Prop) (s : Sheet) (pos : Position)
    (hv : pos.IsValid = true) (h : s.RhsLinkedBut E) :
    (match (Sheet.grow pos s).slot pos with
      | some _ => Sheet.grow pos s
      | none => (⟨((Sheet.grow pos s).setSlot pos (some (Sheet.grow pos s).newCell)).sheet_,
          (Sheet.grow pos s).allocated + 1⟩ : Sheet)).RhsLinkedBut E := by
  cases hg : (Sheet.grow pos s).slot pos with
  | some c0 =>
    simp only
    apply linkedBut_extend E s _ _ _ h
    · intro p _ c1 hc1
      rw [slot_grow] at hc1
      exact Or.inl hc1
    · intro q _ d hd
      rw [slot_grow]
      exact hd
  | none =>
    simp only
    have hn : s.slot pos = none := by rw [← slot_grow pos pos s]; exact hg
    have hr := inRange_grow pos s hv
    have hs2 : ∀ p, (⟨((Sheet.grow pos s).setSlot pos (some (Sheet.grow pos s).newCell)).sheet_,
        (Sheet.grow pos s).allocated + 1⟩ : Sheet).slot p
        = if p.sameSlot pos then some (Sheet.grow pos s).newCell else s.slot p := by
      intro p
      rw [← slot_grow pos p s, ← slot_setSlot _ pos p _ hr]
      rfl
    apply linkedBut_extend E s _ _ _ h
    · intro p _ c1 hc1
      rw [hs2 p] at hc1
      by_cases hq : p.sameSlot pos
      · rw [if_pos hq] at hc1
        injection hc1 with hc1
        right
        rw [← hc1]
        rfl
      · rw [if_neg hq] at hc1
        exact Or.inl hc1
    · intro q hq d hd
      rw [hs2 q, if_neg]
      · exact hd
      · intro hqs
        rw [(Position.sameSlot_iff hq hv).mp hqs, hn] at hd
        exact Option.noConfusion hd

/-- Installing one edge (cell.cpp 188-189) once the target is resolved. -/
theorem linked_link_tail (this : CellPtr) (pos : Position) (hv : pos.IsValid = true)
    (htv : this.pos.IsValid = true) (sa s1 : Sheet) (u : Unit)
    (h : ((match sa.ptrAt pos with
      | none => fun _ => Res.ub
      | some q => do
        modify this (fun c => { c with rhs_cells_ := setInsert q c.rhs_cells_ })
        modify q (fun c => { c with lhs_cells_ := setInsert this c.lhs_cells_ })) : M Unit) sa
      = .ok u s1)
    (hI : sa.RhsLinked) : s1.RhsLinked := by
  cases hp : sa.ptrAt pos with
  | none =>
    rw [hp] at h
    exact Res.noConfusion h
  | some q =>
    rw [hp] at h
    simp only at h
    obtain ⟨d, -, hq⟩ := ptrAt_eq_some hp
    obtain ⟨_, sb, h1, h2⟩ := bind_eq_ok h
    have hqv : q.pos.IsValid = true := by rw [hq]; exact hv
    have i0 : sa.RhsLinkedBut (fun a b => a = this ∧ b = q) :=
      linkedBut_mono (fun _ _ hf => hf.elim) hI
    have i1 : sb.RhsLinkedBut (fun a b => a = this ∧ b = q) := by
      apply linkedBut_modify _ this
        (fun c => { c with rhs_cells_ := setInsert q c.rhs_cells_ }) (fun _ => rfl) _
        (fun _ a ha => Or.inl ha) h1 i0
      intro c hcs p hpv hps b hb
      rcases mem_setInsert_iff.mp hb with hb1 | hb1
      · exact Or.inl hb1
      · right
        refine ⟨?_, hb1⟩
        have hpp : p = this.pos := (Position.sameSlot_iff hpv htv).mp hps
        rw [hpp, hcs]
    have i2 : s1.RhsLinkedBut (fun a b => a = this ∧ b = q) :=
      linkedBut_modify _ q (fun c => { c with lhs_cells_ := setInsert this c.lhs_cells_ })
        (fun _ => rfl) (fun _ _ _ _ _ b hb => Or.inl hb)
        (fun _ a ha => Or.inl (mem_setInsert_of_mem ha)) h2 i1
    apply linkedBut_close i2
    intro p c _ _ b _ hE
    obtain ⟨ha, hb⟩ := hE
    rw [ha, hb]
    obtain ⟨c2, hc2, hst2, hs1⟩ := modify_eq_ok h2
    refine ⟨hqv, { c2 with lhs_cells_ := setInsert this c2.lhs_cells_ }, ?_,
      mem_setInsert_self this c2.lhs_cells_⟩
    rw [hs1, cellAt_setSlot _ _ _ (inRange_of_slot hc2), if_pos ⟨rfl, rfl⟩, if_pos hst2]

theorem linked_link (SetCell : Position → String → M Unit)
    (hcb : ∀ p s s1 u, SetCell p "" s = .ok u s1 → s.RhsLinked → s1.RhsLinked)
    (this : CellPtr) (pos : Position)
    (hv : pos.IsValid = true) (htv : this.pos.IsValid = true) (s s1 : Sheet) (u : Unit)
    (h : Cell.link SetCell this pos s = .ok u s1) (hI : s.RhsLinked) : s1.RhsLinked := by
  unfold Cell.link at h
  rw [bind_ok (GetCellPtr_valid s pos hv)] at h
  obtain ⟨curr, sa, h1, h2⟩ := bind_eq_ok h
  cases hp : s.ptrAt pos with
  | some q =>
    rw [hp] at h1
    simp only at h1
    injection h1 with h1a h1b
    subst h1a h1b
    have h3 : ((match s.ptrAt pos with
      | none => fun _ => Res.ub
      | some q => do
        modify this (fun c => { c with rhs_cells_ := setInsert q c.rhs_cells_ })
        modify q (fun c => { c with lhs_cells_ := setInsert this c.lhs_cells_ })) : M Unit) s
      = .ok u s1 := by
      rw [hp]; exact h2
    exact linked_link_tail this pos hv htv s s1 u h3 hI
  | none =>
    rw [hp] at h1
    simp only at h1
    obtain ⟨_, sb, h4, h5⟩ := bind_eq_ok h1
    rw [GetCellPtr_valid sb pos hv] at h5
    injection h5 with h5a h5b
    subst h5a h5b
    exact linked_link_tail this pos hv htv sb s1 u h2 (hcb pos s sb _ h4 hI)

/-- The part of `Cell::Set` after the cycle check keeps the outgoing edges mirrored. -/
theorem linked_commit (SetCell : Position → String → M Unit)
    (hcb : ∀ p s s1 u, SetCell p "" s = .ok u s1 → s.RhsLinked → s1.RhsLinked)
    (fuel : Nat) (this : CellPtr) (htv : this.pos.IsValid = true) (impl : Impl)
    (s s1 : Sheet) (u : Unit)
    (h : (do
      modify this (fun c => { c with impl_ := impl })
      let c ← deref this
      forEach (fun curr_cell =>
        modify curr_cell (fun d => { d with lhs_cells_ := setErase this d.lhs_cells_ }))
        c.rhs_cells_
      modify this (fun c => { c with rhs_cells_ := [] })
      forEach (Cell.link SetCell this) impl.GetReferencedCells
      Cell.CashInvalidation fuel this true : M Unit) s = .ok u s1)
    (hI : s.RhsLinked) : s1.RhsLinked := by
  obtain ⟨_, s3, h3, ha⟩ := bind_eq_ok h
  obtain ⟨c3, s3a, h4, hb⟩ := bind_eq_ok ha
  obtain ⟨_, s4, h5, hc⟩ := bind_eq_ok hb
  obtain ⟨_, s5, h6, hd⟩ := bind_eq_ok hc
  obtain ⟨_, s6, h7, h8⟩ := bind_eq_ok hd
  clear h ha hb hc hd
  obtain ⟨hs3a, -, -⟩ := deref_eq_ok h4
  subst hs3a
  have i0 : s.RhsLinkedBut (fun a _ => a = this) := linkedBut_mono (fun _ _ hf => hf.elim) hI
  have i3 : s3a.RhsLinkedBut (fun a _ => a = this) :=
    linkedBut_modify _ this (fun c => { c with impl_ := impl }) (fun _ => rfl)
      (fun _ _ _ _ _ b hb => Or.inl hb) (fun _ a ha => Or.inl ha) h3 i0
  have i4 : s4.RhsLinkedBut (fun a _ => a = this) := by
    apply inv_forEach (fun t => t.RhsLinkedBut (fun a _ => a = this)) _ _ _ s3a s4 _ h5 i3
    intro curr _ sa sb ub hm hsa
    apply linkedBut_modify _ curr
      (fun d => { d with lhs_cells_ := setErase this d.lhs_cells_ }) (fun _ => rfl)
      (fun _ _ _ _ _ b hb => Or.inl hb) _ hm hsa
    intro d a ha
    by_cases hat : a = this
    · exact Or.inr (fun _ => hat)
    · exact Or.inl (mem_setErase ha hat)
  have i5 : s5.RhsLinkedBut (fun a _ => a = this) := by
    apply linkedBut_modify _ this (fun c => { c with rhs_cells_ := [] }) (fun _ => rfl) _
      (fun _ a ha => Or.inl ha) h6 i4
    intro c _ p _ _ b hb
    simp at hb
  have j5 : s5.RhsLinked := by
    apply linkedBut_close i5
    intro p c hp hc b hb hE
    obtain ⟨c4, hc4, -, hs5⟩ := modify_eq_ok h6
    have hpp : p = this.pos := by rw [← hE]
    rw [hs5, hpp, slot_setSlot_self _ _ _ (inRange_of_slot hc4)] at hc
    injection hc with hc
    rw [← hc] at hb
    simp at hb
  have j6 : s6.RhsLinked := by
    apply inv_forEach (fun t => t.RhsLinked) _ _ _ s5 s6 _ h7 j5
    intro pos hpos sa sb ub hl hsa
    exact linked_link SetCell hcb this pos (Impl_refs_valid impl pos hpos) htv sa sb ub hl hsa
  exact linkedBut_CashInvalidation _ fuel this true s6 s1 u h8 j6

theorem linked_Cell_Set (n : Nat)
    (hcb : ∀ p s s1 u, Sheet.SetCell n p "" s = .ok u s1 → s.RhsLinked → s1.RhsLinked)
    (this : CellPtr) (htv : this.pos.IsValid = true)
    (text : String) (s s1 : Sheet) (hI : s.RhsLinked)
    (h : (Cell.Set n (Sheet.SetCell n) this text s).after = some s1) :
    s1.RhsLinked := by
  unfold Cell.Set at h
  rw [bind_run] at h
  rcases makeImpl_state text s with ⟨impl, hi⟩ | ⟨e, -, hi⟩
  · rw [hi] at h
    simp only at h
    rw [bind_run] at h
    rcases IsThereCircularDependency_state n this impl s with ⟨b, hb⟩ | hb | hb
    · rw [hb] at h
      simp only at h
      cases b with
      | true =>
        simp only [if_true] at h
        injection h with h
        rw [← h]
        exact hI
      | false =>
        simp only [Bool.false_eq_true, if_false] at h
        generalize hr : (do
          modify this (fun c => { c with impl_ := impl })
          let c0 ← deref this
          forEach (fun curr_cell =>
            modify curr_cell (fun d =>
              { d with lhs_cells_ := setErase this d.lhs_cells_ }))
            c0.rhs_cells_
          modify this (fun c => { c with rhs_cells_ := [] })
          forEach (Cell.link (Sheet.SetCell n) this) impl.GetReferencedCells
          Cell.CashInvalidation n this true : M Unit) s = r at h
        cases r with
        | ub => exact Option.noConfusion h
        | overflow => exact Option.noConfusion h
        | throw e s2 =>
          exact (onlyThrows_commit_valid (fun _ => False) (Sheet.SetCell n) n this impl
            (fun p hp => SetCell_empty_no_throw n p (Impl_refs_valid impl p hp)) s e s2 hr).elim
        | ok u s2 =>
          injection h with h
          subst h
          exact linked_commit (Sheet.SetCell n) hcb n this htv impl s s2 u hr hI
    · rw [hb] at h; exact Option.noConfusion h
    · rw [hb] at h; exact Option.noConfusion h
  · rw [hi] at h
    simp only at h
    injection h with h
    rw [← h]
    exact hI

theorem linked_SetCell (fuel : Nat) :
    ∀ (pos : Position) (text : String) (s s1 : Sheet), s.RhsLinked →
      (Sheet.SetCell fuel pos text s).after = some s1 → s1.RhsLinked := by
  induction fuel with
  | zero =>
    intro pos text s s1 _ h
    exact Option.noConfusion h
  | succ n ih =>
    intro pos text s s1 hI h
    have hcb : ∀ p s s1 u, Sheet.SetCell n p "" s = .ok u s1 → s.RhsLinked → s1.RhsLinked := by
      intro p s s1 u hp hs
      exact ih p "" s s1 hs (by rw [hp]; rfl)
    unfold Sheet.SetCell at h
    by_cases hv : pos.IsValid = true
    · simp only [hv, Bool.not_true, Bool.false_eq_true, if_false] at h
      have hF := linkedBut_insert (fun _ _ => False) s pos hv hI
      cases hg : (Sheet.grow pos s).slot pos with
      | some c0 =>
        simp only [hg] at h hF
        exact linked_Cell_Set n hcb ⟨pos, c0.stamp⟩ hv text _ s1 hF h
      | none =>
        simp only [hg] at h hF
        have hpos : (⟨((Sheet.grow pos s).setSlot pos (some (Sheet.grow pos s).newCell)).sheet_,
            (Sheet.grow pos s).allocated + 1⟩ : Sheet).slot pos
            = some (Sheet.grow pos s).newCell :=
          slot_setSlot_self (Sheet.grow pos s) pos _ (inRange_grow pos s hv)
        simp only [hpos] at h
        exact linked_Cell_Set n hcb ⟨pos, _⟩ hv text _ s1 hF h
    · simp only [hv, Bool.not_false, if_true] at h
      injection h with h
      rw [← h]
      exact hI

/-- `ClearCell` destroys a cell only when its incoming set is empty, so no mirrored edge
points to it. -/
theorem linked_ClearCell (pos : Position) (s s1 : Sheet)
    (hI : s.RhsLinked) (h : (Sheet.ClearCell pos s).after = some s1) :
    s1.RhsLinked := by
  by_cases hv : pos.IsValid = true
  · rw [ClearCell_result s pos hv] at h
    injection h with h
    cases hs : s.slot pos with
    | none =>
      rw [hs] at h
      simp only at h
      rw [← h]
      exact hI
    | some c =>
      rw [hs] at h
      simp only at h
      have hr : s.inRange pos := inRange_of_slot hs
      by_cases hl : c.lhs_cells_ = []
      · rw [if_pos hl] at h
        subst h
        intro p c1 hp hc1 b hb
        have hpp : p ≠ pos := by
          intro hpp
          subst hpp
          rw [slot_setSlot_self _ p none ((inRange_setSlot s p p _).mpr hr)] at hc1
          exact Option.noConfusion hc1
        rw [slot_setSlot_other _ pos p _ hv hp hpp, slot_setSlot_other _ pos p _ hv hp hpp]
          at hc1
        rcases hI p c1 hp hc1 b hb with hf | ⟨hbv, d, hd, hmem⟩
        · exact hf.elim
        · obtain ⟨hd1, hd2⟩ := cellAt_eq_some hd
          have hqp : b.pos ≠ pos := by
            intro hqp
            rw [hqp, hs] at hd1
            injection hd1 with hd1
            subst hd1
            rw [hl] at hmem
            simp at hmem
          right
          refine ⟨hbv, d, ?_, hmem⟩
          rw [cellAt_congr (s := s)]
          · exact hd
          · rw [slot_setSlot_other _ pos b.pos _ hv hbv hqp,
              slot_setSlot_other _ pos b.pos _ hv hbv hqp]
      · rw [if_neg hl] at h
        subst h
        exact linkedBut_setSlot _ s pos c { c with impl_ := Impl.EmptyImpl } hs rfl
          (fun _ _ _ b hb => Or.inl hb) (fun a ha => Or.inl ha) hI
  · unfold Sheet.ClearCell at h
    simp only [hv, Bool.not_false, if_true] at h
    injection h with h
    rw [← h]
    exact hI

theorem linked_empty : Sheet.empty.RhsLinked := by
  intro p c _ hc
  exact Option.noConfusion hc

theorem linked_of_reachable {s : Sheet} (h : Reachable s) : s.RhsLinked := by
  induction h with
  | empty => exact linked_empty
  | step fuel c s s1 _ hstep ih =>
    cases c with
    | SetCell pos text => exact linked_SetCell fuel pos text s s1 ih hstep
    | ClearCell pos => exact linked_ClearCell pos s s1 ih hstep

/-- What `RhsLinked` says about the edge relation. -/
theorem linked_edge {s : Sheet} (hI : s.RhsLinked) {a b : CellPtr}
    (hav : a.pos.IsValid = true) (hab : s.Edge a b) :
    b.pos.IsValid = true ∧ ∃ d, s.cellAt b = some d ∧ a ∈ d.lhs_cells_ := by
  unfold Sheet.Edge Sheet.outgoing at hab
  cases hc : s.cellAt a with
  | none =>
    rw [hc] at hab
    simp at hab
  | some c =>
    rw [hc] at hab
    simp only at hab
    obtain ⟨hc1, hc2⟩ := cellAt_eq_some hc
    rcases hI a.pos c hav hc1 b hab with hf | hL
    · exact hf.elim
    · rw [hc2] at hL
      exact hL

/-- C20: in every sheet reachable from the empty sheet by `SetCell` and `ClearCell` calls, for
every existing cell `a` and every `b` in its outgoing set, `b` is a pointer to a cell that
still exists in the grid and `a` is in the incoming set of `b`; and after a further
`ClearCell` of any position the cell `b` still exists. -/
theorem outgoing_edges_never_dangle (s : Sheet) (h : Reachable s) :
    (∀ a b : CellPtr, a.pos.IsValid = true → s.Edge a b →
      b.pos.IsValid = true ∧ (s.cellAt b).isSome = true ∧ a ∈ s.incoming b)
    ∧ (∀ (pos : Position) (s1 : Sheet), (Sheet.ClearCell pos s).after = some s1 →
      ∀ a b : CellPtr, a.pos.IsValid = true → s.Edge a b → (s1.cellAt b).isSome = true) := by
  have hI := linked_of_reachable h
  constructor
  · intro a b hav hab
    obtain ⟨hbv, d, hd, hmem⟩ := linked_edge hI hav hab
    refine ⟨hbv, by rw [hd]; rfl, ?_⟩
    unfold Sheet.incoming
    rw [hd]
    exact hmem
  · intro pos s1 hclear a b hav hab
    obtain ⟨hbv, d, hd, hmem⟩ := linked_edge hI hav hab
    obtain ⟨hd1, hd2⟩ := cellAt_eq_some hd
    by_cases hv : pos.IsValid = true
    · rw [ClearCell_result s pos hv] at hclear
      injection hclear with hclear
      by_cases hbp : b.pos = pos
      · rw [← hbp, hd1] at hclear
        simp only at hclear
        have hne : d.lhs_cells_ ≠ [] := by
          intro hnil
          rw [hnil] at hmem
          simp at hmem
        rw [if_neg hne] at hclear
        rw [← hclear, cellAt_setSlot _ _ _ (inRange_of_slot hd1), if_pos ⟨rfl, rfl⟩, if_pos hd2]
        rfl
      · have hsame : s1.slot b.pos = s.slot b.pos := by
          rw [← hclear]
          cases hs : s.slot pos with
          | none => rfl
          | some c =>
            simp only
            by_cases hl : c.lhs_cells_ = []
            · rw [if_pos hl, slot_setSlot_other _ pos b.pos _ hv hbv hbp,
                slot_setSlot_other _ pos b.pos _ hv hbv hbp]
            · rw [if_neg hl, slot_setSlot_other _ pos b.pos _ hv hbv hbp]
        rw [cellAt_congr hsame, hd]
        rfl
    · unfold Sheet.ClearCell at hclear
      simp only [hv, Bool.not_false, if_true] at hclear
      injection hclear with hclear
      rw [← hclear, hd]
      rfl

/-- C20, witness: after `SetCell(A1, "1")`, `SetCell(B1, "=A1")` the cell of B1 has the cell
of A1 in its outgoing set; that cell exists and has B1 in its incoming set. -/
theorem outgoing_edges_never_dangle_witness :
    Reachable backrefSheet ∧ backrefSheet.Edge ⟨B1, 1⟩ ⟨A1, 0⟩
      ∧ (backrefSheet.cellAt ⟨A1, 0⟩).isSome = true
      ∧ (⟨B1, 1⟩ : CellPtr) ∈ backrefSheet.incoming ⟨A1, 0⟩ := by
  have hr : Reachable backrefSheet := by
    apply reachable_trace 4 [.SetCell A1 "1", .SetCell B1 "=A1"] Sheet.empty backrefSheet
      Reachable.empty
    decide!
  have he : backrefSheet.Edge ⟨B1, 1⟩ ⟨A1, 0⟩ := by decide!
  exact ⟨hr, he, ((outgoing_edges_never_dangle backrefSheet hr).1 ⟨B1, 1⟩ ⟨A1, 0⟩
    (by decide) he).2⟩

/-! ## Lemmas: the loop of the cycle check -/

theorem mem_cells {s : Sheet} {u : CellPtr} :
    u ∈ s.cells ↔ u.pos.IsValid = true ∧ (s.cellAt u).isSome = true := by
  unfold Sheet.cells
  rw [List.mem_filter, List.mem_flatMap]
  constructor
  · rintro ⟨⟨i, hi, hj⟩, hv⟩
    refine ⟨hv, ?_⟩
    rw [List.mem_filterMap] at hj
    obtain ⟨j, hj, hu⟩ := hj
    cases hc : s.slot ⟨Int.ofNat i, Int.ofNat j⟩ with
    | none => rw [hc] at hu; exact Option.noConfusion hu
    | some c =>
      rw [hc] at hu
      injection hu with hu
      rw [← hu, cellAt_of_slot hc]
      rfl
  · rintro ⟨hv, hl⟩
    refine ⟨?_, hv⟩
    cases hc : s.cellAt u with
    | none => rw [hc] at hl; exact Bool.noConfusion hl
    | some c =>
      obtain ⟨hc1, hc2⟩ := cellAt_eq_some hc
      have hr := inRange_of_slot hc1
      obtain ⟨h0, h1, -, -⟩ := (Position.IsValid_iff u.pos).mp hv
      have hpos : (⟨Int.ofNat u.pos.row.toNat, Int.ofNat u.pos.col.toNat⟩ : Position)
          = u.pos := by
        show (⟨(u.pos.row.toNat : Int), (u.pos.col.toNat : Int)⟩ : Position) = u.pos
        rw [Int.toNat_of_nonneg h0, Int.toNat_of_nonneg h1]
      refine ⟨u.pos.row.toNat, List.mem_range.mpr hr.1, ?_⟩
      rw [List.mem_filterMap]
      refine ⟨u.pos.col.toNat, List.mem_range.mpr hr.2, ?_⟩
      rw [hpos, hc1]
      simp only [Option.map_some']
      rw [hc2]

theorem outgoingAlive_of_linked {s : Sheet} (hI : s.RhsLinked) : s.OutgoingAlive := by
  intro p c hp hc b hb
  rcases hI p c hp hc b hb with hf | ⟨hbv, d, hd, -⟩
  · exact hf.elim
  · exact ⟨hbv, by rw [hd]; rfl⟩

theorem outgoingAlive_of_reachable {s : Sheet} (h : Reachable s) : s.OutgoingAlive :=
  outgoingAlive_of_linked (linked_of_reachable h)

/-- Filling or emptying caches keeps the outgoing sets alive. -/
theorem outgoingAlive_of_CacheEq {s s1 : Sheet} (he : CacheEq s s1) (hI : s.OutgoingAlive) :
    s1.OutgoingAlive := by
  intro p c1 hp hc1 b hb
  cases hs : s.slot p with
  | none =>
    rw [CacheEq_slot_none he hs] at hc1
    exact Option.noConfusion hc1
  | some c =>
    obtain ⟨c2, hc2, hsm⟩ := CacheEq_slot he hs
    rw [hc1] at hc2
    injection hc2 with hc2
    subst hc2
    rw [← hsm.2.2.2] at hb
    obtain ⟨hbv, hlive⟩ := hI p c hp hs b hb
    refine ⟨hbv, ?_⟩
    cases hd : s.cellAt b with
    | none => rw [hd] at hlive; exact Bool.noConfusion hlive
    | some d =>
      obtain ⟨d1, hd1, -⟩ := CacheEq_cellAt he hd
      rw [hd1]
      rfl

/-- In a sheet whose outgoing sets are alive the cells are closed under the edges. -/
theorem cells_closed {s : Sheet} (hI : s.OutgoingAlive) {u d : CellPtr} (hu : u ∈ s.cells)
    (hd : d ∈ s.outgoing u) : d ∈ s.cells := by
  obtain ⟨hv, hl⟩ := mem_cells.mp hu
  cases hc : s.cellAt u with
  | none => rw [hc] at hl; exact Bool.noConfusion hl
  | some c =>
    obtain ⟨hc1, -⟩ := cellAt_eq_some hc
    unfold Sheet.outgoing at hd
    rw [hc] at hd
    exact mem_cells.mpr (hI u.pos c hv hc1 d hd)

/-- The pushes of lines 134-138. -/
theorem foldl_push (v : List CellPtr) :
    ∀ (l st : List CellPtr),
      l.foldl (fun st d => if d ∈ v then st else d :: st) st
        = (l.filter (fun d => decide (d ∉ v))).reverse ++ st := by
  intro l
  induction l with
  | nil => intro st; rfl
  | cons x xs ih =>
    intro st
    rw [List.foldl_cons, ih]
    by_cases hx : x ∈ v
    · rw [if_pos hx, List.filter_cons_of_neg (by simpa using hx)]
    · rw [if_neg hx, List.filter_cons_of_pos (by simpa using hx)]
      simp

theorem measure_visited (w : CellPtr → Nat) (v v1 : List CellPtr) (curr : CellPtr)
    (hv1 : ∀ u, u ∈ v1 ↔ u ∈ v ∨ u = curr) (hcv : curr ∉ v) :
    ∀ U : List CellPtr, curr ∈ U →
      ((U.filter (fun u => decide (u ∉ v1))).map w).sum + w curr
        ≤ ((U.filter (fun u => decide (u ∉ v))).map w).sum := by
  have hle : ∀ U : List CellPtr, ((U.filter (fun u => decide (u ∉ v1))).map w).sum
      ≤ ((U.filter (fun u => decide (u ∉ v))).map w).sum := by
    intro U
    induction U with
    | nil => simp
    | cons x xs ih =>
      by_cases hx1 : x ∈ v1
      · rw [List.filter_cons_of_neg (by simpa using hx1)]
        by_cases hx : x ∈ v
        · rw [List.filter_cons_of_neg (by simpa using hx)]
          exact ih
        · rw [List.filter_cons_of_pos (by simpa using hx)]
          simp only [List.map_cons, List.sum_cons]
          omega
      · have hx : x ∉ v := fun h => hx1 ((hv1 x).mpr (Or.inl h))
        rw [List.filter_cons_of_pos (by simpa using hx1),
          List.filter_cons_of_pos (by simpa using hx)]
        simp only [List.map_cons, List.sum_cons]
        omega
  intro U
  induction U with
  | nil => intro h; simp at h
  | cons x xs ih =>
    intro hmem
    by_cases hxc : x = curr
    · subst hxc
      have hx1 : x ∈ v1 := (hv1 x).mpr (Or.inr rfl)
      rw [List.filter_cons_of_neg (by simpa using hx1),
        List.filter_cons_of_pos (by simpa using hcv)]
      simp only [List.map_cons, List.sum_cons]
      have := hle xs
      omega
    · have hin : curr ∈ xs := by
        rcases List.mem_cons.mp hmem with h | h
        · exact absurd h.symm hxc
        · exact h
      have := ih hin
      by_cases hx : x ∈ v
      · have hx1 : x ∈ v1 := (hv1 x).mpr (Or.inl hx)
        rw [List.filter_cons_of_neg (by simpa using hx1),
          List.filter_cons_of_neg (by simpa using hx)]
        exact this
      · have hx1 : x ∉ v1 := by
          intro h
          rcases (hv1 x).mp h with h | h
          · exact hx h
          · exact hxc h
        rw [List.filter_cons_of_pos (by simpa using hx1),
          List.filter_cons_of_pos (by simpa using hx)]
        simp only [List.map_cons, List.sum_cons]
        omega

theorem outgoing_of_cellAt {s : Sheet} {u : CellPtr} {c : Cell} (h : s.cellAt u = some c) :
    s.outgoing u = c.rhs_cells_ := by
  unfold Sheet.outgoing
  rw [h]

/-- When the stack is empty every cell reachable from `X` has been visited. -/
theorem VisitInv_nil {s : Sheet} {referenced : List (Option CellPtr)} {X : CellPtr}
    {visited : List CellPtr} (h : s.VisitInv referenced X visited []) :
    ∀ c, Relation.ReflTransGen s.Edge X c → c ∈ visited := by
  obtain ⟨-, -, hX, hcl, -⟩ := h
  intro c hc
  induction hc with
  | refl =>
    rcases hX with h1 | h1
    · exact h1
    · simp at h1
  | tail _ hstep ih =>
    rcases hcl _ ih _ hstep with h1 | h1
    · exact h1
    · simp at h1

theorem mem_pushes {v l : List CellPtr} {d : CellPtr} :
    d ∈ (l.filter (fun d => decide (d ∉ v))).reverse ↔ d ∈ l ∧ d ∉ v := by
  rw [List.mem_reverse, List.mem_filter]
  simp

/-- One iteration of the loop keeps the invariant. -/
theorem VisitInv_step {s : Sheet} (hI : s.OutgoingAlive) {referenced : List (Option CellPtr)}
    {X curr : CellPtr} {visited rest : List CellPtr} {c : Cell}
    (h : s.VisitInv referenced X visited (curr :: rest)) (hc : s.cellAt curr = some c)
    (ht : some curr ∉ referenced) :
    s.VisitInv referenced X (setInsert curr visited)
      ((c.rhs_cells_.filter (fun d => decide (d ∉ setInsert curr visited))).reverse ++ rest) := by
  obtain ⟨ha, hb, hX, hcl, hlifo⟩ := h
  have hout := outgoing_of_cellAt hc
  have hcurr := ha curr (List.mem_cons_self _ _)
  refine ⟨?_, ?_, ?_, ?_, ?_⟩
  · intro e he
    rcases List.mem_append.mp he with h1 | h1
    · obtain ⟨h2, -⟩ := mem_pushes.mp h1
      have hedge : s.Edge curr e := by
        unfold Sheet.Edge
        rw [hout]
        exact h2
      exact ⟨Relation.ReflTransGen.tail hcurr.1 hedge, cells_closed hI hcurr.2 hedge⟩
    · exact ha e (List.mem_cons_of_mem _ h1)
  · intro v hv
    rcases mem_setInsert_iff.mp hv with h1 | h1
    · exact hb v h1
    · rw [h1]; exact ht
  · rcases hX with h1 | h1
    · exact Or.inl (mem_setInsert_of_mem h1)
    · rcases List.mem_cons.mp h1 with h2 | h2
      · left; rw [h2]; exact mem_setInsert_self _ _
      · exact Or.inr (List.mem_append_right _ h2)
  · intro v hv d hd
    rcases mem_setInsert_iff.mp hv with h1 | h1
    · rcases hcl v h1 d hd with h2 | h2
      · exact Or.inl (mem_setInsert_of_mem h2)
      · rcases List.mem_cons.mp h2 with h3 | h3
        · left; rw [h3]; exact mem_setInsert_self _ _
        · exact Or.inr (List.mem_append_right _ h3)
    · rw [h1, hout] at hd
      by_cases hdv : d ∈ setInsert curr visited
      · exact Or.inl hdv
      · exact Or.inr (List.mem_append_left _ (mem_pushes.mpr ⟨hd, hdv⟩))
  · intro pre e post hsplit hev d hd
    rcases List.append_eq_append_iff.mp hsplit with ⟨a, hpre, hrest⟩ | ⟨a, hpush, hpost⟩
    · -- the entry lies in the old part of the stack
      rcases mem_setInsert_iff.mp hev with h1 | h1
      · have hs : curr :: rest = (curr :: a) ++ e :: post := by rw [hrest]; rfl
        rcases hlifo (curr :: a) e post hs h1 d hd with h2 | h2
        · exact Or.inl (mem_setInsert_of_mem h2)
        · rcases List.mem_cons.mp h2 with h3 | h3
          · left; rw [h3]; exact mem_setInsert_self _ _
          · right; rw [hpre]; exact List.mem_append_right _ h3
      · rw [h1, hout] at hd
        by_cases hdv : d ∈ setInsert curr visited
        · exact Or.inl hdv
        · right
          rw [hpre]
          exact List.mem_append_left _ (mem_pushes.mpr ⟨hd, hdv⟩)
    · cases a with
      | nil =>
        simp only [List.nil_append] at hpost
        simp only [List.append_nil] at hpush
        rcases mem_setInsert_iff.mp hev with h1 | h1
        · have hs : curr :: rest = [curr] ++ e :: post := by rw [← hpost]; rfl
          rcases hlifo [curr] e post hs h1 d hd with h2 | h2
          · exact Or.inl (mem_setInsert_of_mem h2)
          · left
            rw [List.mem_singleton.mp h2]
            exact mem_setInsert_self _ _
        · rw [h1, hout] at hd
          by_cases hdv : d ∈ setInsert curr visited
          · exact Or.inl hdv
          · right
            rw [← hpush]
            exact mem_pushes.mpr ⟨hd, hdv⟩
      | cons x xs =>
        -- a freshly pushed entry is not visited
        injection hpost with hx _
        have hmem : e ∈ (c.rhs_cells_.filter
            (fun d => decide (d ∉ setInsert curr visited))).reverse := by
          rw [hpush, hx]
          exact List.mem_append_right _ (List.mem_cons_self _ _)
        exact absurd hev (mem_pushes.mp hmem).2

/-- One iteration of the loop lowers the measure. -/
theorem visitMeasure_step {s : Sheet} {referenced : List (Option CellPtr)}
    {X curr : CellPtr} {visited rest : List CellPtr} {c : Cell}
    (h : s.VisitInv referenced X visited (curr :: rest)) (hc : s.cellAt curr = some c) :
    s.visitMeasure (setInsert curr visited)
      ((c.rhs_cells_.filter (fun d => decide (d ∉ setInsert curr visited))).reverse ++ rest)
      < s.visitMeasure visited (curr :: rest) := by
  obtain ⟨ha, -, -, -, hlifo⟩ := h
  have hout := outgoing_of_cellAt hc
  unfold Sheet.visitMeasure
  by_cases hcv : curr ∈ visited
  · have hsame : setInsert curr visited = visited := by
      unfold setInsert
      rw [if_pos hcv]
    rw [hsame]
    have hnil : c.rhs_cells_.filter (fun d => decide (d ∉ visited)) = [] := by
      rw [List.filter_eq_nil_iff]
      intro d hd
      rw [← hout] at hd
      rcases hlifo [] curr rest rfl hcv d hd with h1 | h1
      · simpa using h1
      · simp at h1
    rw [hnil]
    simp
  · have h1 := measure_visited (fun u => 1 + (s.outgoing u).length) visited
      (setInsert curr visited) curr (fun u => mem_setInsert_iff) hcv s.cells
      (ha curr (List.mem_cons_self _ _)).2
    simp only [hout] at h1
    have h2 : ((c.rhs_cells_.filter
        (fun d => decide (d ∉ setInsert curr visited))).reverse).length
        ≤ c.rhs_cells_.length := by
      rw [List.length_reverse]
      exact List.length_filter_le _ _
    rw [List.length_append, List.length_cons]
    omega

/-- The loop of the cycle check returns, and returns `true` exactly when a cell reachable from
`X` along outgoing sets is among the referenced pointers. -/
theorem visitLoop_spec {s : Sheet} (hI : s.OutgoingAlive) (referenced : List (Option CellPtr))
    (X : CellPtr) :
    ∀ (n : Nat) (visited to_visit : List CellPtr), s.VisitInv referenced X visited to_visit →
      s.visitMeasure visited to_visit ≤ n →
      ∃ b, (∀ fuel, n ≤ fuel → Cell.visitLoop referenced fuel visited to_visit s = .ok b s)
        ∧ (b = true ↔ ∃ c, Relation.ReflTransGen s.Edge X c ∧ some c ∈ referenced) := by
  have hempty : ∀ visited, s.VisitInv referenced X visited [] →
      ∃ b, (∀ fuel, Cell.visitLoop referenced fuel visited [] s = .ok b s)
        ∧ (b = true ↔ ∃ c, Relation.ReflTransGen s.Edge X c ∧ some c ∈ referenced) := by
    intro visited hinv
    refine ⟨false, ?_, ?_⟩
    · intro fuel
      cases fuel <;> rfl
    · constructor
      · intro h; exact Bool.noConfusion h
      · rintro ⟨c, hc, hr⟩
        exact absurd hr (hinv.2.1 c (VisitInv_nil hinv c hc))
  intro n
  induction n with
  | zero =>
    intro visited to_visit hinv hm
    cases to_visit with
    | nil =>
      obtain ⟨b, hb, hiff⟩ := hempty visited hinv
      exact ⟨b, fun fuel _ => hb fuel, hiff⟩
    | cons curr rest =>
      unfold Sheet.visitMeasure at hm
      rw [List.length_cons] at hm
      omega
  | succ n ih =>
    intro visited to_visit hinv hm
    cases to_visit with
    | nil =>
      obtain ⟨b, hb, hiff⟩ := hempty visited hinv
      exact ⟨b, fun fuel _ => hb fuel, hiff⟩
    | cons curr rest =>
      have hcurr := hinv.1 curr (List.mem_cons_self _ _)
      by_cases ht : some curr ∈ referenced
      · refine ⟨true, ?_, ?_⟩
        · intro fuel hf
          obtain ⟨f, rfl⟩ : ∃ f, fuel = f + 1 := ⟨fuel - 1, by omega⟩
          unfold Cell.visitLoop
          rw [if_pos ht]
          rfl
        · exact ⟨fun _ => ⟨curr, hcurr.1, ht⟩, fun _ => rfl⟩
      · obtain ⟨-, hlive⟩ := mem_cells.mp hcurr.2
        cases hc : s.cellAt curr with
        | none => rw [hc] at hlive; exact Bool.noConfusion hlive
        | some c =>
          have hinv1 := VisitInv_step hI hinv hc ht
          have hm1 := visitMeasure_step hinv hc
          obtain ⟨b, hb, hiff⟩ := ih _ _ hinv1 (by omega)
          refine ⟨b, ?_, hiff⟩
          intro fuel hf
          obtain ⟨f, rfl⟩ : ∃ f, fuel = f + 1 := ⟨fuel - 1, by omega⟩
          unfold Cell.visitLoop
          rw [if_neg ht, bind_ok (deref_of_cellAt hc), foldl_push]
          exact hb f (by omega)

/-- C19: in every sheet whose outgoing sets point to existing cells (every reachable sheet is
one), for every existing cell `X` at a valid position and every candidate content,
`Cell::IsThereCircularDependency` returns, leaves the sheet as it is, and returns `true`
exactly when the content references some position and a cell reachable from `X` by zero or
more steps along outgoing sets is the cell stored at a referenced position. -/
theorem cycle_check_computes (s : Sheet) (hs : s.OutgoingAlive) (X : CellPtr)
    (hX : X.pos.IsValid = true) (hlive : (s.cellAt X).isSome = true) (new_impl : Impl) :
    ∃ (b : Bool) (N : Nat),
      (∀ fuel, N ≤ fuel → Cell.IsThereCircularDependency fuel X new_impl s = .ok b s)
      ∧ (b = true ↔ new_impl.GetReferencedCells ≠ []
          ∧ ∃ c, Relation.ReflTransGen s.Edge X c
            ∧ ∃ p ∈ new_impl.GetReferencedCells, s.ptrAt p = some c) := by
  cases hP : new_impl.GetReferencedCells with
  | nil =>
    refine ⟨false, 0, ?_, ?_⟩
    · intro fuel _
      unfold Cell.IsThereCircularDependency
      rw [hP]
      rfl
    · constructor
      · intro h; exact Bool.noConfusion h
      · rintro ⟨h, -⟩; exact absurd rfl h
  | cons p0 ps =>
    have hinv : s.VisitInv ((p0 :: ps).map s.ptrAt) X [] [X] := by
      refine ⟨?_, ?_, ?_, ?_, ?_⟩
      · intro e he
        rw [List.mem_singleton.mp he]
        exact ⟨Relation.ReflTransGen.refl, mem_cells.mpr ⟨hX, hlive⟩⟩
      · intro v hv; simp at hv
      · exact Or.inr (List.mem_singleton_self X)
      · intro v hv; simp at hv
      · intro pre e post _ hev; simp at hev
    obtain ⟨b, hb, hiff⟩ := visitLoop_spec hs ((p0 :: ps).map s.ptrAt) X
      (s.visitMeasure [] [X]) [] [X] hinv (Nat.le_refl _)
    refine ⟨b, s.visitMeasure [] [X], ?_, ?_⟩
    · intro fuel hf
      unfold Cell.IsThereCircularDependency
      rw [hP]
      have hne : (p0 :: ps).isEmpty = false := rfl
      simp only [hne, Bool.false_eq_true, if_false]
      have hvalid : ∀ p ∈ p0 :: ps, p.IsValid = true := by
        intro p hp
        rw [← hP] at hp
        exact Impl_refs_valid new_impl p hp
      rw [bind_ok (mapEach_GetCellPtr s (p0 :: ps) hvalid)]
      exact hb fuel hf
    · rw [hiff]
      constructor
      · rintro ⟨c, hc, hr⟩
        obtain ⟨p, hp, hpc⟩ := List.mem_map.mp hr
        exact ⟨List.cons_ne_nil _ _, c, hc, p, hp, hpc⟩
      · rintro ⟨-, c, hc, p, hp, hpc⟩
        exact ⟨c, hc, List.mem_map.mpr ⟨p, hp, hpc⟩⟩

/-- C19, witness: after `SetCell(A1, "=B1")` the check for the cell of A1 and the candidate
content `=B1` returns, and its result is characterised as stated. -/
theorem cycle_check_computes_witness :
    ∃ (b : Bool) (N : Nat),
      (∀ fuel, N ≤ fuel → Cell.IsThereCircularDependency fuel ⟨A1, 0⟩
        (.FormulaImpl (.CellRef B1) none) oneFormulaSheet = .ok b oneFormulaSheet)
      ∧ (b = true ↔ (Impl.FormulaImpl (.CellRef B1) none).GetReferencedCells ≠ []
          ∧ ∃ c, Relation.ReflTransGen oneFormulaSheet.Edge ⟨A1, 0⟩ c
            ∧ ∃ p ∈ (Impl.FormulaImpl (.CellRef B1) none).GetReferencedCells,
              oneFormulaSheet.ptrAt p = some c) :=
  cycle_check_computes oneFormulaSheet
    (outgoingAlive_of_reachable
      (reachable_trace 4 [.SetCell A1 "=B1"] Sheet.empty oneFormulaSheet Reachable.empty
        (by decide!)))
    ⟨A1, 0⟩ (by decide) (by decide!) (.FormulaImpl (.CellRef B1) none)

/-! ## Lemmas: what the invalidation cascade reaches -/

theorem Clears_refl (t : Sheet) : Clears t t := by
  intro q
  cases h : t.slot q with
  | none => trivial
  | some c => exact Or.inl rfl

theorem Clears_slot {t t1 : Sheet} (h : Clears t t1) {q : Position} {c : Cell}
    (hc : t.slot q = some c) :
    ∃ c1, t1.slot q = some c1 ∧ (c1 = c ∨ c1 = { c with impl_ := c.impl_.InvalidateCache }) := by
  have e := h q
  rw [hc] at e
  cases h1 : t1.slot q with
  | none => rw [h1] at e; exact e.elim
  | some c1 => rw [h1] at e; exact ⟨c1, rfl, e⟩

theorem Clears_slot_back {t t1 : Sheet} (h : Clears t t1) {q : Position} {c1 : Cell}
    (hc : t1.slot q = some c1) :
    ∃ c, t.slot q = some c ∧ (c1 = c ∨ c1 = { c with impl_ := c.impl_.InvalidateCache }) := by
  have e := h q
  rw [hc] at e
  cases h1 : t.slot q with
  | none => rw [h1] at e; exact e.elim
  | some c => rw [h1] at e; exact ⟨c, rfl, e⟩

theorem Clears_trans {a b c : Sheet} (h1 : Clears a b) (h2 : Clears b c) : Clears a c := by
  intro q
  cases ha : a.slot q with
  | none =>
    have e1 := h1 q
    rw [ha] at e1
    cases hb : b.slot q with
    | some cb => rw [hb] at e1; exact e1.elim
    | none =>
      have e2 := h2 q
      rw [hb] at e2
      cases hc : c.slot q with
      | some cc => rw [hc] at e2; exact e2.elim
      | none => trivial
  | some ca =>
    obtain ⟨cb, hb, hab⟩ := Clears_slot h1 ha
    obtain ⟨cc, hc, hbc⟩ := Clears_slot h2 hb
    rw [hc]
    simp only
    rcases hab with hab | hab <;> rcases hbc with hbc | hbc
    · left; rw [hbc, hab]
    · right; rw [hbc, hab]
    · right; rw [hbc, hab]
    · right; rw [hbc, hab]; simp only [InvalidateCache_idem]

theorem Clears_cellAt {t t1 : Sheet} (h : Clears t t1) {d : CellPtr} {c : Cell}
    (hc : t.cellAt d = some c) :
    ∃ c1, t1.cellAt d = some c1
      ∧ (c1 = c ∨ c1 = { c with impl_ := c.impl_.InvalidateCache }) := by
  obtain ⟨h1, h2⟩ := cellAt_eq_some hc
  obtain ⟨c1, hc1, hrel⟩ := Clears_slot h h1
  refine ⟨c1, ?_, hrel⟩
  have hst : c1.stamp = d.stamp := by
    rcases hrel with hr | hr <;> rw [hr] <;> exact h2
  unfold Sheet.cellAt
  rw [hc1]
  simp only
  rw [if_pos hst]

theorem Clears_cellAt_back {t t1 : Sheet} (h : Clears t t1) {d : CellPtr} {c1 : Cell}
    (hc : t1.cellAt d = some c1) :
    ∃ c, t.cellAt d = some c
      ∧ (c1 = c ∨ c1 = { c with impl_ := c.impl_.InvalidateCache }) := by
  obtain ⟨h1, h2⟩ := cellAt_eq_some hc
  obtain ⟨c, hc0, hrel⟩ := Clears_slot_back h h1
  refine ⟨c, ?_, hrel⟩
  have hst : c.stamp = d.stamp := by
    rcases hrel with hr | hr <;> rw [hr] at h2 <;> exact h2
  unfold Sheet.cellAt
  rw [hc0]
  simp only
  rw [if_pos hst]

theorem InvalidateCache_formula {i : Impl} {f : FormulaAST} {cache : Option FormulaValue}
    (h : i.InvalidateCache = .FormulaImpl f cache) : cache = none := by
  cases i with
  | EmptyImpl => exact Impl.noConfusion h
  | TextImpl t => exact Impl.noConfusion h
  | FormulaImpl g c =>
    simp only [Impl.InvalidateCache] at h
    injection h with _ h2
    exact h2.symm

theorem cacheEmpty_mono {t t1 : Sheet} (h : Clears t t1) {d : CellPtr}
    (hd : t.CacheEmptyAt d) : t1.CacheEmptyAt d := by
  intro c1 hc1 f cache hi
  obtain ⟨c, hc, hrel⟩ := Clears_cellAt_back h hc1
  rcases hrel with hr | hr
  · rw [hr] at hi
    exact hd c hc f cache hi
  · rw [hr] at hi
    exact InvalidateCache_formula hi

/-- A cell whose cache is not valid is a formula cell with an empty cache. -/
theorem cacheEmpty_of_invalid {t : Sheet} {d : CellPtr} {c : Cell} (hc : t.cellAt d = some c)
    (hv : c.impl_.IsCacheValid = false) : t.CacheEmptyAt d := by
  intro c0 hc0 f cache hi
  rw [hc] at hc0
  injection hc0 with hc0
  subst hc0
  rw [hi] at hv
  simp only [Impl.IsCacheValid] at hv
  cases cache with
  | none => rfl
  | some v => simp at hv

theorem valid_of_InvalidateCache {i : Impl} (h : i.InvalidateCache.IsCacheValid = true) :
    i.IsCacheValid = true := by
  cases i with
  | EmptyImpl => rfl
  | TextImpl t => rfl
  | FormulaImpl g c => simp [Impl.InvalidateCache, Impl.IsCacheValid] at h

/-- Emptying caches never makes a cache valid. -/
theorem valid_back {c c1 : Cell}
    (hrel : c1 = c ∨ c1 = { c with impl_ := c.impl_.InvalidateCache })
    (h : c1.impl_.IsCacheValid = true) : c.impl_.IsCacheValid = true := by
  rcases hrel with hr | hr
  · rw [hr] at h; exact h
  · rw [hr] at h; exact valid_of_InvalidateCache h

theorem lhs_of_rel {c c1 : Cell}
    (hrel : c1 = c ∨ c1 = { c with impl_ := c.impl_.InvalidateCache }) :
    c1.lhs_cells_ = c.lhs_cells_ := by
  rcases hrel with hr | hr <;> rw [hr]

theorem Covered_mono {P Q Q1 : CellPtr → Prop} {t t1 : Sheet} (hQ : ∀ d, Q d → Q1 d)
    (h : Covered P Q t t1) : Covered P Q1 t t1 := by
  refine ⟨h.1, ?_⟩
  intro d hd cd hcd e he
  obtain ⟨ce, hce, hemp, hv⟩ := h.2 d hd cd hcd e he
  exact ⟨ce, hce, hemp, fun hvalid => hQ e (hv hvalid)⟩

theorem Covered_union {P1 P2 Q : CellPtr → Prop} {t t1 : Sheet} (h1 : Covered P1 Q t t1)
    (h2 : Covered P2 Q t t1) : Covered (fun d => P1 d ∨ P2 d) Q t t1 := by
  constructor
  · intro d hd
    rcases hd with hd | hd
    · exact h1.1 d hd
    · exact h2.1 d hd
  · intro d hd
    rcases hd with hd | hd
    · exact h1.2 d hd
    · exact h2.2 d hd

/-- What was covered stays covered when more caches are emptied afterwards. -/
theorem Covered_right {P Q : CellPtr → Prop} {t u t1 : Sheet} (h : Covered P Q t u)
    (hc : Clears u t1) : Covered P Q t t1 := by
  constructor
  · intro d hd
    exact cacheEmpty_mono hc (h.1 d hd)
  · intro d hd cd hcd e he
    obtain ⟨ce, hce, hemp, hv⟩ := h.2 d hd cd hcd e he
    exact ⟨ce, hce, cacheEmpty_mono hc hemp, hv⟩

/-- What is covered from `u` on is covered from an earlier sheet `t`, when the cells whose
cache was emptied between `t` and `u` are in `Q`. -/
theorem Covered_left {P Q : CellPtr → Prop} {t u t1 : Sheet} (hc : Clears t u)
    (hf : Flips Q t u) (h : Covered P Q u t1) : Covered P Q t t1 := by
  refine ⟨h.1, ?_⟩
  intro d hd cd hcd e he
  obtain ⟨cd1, hcd1, hrel⟩ := Clears_cellAt hc hcd
  rw [← lhs_of_rel hrel] at he
  obtain ⟨ce1, hce1, hemp, hv⟩ := h.2 d hd cd1 hcd1 e he
  obtain ⟨ce, hce, hrel2⟩ := Clears_cellAt_back hc hce1
  refine ⟨ce, hce, hemp, ?_⟩
  intro hvalid
  cases hv1 : ce1.impl_.IsCacheValid with
  | true => exact hv hv1
  | false => exact hf e ce ce1 hce hce1 hvalid hv1

theorem Flips_mono {Q Q1 : CellPtr → Prop} {t t1 : Sheet} (hQ : ∀ d, Q d → Q1 d)
    (h : Flips Q t t1) : Flips Q1 t t1 :=
  fun d cd cd1 h1 h2 h3 h4 => hQ d (h d cd cd1 h1 h2 h3 h4)

theorem Flips_trans {Q : CellPtr → Prop} {t u t1 : Sheet} (hc : Clears t u)
    (h1 : Flips Q t u) (h2 : Flips Q u t1) : Flips Q t t1 := by
  intro d cd cd1 hcd hcd1 hv hnv
  obtain ⟨cu, hcu, -⟩ := Clears_cellAt hc hcd
  cases hvu : cu.impl_.IsCacheValid with
  | true => exact h2 d cu cd1 hcu hcd1 hvu hnv
  | false => exact h1 d cd cu hcd hcu hv hvu

theorem Flips_refl (Q : CellPtr → Prop) (t : Sheet) : Flips Q t t := by
  intro d cd cd1 hcd hcd1 hv hnv
  rw [hcd] at hcd1
  injection hcd1 with hcd1
  rw [hcd1, hnv] at hv
  exact Bool.noConfusion hv

theorem cellAt_same (t : Sheet) {a b : CellPtr} (h : a.same b) : t.cellAt a = t.cellAt b := by
  unfold Sheet.cellAt
  rw [slot_sameSlot t h.1, h.2]

theorem CellPtr.same_refl (a : CellPtr) : a.same a := ⟨⟨rfl, rfl⟩, rfl⟩

theorem Covered_none (Q : CellPtr → Prop) (t t1 : Sheet) : Covered (fun _ => False) Q t t1 :=
  ⟨fun _ h => h.elim, fun _ h => h.elim⟩

/-- The loop over the incoming set (cell.cpp 147-149). -/
theorem cascade_forEach (n : Nat)
    (ih : ∀ (c : CellPtr) (flag : Bool) (t t1 : Sheet) (u : Unit),
      Cell.CashInvalidation n c flag t = .ok u t1 → CascadePost c flag t t1) :
    ∀ (l : List CellPtr) (t t1 : Sheet) (u : Unit),
      forEach (fun d => Cell.CashInvalidation n d false) l t = .ok u t1 →
      Clears t t1 ∧ ∃ P : CellPtr → Prop,
        (∀ e ∈ l, ∃ ce, t.cellAt e = some ce ∧ t1.CacheEmptyAt e
          ∧ (ce.impl_.IsCacheValid = true → P e))
        ∧ Covered P P t t1 ∧ Flips P t t1 := by
  intro l
  induction l with
  | nil =>
    intro t t1 u h
    injection h with _ h2
    subst h2
    exact ⟨Clears_refl t, fun _ => False, fun e he => by simp at he, Covered_none _ t t,
      Flips_refl _ t⟩
  | cons x xs ihl =>
    intro t t1 u h
    unfold forEach at h
    obtain ⟨_, w, hx, hrest⟩ := bind_eq_ok h
    obtain ⟨hc1, Px, ⟨cx, hcx, hroot⟩, hcovx, hflx⟩ := ih x false t w _ hx
    obtain ⟨hc2, Pr, hA, hcovr, hflr⟩ := ihl w t1 u hrest
    have hfl1 : Flips (fun d => Px d ∨ Pr d) t w := Flips_mono (fun _ => Or.inl) hflx
    refine ⟨Clears_trans hc1 hc2, fun d => Px d ∨ Pr d, ?_, ?_, ?_⟩
    · intro e he
      rcases List.mem_cons.mp he with he1 | he1
      · subst he1
        refine ⟨cx, hcx, ?_, fun hv => Or.inl (hroot (Or.inr hv) e (CellPtr.same_refl e))⟩
        cases hv : cx.impl_.IsCacheValid with
        | true =>
          exact cacheEmpty_mono hc2 (hcovx.1 e (hroot (Or.inr hv) e (CellPtr.same_refl e)))
        | false => exact cacheEmpty_mono (Clears_trans hc1 hc2) (cacheEmpty_of_invalid hcx hv)
      · obtain ⟨ce1, hce1, hemp, hv⟩ := hA e he1
        obtain ⟨ce, hce, hrel⟩ := Clears_cellAt_back hc1 hce1
        refine ⟨ce, hce, hemp, ?_⟩
        intro hvalid
        cases hv1 : ce1.impl_.IsCacheValid with
        | true => exact Or.inr (hv hv1)
        | false => exact hfl1 e ce ce1 hce hce1 hvalid hv1
    · exact Covered_union
        (Covered_right (Covered_mono (fun _ => Or.inl) hcovx) hc2)
        (Covered_left hc1 hfl1 (Covered_mono (fun _ => Or.inr) hcovr))
    · exact Flips_trans hc1 hfl1 (Flips_mono (fun _ => Or.inr) hflr)

/-- Every returned cascade has the stated effect. -/
theorem cascade_post (fuel : Nat) :
    ∀ (c : CellPtr) (flag : Bool) (t t1 : Sheet) (u : Unit),
      Cell.CashInvalidation fuel c flag t = .ok u t1 → CascadePost c flag t t1 := by
  induction fuel with
  | zero =>
    intro c flag t t1 u h
    exact Res.noConfusion h
  | succ n ih =>
    intro c flag t t1 u h
    unfold Cell.CashInvalidation at h
    obtain ⟨cc, t0, h1, h2⟩ := bind_eq_ok h
    obtain ⟨ht0, hslot, hstamp⟩ := deref_eq_ok h1
    subst ht0
    have hcc : t0.cellAt c = some cc := by
      unfold Sheet.cellAt
      rw [hslot]
      simp only
      rw [if_pos hstamp]
    split at h2
    · obtain ⟨_, w, h3, h4⟩ := bind_eq_ok h2
      obtain ⟨c0, hc0, -, hw⟩ := modify_eq_ok h3
      rw [hslot] at hc0
      injection hc0 with hc0
      subst hc0
      have hrange := inRange_of_slot hslot
      have hc1 : Clears t0 w := by
        intro q
        rw [hw, slot_setSlot t0 c.pos q _ hrange]
        by_cases hq : q.sameSlot c.pos
        · rw [if_pos hq, slot_sameSlot t0 hq, hslot]
          exact Or.inr rfl
        · rw [if_neg hq]
          cases hs : t0.slot q with
          | none => trivial
          | some c1 => exact Or.inl rfl
      obtain ⟨hc2, Pl, hA, hcovl, hfll⟩ := cascade_forEach n ih cc.lhs_cells_ w t1 u h4
      have hfl0 : Flips (fun d => d.same c ∨ Pl d) t0 w := by
        intro d cd cd1 hcd hcd1 hv hnv
        left
        rw [hw, cellAt_setSlot t0 c.pos _ hrange d] at hcd1
        by_cases hq : d.pos.sameSlot c.pos
        · obtain ⟨hd1, hd2⟩ := cellAt_eq_some hcd
          rw [slot_sameSlot t0 hq, hslot] at hd1
          injection hd1 with hd1
          subst hd1
          exact ⟨hq, hd2.symm.trans hstamp⟩
        · rw [if_neg hq, hcd] at hcd1
          injection hcd1 with hcd1
          rw [hcd1, hnv] at hv
          exact Bool.noConfusion hv
      have hcov0 : Covered (fun d => d.same c) (fun d => d.same c ∨ Pl d) t0 t1 := by
        constructor
        · intro d hd
          apply cacheEmpty_mono hc2
          intro c1 hc1' f cache hi
          rw [cellAt_same w hd, hw, cellAt_setSlot t0 c.pos _ hrange c, if_pos ⟨rfl, rfl⟩,
            if_pos hstamp] at hc1'
          injection hc1' with hc1'
          rw [← hc1'] at hi
          exact InvalidateCache_formula hi
        · intro d hd cd hcd e he
          rw [cellAt_same t0 hd, hcc] at hcd
          injection hcd with hcd
          subst hcd
          obtain ⟨ce1, hce1, hemp, hv⟩ := hA e he
          obtain ⟨ce, hce, hrel⟩ := Clears_cellAt_back hc1 hce1
          refine ⟨ce, hce, hemp, ?_⟩
          intro hvalid
          cases hv1 : ce1.impl_.IsCacheValid with
          | true => exact Or.inr (hv hv1)
          | false => exact hfl0 e ce ce1 hce hce1 hvalid hv1
      refine ⟨Clears_trans hc1 hc2, fun d => d.same c ∨ Pl d,
        ⟨cc, hcc, fun _ d hd => Or.inl hd⟩, ?_, ?_⟩
      · exact Covered_union hcov0
          (Covered_left hc1 hfl0 (Covered_mono (fun _ => Or.inr) hcovl))
      · exact Flips_trans hc1 hfl0 (Flips_mono (fun _ => Or.inr) hfll)
    · rename_i hcond
      injection h2 with _ h3
      subst h3
      refine ⟨Clears_refl t0, fun _ => False, ⟨cc, hcc, ?_⟩, Covered_none _ t0 t0,
        Flips_refl _ t0⟩
      intro hor
      exfalso
      apply hcond
      rcases hor with h5 | h5
      · rw [h5]; simp
      · rw [h5]; simp

theorem Keeps_refl (ex : Position → Prop) (s : Sheet) : Keeps ex s s := by
  intro q _
  constructor
  · intro c hc
    exact ⟨c, hc, rfl, rfl⟩
  · intro hn c1 hc1
    rw [hn] at hc1
    exact Option.noConfusion hc1

theorem Keeps_trans {ex : Position → Prop} {a b c : Sheet} (h1 : Keeps ex a b)
    (h2 : Keeps ex b c) : Keeps ex a c := by
  intro q hq
  constructor
  · intro ca hca
    obtain ⟨cb, hcb, hst, him⟩ := (h1 q hq).1 ca hca
    obtain ⟨cc, hcc, hst2, him2⟩ := (h2 q hq).1 cb hcb
    exact ⟨cc, hcc, hst2.trans hst, him2.trans him⟩
  · intro hn cc hcc
    cases hb : b.slot q with
    | none => exact (h2 q hq).2 hb cc hcc
    | some cb =>
      obtain ⟨cc1, hcc1, -, him2⟩ := (h2 q hq).1 cb hb
      rw [hcc] at hcc1
      injection hcc1 with hcc1
      subst hcc1
      rw [him2]
      exact (h1 q hq).2 hn cb hb

/-- Rewriting a cell in place, keeping its stamp, and its content unless the slot is
excepted. -/
theorem Keeps_setSlot (ex : Position → Prop) (s : Sheet) (pos : Position) (c c1 : Cell)
    (hc : s.slot pos = some c) (hst : c1.stamp = c.stamp)
    (him : c1.impl_ = c.impl_ ∨ ∀ q : Position, q.sameSlot pos → ex q) :
    Keeps ex s (s.setSlot pos (some c1)) := by
  have hr := inRange_of_slot hc
  intro q hq
  rw [slot_setSlot s pos q _ hr]
  by_cases hqs : q.sameSlot pos
  · rw [if_pos hqs, slot_sameSlot s hqs, hc]
    rcases him with him | him
    · constructor
      · intro c0 hc0
        injection hc0 with hc0
        subst hc0
        exact ⟨c1, rfl, hst, him⟩
      · intro hn
        exact Option.noConfusion hn
    · exact absurd (him q hqs) hq
  · rw [if_neg hqs]
    exact Keeps_refl ex s q hq

theorem Keeps_modify (ex : Position → Prop) (p : CellPtr) (f : Cell → Cell)
    (hst : ∀ c, (f c).stamp = c.stamp)
    (him : (∀ c, (f c).impl_ = c.impl_) ∨ ∀ q : Position, q.sameSlot p.pos → ex q)
    {s s1 : Sheet} {u : Unit} (h : modify p f s = .ok u s1) : Keeps ex s s1 := by
  obtain ⟨c, hc, -, hs1⟩ := modify_eq_ok h
  rw [hs1]
  apply Keeps_setSlot ex s p.pos c (f c) hc (hst c)
  rcases him with him | him
  · exact Or.inl (him c)
  · exact Or.inr him

/-- A relation that is reflexive and transitive and holds over every step of a loop holds
over the loop. -/
theorem rel_forEach {α : Type} (R : Sheet → Sheet → Prop) (hrefl : ∀ s, R s s)
    (htrans : ∀ a b c, R a b → R b c → R a c) (f : α → M Unit) (l : List α)
    (hf : ∀ a ∈ l, ∀ s s1 u, f a s = .ok u s1 → R s s1) :
    ∀ s s1 u, forEach f l s = .ok u s1 → R s s1 := by
  induction l with
  | nil =>
    intro s s1 u h
    injection h with h1 h2
    rw [← h2]
    exact hrefl s
  | cons x xs ih =>
    intro s s1 u h
    unfold forEach at h
    obtain ⟨a, s0, h1, h2⟩ := bind_eq_ok h
    exact htrans _ _ _ (hf x (List.mem_cons_self _ _) s s0 a h1)
      (ih (fun a ha => hf a (List.mem_cons_of_mem _ ha)) s0 s1 u h2)

/-- The sheet in which `Sheet::SetCell` calls `Cell::Set` keeps every cell as it is. -/
theorem Keeps_insert (ex : Position → Prop) (s : Sheet) (pos : Position)
    (hv : pos.IsValid = true) :
    Keeps ex s (match (Sheet.grow pos s).slot pos with
      | some _ => Sheet.grow pos s
      | none => (⟨((Sheet.grow pos s).setSlot pos (some (Sheet.grow pos s).newCell)).sheet_,
          (Sheet.grow pos s).allocated + 1⟩ : Sheet)) := by
  cases hg : (Sheet.grow pos s).slot pos with
  | some c0 =>
    simp only
    intro q hq
    rw [slot_grow]
    exact Keeps_refl ex s q hq
  | none =>
    simp only
    have hn : s.slot pos = none := by rw [← slot_grow pos pos s]; exact hg
    have hr := inRange_grow pos s hv
    have hs2 : ∀ p, (⟨((Sheet.grow pos s).setSlot pos (some (Sheet.grow pos s).newCell)).sheet_,
        (Sheet.grow pos s).allocated + 1⟩ : Sheet).slot p
        = if p.sameSlot pos then some (Sheet.grow pos s).newCell else s.slot p := by
      intro p
      rw [← slot_grow pos p s, ← slot_setSlot _ pos p _ hr]
      rfl
    intro q hq
    rw [hs2 q]
    by_cases hqs : q.sameSlot pos
    · rw [if_pos hqs, slot_sameSlot s hqs, hn]
      constructor
      · intro c hc
        exact Option.noConfusion hc
      · intro _ c1 hc1
        injection hc1 with hc1
        rw [← hc1]
        rfl
    · rw [if_neg hqs]
      exact Keeps_refl ex s q hq

/-- `SetCell(pos, "")` at a position without a cell adds an Empty cell and changes no other
cell, caches included. -/
theorem Keeps_SetCell_fresh (ex : Position → Prop) (fuel : Nat) (pos : Position)
    (hv : pos.IsValid = true) (s s1 : Sheet) (u : Unit) (hn : s.slot pos = none)
    (h : Sheet.SetCell fuel pos "" s = .ok u s1) : Keeps ex s s1 := by
  cases fuel with
  | zero => exact Res.noConfusion h
  | succ n =>
    have k2 := Keeps_insert ex s pos hv
    unfold Sheet.SetCell at h
    simp only [hv, Bool.not_true, Bool.false_eq_true, if_false] at h
    have hg : (Sheet.grow pos s).slot pos = none := by rw [slot_grow]; exact hn
    rw [hg] at h k2
    simp only at h k2
    have hr := inRange_grow pos s hv
    have hpos : (⟨((Sheet.grow pos s).setSlot pos (some (Sheet.grow pos s).newCell)).sheet_,
        (Sheet.grow pos s).allocated + 1⟩ : Sheet).slot pos
        = some (Sheet.grow pos s).newCell :=
      slot_setSlot_self (Sheet.grow pos s) pos _ hr
    generalize (⟨((Sheet.grow pos s).setSlot pos (some (Sheet.grow pos s).newCell)).sheet_,
        (Sheet.grow pos s).allocated + 1⟩ : Sheet) = s2 at h k2 hpos
    generalize (Sheet.grow pos s).newCell.stamp = st at h
    have hnew : (Sheet.grow pos s).newCell = ⟨(Sheet.grow pos s).allocated, .EmptyImpl, [], []⟩ :=
      rfl
    rw [hnew] at hpos
    generalize (Sheet.grow pos s).allocated = al at hpos
    rw [hpos] at h
    simp only at h
    rw [Cell_Set_empty_text] at h
    obtain ⟨_, s3, h3, ha⟩ := bind_eq_ok h
    obtain ⟨c3, s3a, h4, hb⟩ := bind_eq_ok ha
    obtain ⟨_, s4, h5, hc⟩ := bind_eq_ok hb
    obtain ⟨_, s5, h6, hd⟩ := bind_eq_ok hc
    obtain ⟨_, s6, h7, h8⟩ := bind_eq_ok hd
    clear h ha hb hc hd
    -- the content swap
    obtain ⟨c0, hc0, -, hs3⟩ := modify_eq_ok h3
    simp only at hc0 hs3
    rw [hpos] at hc0
    injection hc0 with hc0
    subst hc0
    have k3 : Keeps ex s2 s3 := by
      rw [hs3]
      exact Keeps_setSlot ex s2 pos _ _ hpos rfl (Or.inl rfl)
    have hpos3 : s3.slot pos = some ⟨al, .EmptyImpl, [], []⟩ := by
      rw [hs3, slot_setSlot_self _ pos _ (inRange_of_slot hpos)]
    -- no outgoing edges to erase
    obtain ⟨hs3a, hc3, -⟩ := deref_eq_ok h4
    subst hs3a
    simp only at hc3
    rw [hpos3] at hc3
    injection hc3 with hc3
    subst hc3
    injection h5 with _ h5
    subst h5
    obtain ⟨c4, hc4, -, hs5⟩ := modify_eq_ok h6
    simp only at hc4 hs5
    rw [hpos3] at hc4
    injection hc4 with hc4
    subst hc4
    have k5 : Keeps ex s3a s5 := by
      rw [hs5]
      exact Keeps_setSlot ex s3a pos _ _ hpos3 rfl (Or.inl rfl)
    have hpos5 : s5.slot pos = some ⟨al, .EmptyImpl, [], []⟩ := by
      rw [hs5, slot_setSlot_self _ pos _ (inRange_of_slot hpos3)]
    -- no references to link
    injection h7 with _ h7
    subst h7
    -- the cascade from a cell without incoming edges
    cases n with
    | zero => exact Res.noConfusion h8
    | succ m =>
      unfold Cell.CashInvalidation at h8
      obtain ⟨c6, s6, h9, h10⟩ := bind_eq_ok h8
      obtain ⟨hs6, hc6, -⟩ := deref_eq_ok h9
      subst hs6
      simp only at hc6
      rw [hpos5] at hc6
      injection hc6 with hc6
      subst hc6
      simp only [Bool.or_true, if_true] at h10
      obtain ⟨_, s7, h11, h12⟩ := bind_eq_ok h10
      injection h12 with _ h12
      subst h12
      obtain ⟨c7, hc7, -, hs7⟩ := modify_eq_ok h11
      simp only at hc7 hs7
      rw [hpos5] at hc7
      injection hc7 with hc7
      subst hc7
      have k7 : Keeps ex s6 s7 := by
        rw [hs7]
        exact Keeps_setSlot ex s6 pos _ _ hpos5 rfl (Or.inl rfl)
      exact Keeps_trans (Keeps_trans (Keeps_trans k2 k3) k5) k7

theorem Keeps_link_tail (ex : Position → Prop) (this : CellPtr) (curr : Option CellPtr)
    (sa s1 : Sheet) (u : Unit)
    (h : ((match curr with
      | none => fun _ => Res.ub
      | some q => do
        modify this (fun c => { c with rhs_cells_ := setInsert q c.rhs_cells_ })
        modify q (fun c => { c with lhs_cells_ := setInsert this c.lhs_cells_ })) : M Unit) sa
      = .ok u s1) : Keeps ex sa s1 := by
  cases curr with
  | none => exact Res.noConfusion h
  | some q =>
    simp only at h
    obtain ⟨_, sb, h3, h4⟩ := bind_eq_ok h
    exact Keeps_trans
      (Keeps_modify ex this (fun c => { c with rhs_cells_ := setInsert q c.rhs_cells_ })
        (fun _ => rfl) (Or.inl (fun _ => rfl)) h3)
      (Keeps_modify ex q (fun c => { c with lhs_cells_ := setInsert this c.lhs_cells_ })
        (fun _ => rfl) (Or.inl (fun _ => rfl)) h4)

/-- One pass of the loop at cell.cpp 182-190 changes no content. -/
theorem Keeps_link (ex : Position → Prop) (n : Nat) (this : CellPtr) (pos : Position)
    (hv : pos.IsValid = true) (s s1 : Sheet) (u : Unit)
    (h : Cell.link (Sheet.SetCell n) this pos s = .ok u s1) : Keeps ex s s1 := by
  unfold Cell.link at h
  rw [bind_ok (GetCellPtr_valid s pos hv)] at h
  obtain ⟨curr, sa, h1, h2⟩ := bind_eq_ok h
  cases hp : s.ptrAt pos with
  | some q =>
    rw [hp] at h1
    simp only at h1
    injection h1 with h1a h1b
    subst h1b
    exact Keeps_link_tail ex this curr s s1 u h2
  | none =>
    rw [hp] at h1
    simp only at h1
    obtain ⟨_, sb, h4, h5⟩ := bind_eq_ok h1
    rw [GetCellPtr_valid sb pos hv] at h5
    injection h5 with h5a h5b
    subst h5b
    exact Keeps_trans (Keeps_SetCell_fresh ex n pos hv s sb _ (ptrAt_eq_none hp) h4)
      (Keeps_link_tail ex this curr sb s1 u h2)

/-- A returned `Cell::Set` ends with the cascade from the edited cell; until the cascade
starts only the edited cell changes its content. -/
theorem Cell_Set_cascade (n : Nat) (X : CellPtr) (text : String) (s2 s1 : Sheet) (u : Unit)
    (h : Cell.Set n (Sheet.SetCell n) X text s2 = .ok u s1) :
    ∃ t : Sheet, Keeps (fun q => q.sameSlot X.pos) s2 t
      ∧ Cell.CashInvalidation n X true t = .ok u s1 := by
  unfold Cell.Set at h
  obtain ⟨impl, sa, hi, h1⟩ := bind_eq_ok h
  have hsa : sa = s2 := by
    rcases makeImpl_state text s2 with ⟨impl0, hi0⟩ | ⟨e, -, hi0⟩
    · rw [hi0] at hi
      injection hi with _ hi2
      exact hi2.symm
    · rw [hi0] at hi
      exact Res.noConfusion hi
  subst hsa
  obtain ⟨circ, sb, hcirc, h2⟩ := bind_eq_ok h1
  have hsb : sb = sa := by
    rcases IsThereCircularDependency_state n X impl sa with ⟨b, hb⟩ | hb | hb
    · rw [hb] at hcirc
      injection hcirc with _ hc2
      exact hc2.symm
    · rw [hb] at hcirc; exact Res.noConfusion hcirc
    · rw [hb] at hcirc; exact Res.noConfusion hcirc
  subst hsb
  cases circ with
  | true => exact Res.noConfusion h2
  | false =>
    simp only [Bool.false_eq_true, if_false] at h2
    obtain ⟨_, s3, h3, ha⟩ := bind_eq_ok h2
    obtain ⟨c3, s3a, h4, hb⟩ := bind_eq_ok ha
    obtain ⟨_, s4, h5, hc'⟩ := bind_eq_ok hb
    obtain ⟨_, s5, h6, hd⟩ := bind_eq_ok hc'
    obtain ⟨_, s6, h7, h8⟩ := bind_eq_ok hd
    clear h h1 h2 ha hb hc' hd
    obtain ⟨hs3a, -, -⟩ := deref_eq_ok h4
    subst hs3a
    have k3 : Keeps (fun q => q.sameSlot X.pos) sb s3a :=
      Keeps_modify _ X (fun c => { c with impl_ := impl }) (fun _ => rfl)
        (Or.inr (fun _ hq => hq)) h3
    have k4 : Keeps (fun q => q.sameSlot X.pos) s3a s4 :=
      rel_forEach _ (Keeps_refl _) (fun _ _ _ => Keeps_trans) _ _
        (fun curr _ sx sy ux hm =>
          Keeps_modify _ curr (fun d => { d with lhs_cells_ := setErase X d.lhs_cells_ })
            (fun _ => rfl) (Or.inl (fun _ => rfl)) hm) s3a s4 _ h5
    have k5 : Keeps (fun q => q.sameSlot X.pos) s4 s5 :=
      Keeps_modify _ X (fun c => { c with rhs_cells_ := [] }) (fun _ => rfl)
        (Or.inl (fun _ => rfl)) h6
    have k6 : Keeps (fun q => q.sameSlot X.pos) s5 s6 :=
      rel_forEach _ (Keeps_refl _) (fun _ _ _ => Keeps_trans) _ _
        (fun p hp sx sy ux hl =>
          Keeps_link _ n X p (Impl_refs_valid impl p hp) sx sy ux hl) s5 s6 _ h7
    exact ⟨s6, Keeps_trans (Keeps_trans (Keeps_trans k3 k4) k5) k6, h8⟩

/-- A returned `SetCell(pos, text)` ends with the cascade from the cell at `pos`; in the
sheet in which the cascade starts every other cell has the content, caches included, that it
had before the call, and the cells that the call added are Empty. -/
theorem SetCell_cascade (fuel : Nat) (pos : Position) (text : String) (s s1 : Sheet) (u : Unit)
    (h : Sheet.SetCell fuel pos text s = .ok u s1) :
    ∃ (n : Nat) (t : Sheet) (X : CellPtr), X.pos = pos
      ∧ Keeps (fun q => q.sameSlot pos) s t
      ∧ Cell.CashInvalidation n X true t = .ok u s1 := by
  cases fuel with
  | zero => exact Res.noConfusion h
  | succ n =>
    unfold Sheet.SetCell at h
    by_cases hv : pos.IsValid = true
    · simp only [hv, Bool.not_true, Bool.false_eq_true, if_false] at h
      have k2 := Keeps_insert (fun q => q.sameSlot pos) s pos hv
      cases hg : (Sheet.grow pos s).slot pos with
      | some c0 =>
        simp only [hg] at h k2
        obtain ⟨t, kt, hcasc⟩ := Cell_Set_cascade n ⟨pos, c0.stamp⟩ text _ s1 u h
        exact ⟨n, t, ⟨pos, c0.stamp⟩, rfl, Keeps_trans k2 kt, hcasc⟩
      | none =>
        simp only [hg] at h k2
        have hpos : (⟨((Sheet.grow pos s).setSlot pos (some (Sheet.grow pos s).newCell)).sheet_,
            (Sheet.grow pos s).allocated + 1⟩ : Sheet).slot pos
            = some (Sheet.grow pos s).newCell :=
          slot_setSlot_self (Sheet.grow pos s) pos _ (inRange_grow pos s hv)
        simp only [hpos] at h
        obtain ⟨t, kt, hcasc⟩ := Cell_Set_cascade n ⟨pos, _⟩ text _ s1 u h
        exact ⟨n, t, ⟨pos, _⟩, rfl, Keeps_trans k2 kt, hcasc⟩
    · simp only [hv, Bool.not_false, if_true] at h
      exact Res.noConfusion h

theorem invalid_formula {c : Cell} (h : c.impl_.IsCacheValid = false) :
    ∃ f, c.impl_ = .FormulaImpl f none := by
  cases hi : c.impl_ with
  | EmptyImpl => rw [hi] at h; exact Bool.noConfusion h
  | TextImpl t => rw [hi] at h; exact Bool.noConfusion h
  | FormulaImpl f cache =>
    rw [hi] at h
    cases cache with
    | none => exact ⟨f, rfl⟩
    | some v => exact Bool.noConfusion h

/-- Every cell the cascade gets to has an empty cache afterwards. -/
theorem cascades_cleared {s t s1 : Sheet} {X : CellPtr} {P : CellPtr → Prop} {cc : Cell}
    (hK : Keeps (fun q => q.sameSlot X.pos) s t) (hC : Clears t s1)
    (hcov : Covered P P t s1) (hroot : ∀ d, CellPtr.same d X → P d)
    (hX : t.cellAt X = some cc) :
    ∀ D, s1.Cascades s.StopsAt X D →
      s1.CacheEmptyAt D
        ∧ ∃ cd, t.cellAt D = some cd
          ∧ ((cd.impl_.IsCacheValid = true ∨ D.same X) → P D) := by
  intro D hD
  induction hD with
  | root =>
    exact ⟨hcov.1 X (hroot X (CellPtr.same_refl X)), cc, hX,
      fun _ => hroot X (CellPtr.same_refl X)⟩
  | step c d _ hcond hmem ih =>
    obtain ⟨-, cd, hcd, himp⟩ := ih
    have hPc : P c := by
      by_cases hsame : c.same X
      · exact hroot c hsame
      · apply himp
        left
        have hstop : ¬ s.StopsAt c := by
          rcases hcond with h1 | h1
          · rw [h1] at hsame
            exact absurd (CellPtr.same_refl X) hsame
          · exact h1
        obtain ⟨hcd1, hcd2⟩ := cellAt_eq_some hcd
        obtain ⟨hX1, hX2⟩ := cellAt_eq_some hX
        have hslot : ¬ c.pos.sameSlot X.pos := by
          intro hq
          apply hsame
          refine ⟨hq, ?_⟩
          rw [slot_sameSlot t hq, hX1] at hcd1
          injection hcd1 with hcd1
          rw [← hcd2, ← hcd1, hX2]
        cases hv : cd.impl_.IsCacheValid with
        | true => rfl
        | false =>
          exfalso
          obtain ⟨f, hf⟩ := invalid_formula hv
          cases hs : s.slot c.pos with
          | none =>
            have := (hK c.pos hslot).2 hs cd hcd1
            rw [hf] at this
            exact Impl.noConfusion this
          | some c0 =>
            obtain ⟨c1, hc1, hst, him⟩ := (hK c.pos hslot).1 c0 hs
            rw [hcd1] at hc1
            injection hc1 with hc1
            subst hc1
            apply hstop
            refine ⟨c0, f, ?_, ?_⟩
            · unfold Sheet.cellAt
              rw [hs]
              simp only
              rw [if_pos (by rw [← hst]; exact hcd2)]
            · rw [← him]; exact hf
    obtain ⟨c1, hc1, hrel⟩ := Clears_cellAt hC hcd
    have hmem1 : d ∈ cd.lhs_cells_ := by
      unfold Sheet.incoming at hmem
      rw [hc1] at hmem
      simp only at hmem
      rw [lhs_of_rel hrel] at hmem
      exact hmem
    obtain ⟨ce, hce, hemp, hv⟩ := hcov.2 c hPc cd hcd d hmem1
    refine ⟨hemp, ce, hce, ?_⟩
    rintro (h1 | h1)
    · exact hv h1
    · exact hroot d h1

/-- C17 (counterexample): with A1 = "abc", B1 = "=C1", D1 = "=A1+B1+A1", `GetValue(D1)` fills
the cache of D1 with the error of A1 and never evaluates B1, whose cache stays empty.  The
following `SetCell(C1, "5")` succeeds; its cascade stops at B1, and D1, which is reachable
from C1 along incoming edges (B1 is in the incoming set of C1, D1 in that of B1), keeps its
populated cache. -/
theorem cascade_stops_before_populated_cache :
    Reachable errSheet
    ∧ (Sheet.GetValue 4 D1 errSheet).after = some errSheetRead
    ∧ errSheetRead.StopsAt ⟨B1, 1⟩
    ∧ Sheet.SetCell 4 C1 "5" errSheetRead = .ok () errSheetEdited
    ∧ (⟨B1, 1⟩ : CellPtr) ∈ errSheetEdited.incoming ⟨C1, 2⟩
    ∧ (⟨D1, 3⟩ : CellPtr) ∈ errSheetEdited.incoming ⟨B1, 1⟩
    ∧ (errSheetEdited.cellAt ⟨D1, 3⟩).map (fun c => c.impl_)
        = some (.FormulaImpl
            (.Binary .Add (.Binary .Add (.CellRef A1) (.CellRef B1)) (.CellRef A1))
            (some (.err .Value)))
    ∧ ¬ errSheetEdited.CacheEmptyAt ⟨D1, 3⟩ := by
  have hD : errSheetEdited.cellAt ⟨D1, 3⟩ = some ⟨3, .FormulaImpl
      (.Binary .Add (.Binary .Add (.CellRef A1) (.CellRef B1)) (.CellRef A1))
      (some (.err .Value)), [], [⟨A1, 0⟩, ⟨B1, 1⟩]⟩ := by decide!
  refine ⟨?_, by decide!, ?_, by decide!, by decide!, by decide!, by rw [hD]; rfl, ?_⟩
  · apply reachable_trace 4
      [.SetCell A1 "abc", .SetCell B1 "=C1", .SetCell D1 "=A1+B1+A1"] Sheet.empty errSheet
      Reachable.empty
    decide!
  · exact ⟨⟨1, .FormulaImpl (.CellRef C1) none, [⟨D1, 3⟩], [⟨C1, 2⟩]⟩, .CellRef C1,
      by decide!, rfl⟩
  · intro hE
    have := hE _ hD _ _ rfl
    exact Option.noConfusion this

/-- C17 (amended): after every returned `SetCell(pos, text)`, on any sheet, the cell `X` at
`pos` has an empty cache, and so has every cell at the end of a chain that starts at `X`,
follows incoming sets, and passes only through `X` and cells that just before the call did
not hold a formula with an empty cache. -/
theorem SetCell_invalidates_dependents (fuel : Nat) (pos : Position) (text : String)
    (s s1 : Sheet) (h : Sheet.SetCell fuel pos text s = .ok () s1) :
    ∃ x, s1.slot pos = some x
      ∧ ∀ D, s1.Cascades s.StopsAt ⟨pos, x.stamp⟩ D → s1.CacheEmptyAt D := by
  obtain ⟨n, t, X, hXp, hK, hcasc⟩ := SetCell_cascade fuel pos text s s1 () h
  obtain ⟨hC, P, ⟨cc, hcc, hroot⟩, hcov, -⟩ := cascade_post n X true t s1 () hcasc
  obtain ⟨x, hx, -⟩ := Clears_cellAt hC hcc
  obtain ⟨hx1, hx2⟩ := cellAt_eq_some hx
  have hXeq : (⟨pos, x.stamp⟩ : CellPtr) = X := by
    rw [hx2, ← hXp]
  refine ⟨x, by rw [← hXp]; exact hx1, ?_⟩
  intro D hD
  rw [hXeq] at hD
  rw [← hXp] at hK
  exact (cascades_cleared hK hC hcov (hroot (Or.inl rfl)) hcc D hD).1

/-- C17, witness of the amended claim: `SetCell(A1, "10")` on the sheet with A1 = 2,
A2 = A1*3, A3 = A2+A1 and all caches filled. -/
theorem SetCell_invalidates_dependents_witness :
    Sheet.SetCell 4 A1 "10" chainSheetRead = .ok () chainSheet10
    ∧ ∃ x, chainSheet10.slot A1 = some x
      ∧ ∀ D, chainSheet10.Cascades chainSheetRead.StopsAt ⟨A1, x.stamp⟩ D →
        chainSheet10.CacheEmptyAt D :=
  ⟨by decide!, SetCell_invalidates_dependents 4 A1 "10" chainSheetRead chainSheet10 (by decide!)⟩

/-! ## Lemmas: the number reader and decimal notation -/

theorem pow10_eq (k : Int) : pow10 k = (10 : ℚ) ^ k := by
  unfold pow10
  split
  · rename_i h
    obtain ⟨n, rfl⟩ := Int.eq_ofNat_of_zero_le h
    simp
  · rename_i h
    obtain ⟨n, hn⟩ := Int.exists_eq_neg_ofNat (le_of_lt (not_le.mp h))
    subst hn
    simp

theorem readSign_other (c : Char) (cs : List Char) (h1 : c ≠ '-') (h2 : c ≠ '+') :
    readSign (c :: cs) = (false, c :: cs) := by
  unfold readSign
  split
  · rename_i heq
    injection heq with h _
    exact absurd h h1
  · rename_i heq
    injection heq with h _
    exact absurd h h2
  · rfl

theorem readSign_nil : readSign [] = (false, []) := rfl

theorem readSign_cases (cs : List Char) :
    (cs = '-' :: (readSign cs).2 ∧ (readSign cs).1 = true)
    ∨ (cs = '+' :: (readSign cs).2 ∧ (readSign cs).1 = false)
    ∨ (cs = (readSign cs).2 ∧ (readSign cs).1 = false) := by
  unfold readSign
  split
  · left; exact ⟨rfl, rfl⟩
  · right; left; exact ⟨rfl, rfl⟩
  · right; right; exact ⟨rfl, rfl⟩

theorem digit_ne_sign {c : Char} (h : c.isDigit = true) : c ≠ '-' ∧ c ≠ '+' := by
  constructor <;> intro hc <;> rw [hc] at h <;> exact absurd h (by decide)

/-- A run of digits followed by something that does not start with a digit is read whole. -/
theorem takeWhile_digits {ds rest : List Char} (hds : AllDigits ds)
    (hrest : ∀ c r, rest = c :: r → c.isDigit = false) :
    (ds ++ rest).takeWhile Char.isDigit = ds ∧ (ds ++ rest).dropWhile Char.isDigit = rest := by
  induction ds with
  | nil =>
    cases rest with
    | nil => exact ⟨rfl, rfl⟩
    | cons c r =>
      have := hrest c r rfl
      simp [List.takeWhile, List.dropWhile, this]
  | cons d ds ih =>
    have hd : d.isDigit = true := hds d (List.mem_cons_self _ _)
    obtain ⟨h1, h2⟩ := ih (fun c hc => hds c (List.mem_cons_of_mem _ hc))
    constructor
    · rw [List.cons_append, List.takeWhile_cons, hd, if_pos rfl, h1]
    · rw [List.cons_append, List.dropWhile_cons, hd, if_pos rfl, h2]

theorem allDigits_takeWhile (cs : List Char) : AllDigits (cs.takeWhile Char.isDigit) := by
  intro c hc
  exact List.mem_takeWhile_imp hc

theorem isEmpty_false_of_ne_nil {α : Type} {l : List α} (h : l ≠ []) : l.isEmpty = false := by
  cases l with
  | nil => exact absurd rfl h
  | cons a l => rfl

theorem readExponent_cons (c : Char) (cs : List Char) :
    readExponent (c :: cs)
      = if c = 'e' ∨ c = 'E' then
          (if ((readSign cs).2.takeWhile Char.isDigit).isEmpty then none
          else some ((if (readSign cs).1
              then -(digitsVal ((readSign cs).2.takeWhile Char.isDigit) : Int)
              else (digitsVal ((readSign cs).2.takeWhile Char.isDigit) : Int)),
            (readSign cs).2.dropWhile Char.isDigit))
        else some (0, c :: cs) := rfl

/-- The exponent part of decimal notation is what `readExponent` reads to the end. -/
theorem readExponent_of {ex : List Char} {k : Int} (h : IsExponent ex k) :
    readExponent ex = some (k, []) := by
  rcases h with ⟨h1, h2⟩ | ⟨c, ds, hc, hne, hds, h3⟩
  · rw [h1, h2]; rfl
  · have hnil : ∀ c r, ([] : List Char) = c :: r → c.isDigit = false := by
      intro c r h; exact List.noConfusion h
    obtain ⟨t1, t2⟩ := takeWhile_digits hds hnil
    rw [List.append_nil] at t1 t2
    have hemp := isEmpty_false_of_ne_nil hne
    rcases h3 with ⟨he, hk⟩ | ⟨he, hk⟩ | ⟨he, hk⟩
    · rw [he, hk]
      rw [readExponent_cons, if_pos hc]
      cases ds with
      | nil => exact absurd rfl hne
      | cons d ds' =>
        obtain ⟨n1, n2⟩ := digit_ne_sign (hds d (List.mem_cons_self _ _))
        rw [readSign_other d ds' n1 n2]
        simp only [t1, t2, hemp, Bool.false_eq_true, if_false]
    · rw [he, hk]
      rw [readExponent_cons, if_pos hc]
      have hs : readSign ('+' :: ds) = (false, ds) := rfl
      rw [hs]
      simp only [t1, t2, hemp, Bool.false_eq_true, if_false]
    · rw [he, hk]
      rw [readExponent_cons, if_pos hc]
      have hs : readSign ('-' :: ds) = (true, ds) := rfl
      rw [hs]
      simp only [t1, t2, hemp, Bool.false_eq_true, if_false, if_true]

/-- What `readExponent` reads to the end is an exponent part of decimal notation. -/
theorem isExponent_of_read {ex : List Char} {k : Int} (h : readExponent ex = some (k, [])) :
    IsExponent ex k := by
  cases ex with
  | nil =>
    left
    injection h with h
    injection h with h1 _
    exact ⟨rfl, h1.symm⟩
  | cons c cs =>
    rw [readExponent_cons] at h
    by_cases hc : c = 'e' ∨ c = 'E'
    · rw [if_pos hc] at h
      split at h
      · exact Option.noConfusion h
      · rename_i hemp
        injection h with h
        injection h with hk hrest
        have hall : (readSign cs).2 = (readSign cs).2.takeWhile Char.isDigit := by
          have := List.takeWhile_append_dropWhile Char.isDigit (readSign cs).2
          rw [hrest, List.append_nil] at this
          exact this.symm
        have hne : (readSign cs).2.takeWhile Char.isDigit ≠ [] := by
          intro hn
          apply hemp
          rw [hn]
          rfl
        right
        refine ⟨c, (readSign cs).2.takeWhile Char.isDigit, hc, hne, allDigits_takeWhile _, ?_⟩
        rcases readSign_cases cs with ⟨h1, h2⟩ | ⟨h1, h2⟩ | ⟨h1, h2⟩
        · right; right
          rw [h2] at hk
          simp only [if_true] at hk
          exact ⟨by rw [← hall]; exact congrArg _ h1, hk.symm⟩
        · right; left
          rw [h2] at hk
          simp only [Bool.false_eq_true, if_false] at hk
          exact ⟨by rw [← hall]; exact congrArg _ h1, hk.symm⟩
        · left
          rw [h2] at hk
          simp only [Bool.false_eq_true, if_false] at hk
          exact ⟨by rw [← hall]; exact congrArg _ h1, hk.symm⟩
    · rw [if_neg hc] at h
      injection h with h
      injection h with _ h2
      exact List.noConfusion h2

theorem readFraction_other (r1 : List Char) (hnp : ∀ r2, r1 ≠ '.' :: r2) :
    readFraction r1 = ([], r1) := by
  unfold readFraction
  split
  · rename_i r2
    exact absurd rfl (hnp r2)
  · rfl

theorem readNumber_nopoint (cs b r1 : List Char) (neg : Bool) (hs : readSign cs = (neg, b))
    (hr1 : b.dropWhile Char.isDigit = r1) (hnp : ∀ r2, r1 ≠ '.' :: r2) :
    readNumber cs
      = if (b.takeWhile Char.isDigit).isEmpty then none
        else
          match readExponent r1 with
          | none => none
          | some ex =>
            some ((if neg then -((digitsVal (b.takeWhile Char.isDigit) : ℚ) * pow10 ex.1)
              else (digitsVal (b.takeWhile Char.isDigit) : ℚ) * pow10 ex.1), ex.2) := by
  unfold readNumber
  simp only [hs, hr1, readFraction_other r1 hnp]
  have hd : (digitsVal ([] : List Char) : ℚ) = 0 := by simp [digitsVal]
  simp only [List.isEmpty_nil, Bool.and_true, hd, zero_div, add_zero]

theorem readNumber_point (cs b r2 : List Char) (neg : Bool) (hs : readSign cs = (neg, b))
    (hr1 : b.dropWhile Char.isDigit = '.' :: r2) :
    readNumber cs
      = if (b.takeWhile Char.isDigit).isEmpty && (r2.takeWhile Char.isDigit).isEmpty then none
        else
          match readExponent (r2.dropWhile Char.isDigit) with
          | none => none
          | some ex =>
            some ((if neg then
                -(((digitsVal (b.takeWhile Char.isDigit) : ℚ)
                  + (digitsVal (r2.takeWhile Char.isDigit) : ℚ)
                    / ((10 ^ (r2.takeWhile Char.isDigit).length : Nat) : ℚ)) * pow10 ex.1)
              else ((digitsVal (b.takeWhile Char.isDigit) : ℚ)
                  + (digitsVal (r2.takeWhile Char.isDigit) : ℚ)
                    / ((10 ^ (r2.takeWhile Char.isDigit).length : Nat) : ℚ)) * pow10 ex.1),
              ex.2) := by
  unfold readNumber
  have hf : readFraction ('.' :: r2) = (r2.takeWhile Char.isDigit, r2.dropWhile Char.isDigit) :=
    rfl
  simp only [hs, hr1, hf]

theorem exponent_head {ex : List Char} {k : Int} (h : IsExponent ex k) :
    (∀ c r, ex = c :: r → c.isDigit = false) ∧ ∀ r2, ex ≠ '.' :: r2 := by
  rcases h with ⟨h1, -⟩ | ⟨c, ds, hc, -, -, h3⟩
  · subst h1
    exact ⟨fun c r h => List.noConfusion h, fun r2 h => List.noConfusion h⟩
  · have hcd : c.isDigit = false ∧ c ≠ '.' := by
      rcases hc with hc | hc <;> subst hc <;> exact ⟨by decide, by decide⟩
    have hex : ∃ r, ex = c :: r := by
      rcases h3 with ⟨he, -⟩ | ⟨he, -⟩ | ⟨he, -⟩ <;> exact ⟨_, he⟩
    obtain ⟨r, hr⟩ := hex
    subst hr
    constructor
    · intro c1 r1 h
      injection h with h _
      rw [← h]
      exact hcd.1
    · intro r2 h
      injection h with h _
      exact hcd.2 h

/-- Decimal notation without sign is read whole, with the number it denotes. -/
theorem readNumber_of_unsigned {cs body : List Char} {y : ℚ} {neg : Bool}
    (hs : readSign cs = (neg, body)) (h : DenotesUnsigned body y) :
    readNumber cs = some ((if neg then -y else y), []) := by
  obtain ⟨ip, fp, ex, k, hip, hfp, hne, hex, hbody, hy⟩ := h
  obtain ⟨hdig, hdot⟩ := exponent_head hex
  have hre := readExponent_of hex
  rcases hbody with ⟨hb, hfp0⟩ | hb
  · subst hfp0
    have hipne : ip ≠ [] := by
      rcases hne with h1 | h1
      · exact h1
      · exact absurd rfl h1
    obtain ⟨t1, t2⟩ := takeWhile_digits hip hdig
    rw [← hb] at t1 t2
    rw [readNumber_nopoint cs body ex neg hs t2 hdot, t1, isEmpty_false_of_ne_nil hipne, hre]
    simp only [Bool.false_eq_true, if_false]
    rw [hy, pow10_eq]
    simp [digitsVal]
  · have hdot2 : ∀ c r, '.' :: (fp ++ ex) = c :: r → c.isDigit = false := by
      intro c r h
      injection h with h _
      rw [← h]
      decide
    obtain ⟨t1, t2⟩ := takeWhile_digits hip hdot2
    rw [← hb] at t1 t2
    obtain ⟨t3, t4⟩ := takeWhile_digits hfp hdig
    rw [readNumber_point cs body (fp ++ ex) neg hs t2, t1, t3, t4, hre]
    have hemp : (ip.isEmpty && fp.isEmpty) = false := by
      rcases hne with h1 | h1
      · rw [isEmpty_false_of_ne_nil h1]; rfl
      · rw [isEmpty_false_of_ne_nil h1]; simp
    simp only [hemp, Bool.false_eq_true, if_false]
    rw [hy, pow10_eq]
    simp

theorem unsigned_head {body : List Char} {y : ℚ} (h : DenotesUnsigned body y) :
    ∃ c r, body = c :: r ∧ c ≠ '-' ∧ c ≠ '+' ∧ isspace c = false := by
  obtain ⟨ip, fp, ex, k, hip, hfp, hne, hex, hbody, -⟩ := h
  have hdigit : ∀ c : Char, c.isDigit = true → c ≠ '-' ∧ c ≠ '+' ∧ isspace c = false := by
    intro c hc
    obtain ⟨n1, n2⟩ := digit_ne_sign hc
    refine ⟨n1, n2, ?_⟩
    unfold Char.isDigit at hc
    simp only [Bool.and_eq_true, decide_eq_true_eq] at hc
    have h1 : 48 ≤ c.toNat := by
      have := hc.1
      exact this
    unfold isspace
    have hsp : c ≠ ' ' := by
      intro h
      rw [h] at h1
      exact absurd h1 (by decide)
    simp only [hsp, decide_False, Bool.false_or, Bool.and_eq_false_imp, decide_eq_true_eq,
      decide_eq_false_iff_not, not_le]
    intro _
    omega
  cases ip with
  | cons d ds =>
    have hd := hdigit d (hip d (List.mem_cons_self _ _))
    rcases hbody with ⟨hb, -⟩ | hb
    · exact ⟨d, ds ++ ex, by rw [hb]; rfl, hd⟩
    · exact ⟨d, ds ++ '.' :: (fp ++ ex), by rw [hb]; rfl, hd⟩
  | nil =>
    rcases hbody with ⟨hb, hfp0⟩ | hb
    · rcases hne with h1 | h1
      · exact absurd rfl h1
      · exact absurd hfp0 h1
    · exact ⟨'.', fp ++ ex, by rw [hb]; rfl, by decide, by decide, by decide⟩

/-- Spec to code: a string that is a number in decimal notation is read whole, with the
number it denotes. -/
theorem readNumber_of_denotes {u : List Char} {x : ℚ} (h : Denotes u x) :
    readNumber u = some (x, []) := by
  obtain ⟨body, y, hbody, hu⟩ := h
  rcases hu with ⟨hu, hx⟩ | ⟨hu, hx⟩ | ⟨hu, hx⟩
  · obtain ⟨c, r, hcr, n1, n2, -⟩ := unsigned_head hbody
    have hs : readSign u = (false, body) := by
      rw [hu, hcr]
      exact readSign_other c r n1 n2
    rw [readNumber_of_unsigned hs hbody, hx]
    rfl
  · have hs : readSign u = (false, body) := by rw [hu]; rfl
    rw [readNumber_of_unsigned hs hbody, hx]
    rfl
  · have hs : readSign u = (true, body) := by rw [hu]; rfl
    rw [readNumber_of_unsigned hs hbody, hx]
    rfl

theorem ne_nil_of_isEmpty_false {α : Type} {l : List α} (h : l.isEmpty = false) : l ≠ [] := by
  intro hn
  rw [hn] at h
  exact Bool.noConfusion h

/-- Code to spec: what `readNumber` reads whole is a number in decimal notation, and the
number returned is the one it denotes. -/
theorem denotes_of_readNumber {u : List Char} {x : ℚ} (h : readNumber u = some (x, [])) :
    Denotes u x := by
  have hs : readSign u = ((readSign u).1, (readSign u).2) := rfl
  generalize (readSign u).1 = neg at hs
  have hcases := readSign_cases u
  have hsplit := List.takeWhile_append_dropWhile Char.isDigit (readSign u).2
  generalize hb : (readSign u).2 = b at hs hcases hsplit
  have hneg : (readSign u).1 = neg := by rw [hs]
  rw [hneg] at hcases
  have hip := allDigits_takeWhile b
  -- the unsigned part
  have hun : ∃ y, DenotesUnsigned b y ∧ x = if neg then -y else y := by
    by_cases hp : ∃ r2, b.dropWhile Char.isDigit = '.' :: r2
    · obtain ⟨r2, hr2⟩ := hp
      rw [readNumber_point u b r2 neg hs hr2] at h
      split at h
      · exact Option.noConfusion h
      · rename_i hemp
        have hfsplit := List.takeWhile_append_dropWhile Char.isDigit r2
        cases hre : readExponent (r2.dropWhile Char.isDigit) with
        | none => rw [hre] at h; exact Option.noConfusion h
        | some ex =>
          rw [hre] at h
          simp only at h
          injection h with h
          injection h with hx hrest
          obtain ⟨k, rest⟩ := ex
          simp only at hx hrest
          subst hrest
          refine ⟨((digitsVal (b.takeWhile Char.isDigit) : ℚ)
            + (digitsVal (r2.takeWhile Char.isDigit) : ℚ)
              / (10 : ℚ) ^ (r2.takeWhile Char.isDigit).length) * (10 : ℚ) ^ k, ?_, ?_⟩
          · refine ⟨b.takeWhile Char.isDigit, r2.takeWhile Char.isDigit,
              r2.dropWhile Char.isDigit, k, hip, allDigits_takeWhile r2, ?_,
              isExponent_of_read hre, ?_, rfl⟩
            · by_cases h1 : b.takeWhile Char.isDigit = []
              · right
                intro h2
                apply hemp
                rw [h1, h2]
                rfl
              · exact Or.inl h1
            · right
              rw [hfsplit, ← hr2, hsplit]
          · rw [← hx, pow10_eq]
            simp
    · have hnp : ∀ r2, b.dropWhile Char.isDigit ≠ '.' :: r2 := fun r2 h2 => hp ⟨r2, h2⟩
      rw [readNumber_nopoint u b _ neg hs rfl hnp] at h
      split at h
      · exact Option.noConfusion h
      · rename_i hemp
        cases hre : readExponent (b.dropWhile Char.isDigit) with
        | none => rw [hre] at h; exact Option.noConfusion h
        | some ex =>
          rw [hre] at h
          simp only at h
          injection h with h
          injection h with hx hrest
          obtain ⟨k, rest⟩ := ex
          simp only at hx hrest
          subst hrest
          refine ⟨((digitsVal (b.takeWhile Char.isDigit) : ℚ)
            + (digitsVal ([] : List Char) : ℚ) / (10 : ℚ) ^ ([] : List Char).length)
              * (10 : ℚ) ^ k, ?_, ?_⟩
          · refine ⟨b.takeWhile Char.isDigit, [], b.dropWhile Char.isDigit, k, hip,
              fun c hc => by simp at hc, ?_, isExponent_of_read hre, ?_, rfl⟩
            · left
              intro h1
              apply hemp
              rw [h1]
              rfl
            · left
              exact ⟨hsplit.symm, rfl⟩
          · rw [← hx, pow10_eq]
            simp [digitsVal]
  obtain ⟨y, hy, hxy⟩ := hun
  refine ⟨b, y, hy, ?_⟩
  rcases hcases with ⟨h1, h2⟩ | ⟨h1, h2⟩ | ⟨h1, h2⟩
  · right; right
    rw [h2] at hxy
    exact ⟨h1, by simpa using hxy⟩
  · right; left
    rw [h2] at hxy
    exact ⟨h1, by simpa using hxy⟩
  · left
    rw [h2] at hxy
    exact ⟨h1, by simpa using hxy⟩

/-- The characters that `readNumber` reads whole are exactly the numbers in decimal
notation. -/
theorem readNumber_iff_denotes (u : List Char) (x : ℚ) :
    readNumber u = some (x, []) ↔ Denotes u x :=
  ⟨denotes_of_readNumber, readNumber_of_denotes⟩

theorem denotes_unique {u : List Char} {x y : ℚ} (hx : Denotes u x) (hy : Denotes u y) :
    x = y := by
  have h1 := readNumber_of_denotes hx
  rw [readNumber_of_denotes hy] at h1
  injection h1 with h1
  injection h1 with h1 _
  exact h1.symm

theorem denotes_head {u : List Char} {x : ℚ} (h : Denotes u x) :
    ∃ c r, u = c :: r ∧ isspace c = false := by
  obtain ⟨body, y, hbody, hu⟩ := h
  rcases hu with ⟨hu, -⟩ | ⟨hu, -⟩ | ⟨hu, -⟩
  · obtain ⟨c, r, hcr, -, -, hsp⟩ := unsigned_head hbody
    exact ⟨c, r, by rw [hu, hcr], hsp⟩
  · exact ⟨'+', body, hu, by decide⟩
  · exact ⟨'-', body, hu, by decide⟩

theorem dropWhile_space {ws u : List Char} (hws : ∀ c ∈ ws, isspace c = true)
    (hu : ∀ c r, u = c :: r → isspace c = false) : (ws ++ u).dropWhile isspace = u := by
  induction ws with
  | nil =>
    cases u with
    | nil => rfl
    | cons c r =>
      rw [List.nil_append, List.dropWhile_cons, hu c r rfl]
      rfl
  | cons w ws ih =>
    rw [List.cons_append, List.dropWhile_cons, hws w (List.mem_cons_self _ _), if_pos rfl]
    exact ih (fun c hc => hws c (List.mem_cons_of_mem _ hc))

/-- The test of formula.cpp 76 in the words of the grammar: the string given is white space
followed by a number in decimal notation, and the result is the `double` of that number. -/
theorem parseWhole_of_denotes {t : String} {ws u : List Char} {x : ℚ} (ht : t.data = ws ++ u)
    (hws : ∀ c ∈ ws, isspace c = true) (hx : Denotes u x) : parseWhole t = toDouble x := by
  obtain ⟨c, r, hcr, hsp⟩ := denotes_head hx
  have hdrop : t.data.dropWhile isspace = u := by
    rw [ht]
    apply dropWhile_space hws
    intro c1 r1 h1
    rw [hcr] at h1
    injection h1 with h1 _
    rw [← h1]
    exact hsp
  unfold parseWhole extractDouble
  rw [hdrop, readNumber_of_denotes hx]
  simp only
  generalize toDouble x = o
  cases o <;> rfl

/-- A string on which the test succeeds is white space followed by a number in decimal
notation whose `double` is the result. -/
theorem denotes_of_parseWhole {t : String} {d : ℚ} (h : parseWhole t = some d) :
    ∃ ws u x, t.data = ws ++ u ∧ (∀ c ∈ ws, isspace c = true) ∧ Denotes u x
      ∧ toDouble x = some d := by
  unfold parseWhole extractDouble at h
  refine ⟨t.data.takeWhile isspace, t.data.dropWhile isspace, ?_⟩
  cases hr : readNumber (t.data.dropWhile isspace) with
  | none => rw [hr] at h; exact Option.noConfusion h
  | some xr =>
    obtain ⟨x, rest⟩ := xr
    rw [hr] at h
    simp only at h
    cases hd : toDouble x with
    | none => rw [hd] at h; exact Option.noConfusion h
    | some d1 =>
      rw [hd] at h
      simp only at h
      cases rest with
      | cons a l => exact Option.noConfusion h
      | nil =>
        simp only at h
        injection h with h
        subst h
        exact ⟨x, (List.takeWhile_append_dropWhile isspace t.data).symm,
          fun c hc => List.mem_takeWhile_imp hc, denotes_of_readNumber hr, hd⟩

/-- The reader at sample strings: exponents, fractions, leading zeros and white space are
read; a missing digit, a second point, trailing characters and trailing white space make the
test fail; the result is rounded to the nearest `double`, to 0 below the subnormal range, and
the extraction fails above the range of a `double`. -/
theorem parseWhole_examples :
    parseWhole "1e2" = some 100
    ∧ parseWhole "1E+2" = some 100
    ∧ parseWhole "25e-1" = some (5 / 2)
    ∧ parseWhole "-.5e1" = some (-5)
    ∧ parseWhole "5." = some 5
    ∧ parseWhole "0005" = some 5
    ∧ parseWhole "\t 12" = some 12
    ∧ parseWhole "0.1" = some (3602879701896397 / 36028797018963968)
    ∧ parseWhole "9007199254740993" = some 9007199254740992
    ∧ parseWhole "1e-999" = some 0
    ∧ parseWhole "1e999" = none
    ∧ parseWhole "-1e999" = none
    ∧ parseWhole "1.7976931348623159e308" = none
    ∧ parseWhole "1e" = none
    ∧ parseWhole "1e+" = none
    ∧ parseWhole "." = none
    ∧ parseWhole "-" = none
    ∧ parseWhole "1.5.2" = none
    ∧ parseWhole "0x10" = none
    ∧ parseWhole "12abc" = none
    ∧ parseWhole "12 " = none
    ∧ parseWhole "abc" = none := by
  decide!

/-- The unread rest of an extraction, and its failure when `e` is followed by no digit. -/
theorem extractDouble_examples :
    extractDouble ("12abc" : String).data = some (12, ("abc" : String).data)
    ∧ extractDouble ("1e5e3" : String).data = some (100000, ("e3" : String).data)
    ∧ extractDouble ("1.5.2" : String).data = some (3 / 2, (".2" : String).data)
    ∧ extractDouble ("0x10" : String).data = some (0, ("x10" : String).data)
    ∧ extractDouble ("1ex" : String).data = none
    ∧ extractDouble ("x1" : String).data = none := by
  decide!

/-- Rounding to `double`: 2^53 + 1 is a tie and goes to the even neighbour 2^53, the largest
`double` is kept, 2^1024 - 2^970 and everything above overflow, half the smallest subnormal
and everything below become 0. -/
theorem toDouble_examples :
    toDouble (2 ^ 53 + 1 : Nat) = some ((2 ^ 53 : Nat) : ℚ)
    ∧ toDouble (2 ^ 53 + 3 : Nat) = some ((2 ^ 53 + 4 : Nat) : ℚ)
    ∧ toDouble (1 / 3) = some (6004799503160661 / 18014398509481984)
    ∧ toDouble ((2 ^ 1024 - 2 ^ 971 : Nat) : ℚ) = some ((2 ^ 1024 - 2 ^ 971 : Nat) : ℚ)
    ∧ toDouble ((2 ^ 1024 - 2 ^ 970 - 1 : Nat) : ℚ) = some ((2 ^ 1024 - 2 ^ 971 : Nat) : ℚ)
    ∧ toDouble ((2 ^ 1024 - 2 ^ 970 : Nat) : ℚ) = none
    ∧ toDouble (-((2 ^ 1024 : Nat) : ℚ)) = none
    ∧ toDouble (pow2 (-1074)) = some (pow2 (-1074))
    ∧ toDouble (pow2 (-1075)) = some 0
    ∧ toDouble (3 * pow2 (-1075)) = some (pow2 (-1073))
    ∧ toDouble (-(5 / 4)) = some (-(5 / 4)) := by
  decide!

/-- The loop of `log2` counts the binary digits after the first. -/
theorem halvings_eq (fuel : Nat) : ∀ n acc, n ≤ fuel → halvings fuel n acc = acc + Nat.log2 n := by
  induction fuel with
  | zero =>
    intro n acc h
    have : n = 0 := by omega
    subst this
    simp [halvings, Nat.log2]
  | succ f ih =>
    intro n acc h
    unfold halvings
    rw [Nat.log2]
    by_cases h2 : 2 ≤ n
    · rw [if_pos h2, if_pos h2, ih (n / 2) (acc + 1) (by omega)]
      omega
    · rw [if_neg h2, if_neg h2]
      rfl

/-- The exponent `toDouble` works with is the binary logarithm rounded down. -/
theorem log2_eq (n : Nat) : log2 n = Nat.log2 n := by
  unfold log2
  rw [halvings_eq n n 0 (Nat.le_refl n)]
  omega

theorem pow2_eq (k : Int) : pow2 k = (2 : ℚ) ^ k := by
  unfold pow2
  split
  · rename_i h
    obtain ⟨n, rfl⟩ := Int.eq_ofNat_of_zero_le h
    simp
  · rename_i h
    obtain ⟨n, hn⟩ := Int.exists_eq_neg_ofNat (le_of_lt (not_le.mp h))
    subst hn
    simp

/-- Rounding to `double` keeps every natural number below 2^53 as it is. -/
theorem toDouble_nat (n : Nat) (h : n < 2 ^ 53) : toDouble (n : ℚ) = some (n : ℚ) := by
  rcases Nat.eq_zero_or_pos n with h0 | h0
  · subst h0
    simp [toDouble]
  have hne : n ≠ 0 := by omega
  have hL : Nat.log2 n < 53 := (Nat.log2_lt hne).mpr h
  have hlo : 2 ^ Nat.log2 n ≤ n := Nat.log2_self_le hne
  have hq0 : ((n : ℚ) = 0) = False := by
    simp [hne]
  have hneg : ¬ ((n : ℚ) < 0) := by
    simp
  unfold toDouble
  simp only [hq0, if_false, if_neg hneg, log2_eq, Rat.num_natCast, Rat.den_natCast,
    Int.natAbs_ofNat]
  have hl1 : Nat.log2 1 = 0 := by
    rw [Nat.log2]
    rfl
  simp only [hl1, Nat.cast_zero, sub_zero]
  have hge : ¬ ((n : ℚ) < pow2 (Nat.log2 n : Int)) := by
    rw [pow2_eq, zpow_natCast, not_lt]
    exact_mod_cast hlo
  simp only [if_neg hge]
  have hmax : max (Nat.log2 n : Int) (-1022) - 52 = -((52 - Nat.log2 n : Nat) : Int) := by
    omega
  rw [hmax]
  have hq : pow2 (-((52 - Nat.log2 n : Nat) : Int)) = ((2 : ℚ) ^ (52 - Nat.log2 n))⁻¹ := by
    rw [pow2_eq, zpow_neg, zpow_natCast]
  rw [hq]
  set j := 52 - Nat.log2 n with hj
  have hm : (n : ℚ) / ((2 : ℚ) ^ j)⁻¹ = (((n * 2 ^ j : Nat) : Int) : ℚ) := by
    rw [div_inv_eq_mul]
    push_cast
    rfl
  simp only [hm]
  have hfl : Rat.floor (((n * 2 ^ j : Nat) : Int) : ℚ) = ((n * 2 ^ j : Nat) : Int) := 
    rfl
  simp only [hfl, sub_self]
  norm_num
  intro hh
  exfalso
  have h1 : (n : ℚ) < ((2 ^ 53 : Nat) : ℚ) := by
    exact_mod_cast h
  have h2 : ((2 ^ 53 : Nat) : ℚ) ≤ pow2 1024 := by
    decide!
  exact absurd (lt_of_lt_of_le h1 h2) (not_lt.mpr hh)

/-- A Literal that is a run of digits writing a number below 2^53 reads as exactly that number. -/
theorem parseWhole_integer (ds : List Char) (hne : ds ≠ []) (hd : AllDigits ds)
    (hlt : digitsVal ds < 2 ^ 53) : parseWhole ⟨ds⟩ = some (digitsVal ds : ℚ) := by
  have hx : Denotes ds (digitsVal ds : ℚ) := by
    refine ⟨ds, (digitsVal ds : ℚ), ⟨ds, [], [], 0, hd, ?_, Or.inl hne, Or.inl ⟨rfl, rfl⟩,
      Or.inl ⟨by simp, rfl⟩, ?_⟩, Or.inl ⟨rfl, rfl⟩⟩
    · intro c hc
      cases hc
    · simp [digitsVal]
  have h : parseWhole ⟨ds⟩ = toDouble (digitsVal ds : ℚ) :=
    @parseWhole_of_denotes ⟨ds⟩ [] ds _ rfl (fun c hc => by cases hc) hx
  rw [h]
  exact toDouble_nat _ hlt

/-! ## The claims on lookup and evaluation -/

/-- C10 (counterexample): the Literal " 12" is not a number in decimal notation, a space
stands before the number, yet the lookup yields 12 instead of raising FormulaError(Value);
the Literal "1e999" is as a whole a number in decimal notation, yet the lookup raises
FormulaError(Value) instead of yielding the number, which is too large for a `double`; and
the Literal "1e-999" denotes a number that is not 0, yet the lookup yields 0. -/
theorem lookup_accepts_leading_space :
    ((Sheet.GetValue 2 A1 spaceSheet).value = some (some (.str " 12"))
      ∧ (¬ ∃ x, Denotes (" 12" : String).data x)
      ∧ (Formula.functor (Cell.GetValue 2) A1 spaceSheet).value = some 12)
    ∧ ((Sheet.GetValue 2 A1 hugeSheet).value = some (some (.str "1e999"))
      ∧ Denotes ("1e999" : String).data ((10 ^ 999 : Nat) : ℚ)
      ∧ (Formula.functor (Cell.GetValue 2) A1 hugeSheet).thrown = some (.FormulaError .Value))
    ∧ ((Sheet.GetValue 2 A1 tinySheet).value = some (some (.str "1e-999"))
      ∧ Denotes ("1e-999" : String).data (1 / ((10 ^ 999 : Nat) : ℚ))
      ∧ (Formula.functor (Cell.GetValue 2) A1 tinySheet).value = some 0) := by
  refine ⟨⟨by decide!, ?_, by decide!⟩, ⟨by decide!, ?_, by decide!⟩,
    ⟨by decide!, ?_, by decide!⟩⟩
  · rintro ⟨x, hx⟩
    have h1 := readNumber_of_denotes hx
    have h2 : readNumber (" 12" : String).data = none := by decide!
    rw [h2] at h1
    exact Option.noConfusion h1
  · apply denotes_of_readNumber
    decide!
  · apply denotes_of_readNumber
    decide!

/-- C10 (amended): the lookup callback of `Formula::Evaluate` (a) raises FormulaError(Ref) at
an invalid position; (b) yields 0 where no cell exists; and, where a cell exists whose
`GetValue` is `v`: (c) yields the number if `v` is a number; (d) yields 0 if `v` is the empty
string; (e) if `v` is a non-empty string that consists of white space followed by a number
in decimal notation with nothing after it, yields the `double` nearest to the number it
denotes and raises FormulaError(Value) when that number is too large for a `double`, and
raises FormulaError(Value) for every other non-empty string; (f) raises the same
FormulaError if `v` is a FormulaError. -/
theorem lookup_rules (fuel : Nat) (s : Sheet) (p : Position) :
    (p.IsValid = false →
      Formula.functor (Cell.GetValue fuel) p s = .throw (.FormulaError .Ref) s)
    ∧ (p.IsValid = true → s.slot p = none →
      Formula.functor (Cell.GetValue fuel) p s = .ok 0 s)
    ∧ (∀ (c : Cell) (v : Value) (s1 : Sheet), p.IsValid = true → s.slot p = some c →
        Cell.GetValue fuel ⟨p, c.stamp⟩ s = .ok v s1 →
        match v with
        | .num x => ∃ s2, Formula.functor (Cell.GetValue fuel) p s = .ok x s2
        | .str t =>
          if t.data = [] then ∃ s2, Formula.functor (Cell.GetValue fuel) p s = .ok 0 s2
          else
            (∀ (ws u : List Char) (x : ℚ), t.data = ws ++ u →
              (∀ c ∈ ws, isspace c = true) → Denotes u x →
              match toDouble x with
              | some d => ∃ s2, Formula.functor (Cell.GetValue fuel) p s = .ok d s2
              | none => ∃ s2, Formula.functor (Cell.GetValue fuel) p s
                  = .throw (.FormulaError .Value) s2)
            ∧ ((¬ ∃ (ws u : List Char) (x : ℚ), t.data = ws ++ u
                ∧ (∀ c ∈ ws, isspace c = true) ∧ Denotes u x) →
              ∃ s2, Formula.functor (Cell.GetValue fuel) p s
                = .throw (.FormulaError .Value) s2)
        | .err fe => ∃ s2, Formula.functor (Cell.GetValue fuel) p s
            = .throw (.FormulaError fe) s2) := by
  refine ⟨?_, ?_, ?_⟩
  · intro hv
    unfold Formula.functor
    simp only [hv, Bool.not_false, if_true]
    rfl
  · intro hv hs
    unfold Formula.functor Sheet.GetCell
    simp only [hv, Bool.not_true, Bool.false_eq_true, if_false]
    rw [bind_ok (GetCellPtr_valid s p hv)]
    simp only [Sheet.ptrAt, hs, Option.map_none']
    rfl
  · intro c v s1 hv hs hg
    have hcell := cellAt_of_slot hs
    have hspec := GetValue_ok_spec hcell hg
    have hA := functor_agrees fuel (GetValue_agrees fuel) s p
    unfold specLookup at hA
    simp only [hv, Bool.not_true, Bool.false_eq_true, if_false, hs, hspec] at hA
    cases v with
    | num x =>
      obtain ⟨s2, h2, -⟩ := hA
      exact ⟨s2, h2⟩
    | err fe =>
      obtain ⟨s2, h2, -⟩ := hA
      exact ⟨s2, h2⟩
    | str t =>
      simp only at hA ⊢
      by_cases ht : t.data = []
      · rw [if_pos ht]
        have ht2 : t.data.isEmpty = true := by rw [ht]; rfl
        simp only [ht2, if_true] at hA
        obtain ⟨s2, h2, -⟩ := hA
        exact ⟨s2, h2⟩
      · rw [if_neg ht]
        have ht2 : t.data.isEmpty = false := by
          cases hd : t.data with
          | nil => exact absurd hd ht
          | cons a l => rfl
        simp only [ht2, Bool.false_eq_true, if_false] at hA
        constructor
        · intro ws u x hsplit hws hx
          rw [parseWhole_of_denotes hsplit hws hx] at hA
          cases hd : toDouble x with
          | none =>
            rw [hd] at hA
            obtain ⟨s2, h2, -⟩ := hA
            exact ⟨s2, h2⟩
          | some d =>
            rw [hd] at hA
            obtain ⟨s2, h2, -⟩ := hA
            exact ⟨s2, h2⟩
        · intro hno
          cases hp : parseWhole t with
          | none =>
            rw [hp] at hA
            obtain ⟨s2, h2, -⟩ := hA
            exact ⟨s2, h2⟩
          | some d =>
            obtain ⟨ws, u, x, h1, h2, h3, -⟩ := denotes_of_parseWhole hp
            exact absurd ⟨ws, u, x, h1, h2, h3⟩ hno

/-- C10, witness of the amended rules: at the Literal " 12", a space followed by the number
12, the lookup yields 12. -/
theorem lookup_rules_witness :
    ∃ s2, Formula.functor (Cell.GetValue 2) A1 spaceSheet = .ok 12 s2 := by
  have h := (lookup_rules 2 spaceSheet A1).2.2 ⟨0, .TextImpl " 12", [], []⟩ (.str " 12")
    spaceSheet (by decide) (by decide!) (by decide!)
  simp only at h
  rw [if_neg (by decide)] at h
  have hd : Denotes ("12" : String).data 12 := denotes_of_readNumber (by decide!)
  have h2 := h.1 [' '] ("12" : String).data 12 rfl (by decide) hd
  rw [show toDouble 12 = some 12 by decide!] at h2
  exact h2

/-- On the cyclic sheet the evaluation in the words of the spec ends at no depth. -/
theorem specValue_cycleSheet (n : Nat) :
    specValue cycleSheet n (.FormulaImpl (.CellRef B1) none) = none
    ∧ specValue cycleSheet n (.FormulaImpl (.CellRef C1) none) = none
    ∧ specValue cycleSheet n (.FormulaImpl (.CellRef A1) none) = none := by
  have hA : cycleSheet.slot A1
      = some ⟨0, .FormulaImpl (.CellRef B1) none, [⟨C1, 2⟩], [⟨B1, 1⟩]⟩ := by decide!
  have hB : cycleSheet.slot B1
      = some ⟨1, .FormulaImpl (.CellRef C1) none, [⟨A1, 0⟩], [⟨C1, 2⟩]⟩ := by decide!
  have hC : cycleSheet.slot C1
      = some ⟨2, .FormulaImpl (.CellRef A1) none, [⟨B1, 1⟩], [⟨A1, 0⟩]⟩ := by decide!
  have vA : A1.IsValid = true := by decide
  have vB : B1.IsValid = true := by decide
  have vC : C1.IsValid = true := by decide
  induction n with
  | zero => exact ⟨rfl, rfl, rfl⟩
  | succ n ih =>
    obtain ⟨ihB, ihC, ihA⟩ := ih
    refine ⟨?_, ?_, ?_⟩
    · unfold specValue
      simp only [specExecute, specLookup, vB, Bool.not_true, Bool.false_eq_true, if_false, hB,
        ihC]
    · unfold specValue
      simp only [specExecute, specLookup, vC, Bool.not_true, Bool.false_eq_true, if_false, hC,
        ihA]
    · unfold specValue
      simp only [specExecute, specLookup, vA, Bool.not_true, Bool.false_eq_true, if_false, hA,
        ihB]

/-- C7 (the code at the failing input): on the sheet reached by `SetCell(A1, "=B1")`,
`SetCell(B1, "=C1")`, `SetCell(C1, "=A1")`, all three accepted, `GetValue(A1)` evaluates B1,
which evaluates C1, which evaluates A1 again: the call returns with no call budget.  On the
spec's own scenario the code gives the values the claim names: with A1 = "2", A2 = "=A1*3",
A3 = "=A2+A1", `GetValue(A3)` is 8, and after `SetCell(A1, "10")` it is 40. -/
theorem GetValue_never_returns_on_cycle :
    Reachable cycleSheet
    ∧ (∀ fuel, Sheet.GetValue fuel A1 cycleSheet = .overflow)
    ∧ (∃ s1, Sheet.GetValue 4 A3 chainSheet = .ok (some (.num 8)) s1)
    ∧ (∃ s1, Sheet.GetValue 4 A3 chainSheet10 = .ok (some (.num 40)) s1) := by
  refine ⟨?_, ?_, ?_, ?_⟩
  · apply reachable_trace 4 [.SetCell A1 "=B1", .SetCell B1 "=C1", .SetCell C1 "=A1"]
      Sheet.empty cycleSheet Reachable.empty
    decide!
  · intro fuel
    have h := Sheet_GetValue_agrees fuel cycleSheet A1
      ⟨0, .FormulaImpl (.CellRef B1) none, [⟨C1, 2⟩], [⟨B1, 1⟩]⟩ (by decide) (by decide!)
    rw [(specValue_cycleSheet fuel).1] at h
    exact h
  · have h := Sheet_GetValue_agrees 4 chainSheet A3
      ⟨2, .FormulaImpl (.Binary .Add (.CellRef A2) (.CellRef A1)) none, [], [⟨A2, 1⟩, ⟨A1, 0⟩]⟩
      (by decide) (by decide!)
    rw [show specValue chainSheet 4
      (Impl.FormulaImpl (.Binary .Add (.CellRef A2) (.CellRef A1)) none) = some (.num 8)
      by decide!] at h
    obtain ⟨s1, h1, -⟩ := h
    exact ⟨s1, h1⟩
  · have h := Sheet_GetValue_agrees 4 chainSheet10 A3
      ⟨2, .FormulaImpl (.Binary .Add (.CellRef A2) (.CellRef A1)) none, [], [⟨A2, 1⟩, ⟨A1, 0⟩]⟩
      (by decide) (by decide!)
    rw [show specValue chainSheet10 4
      (Impl.FormulaImpl (.Binary .Add (.CellRef A2) (.CellRef A1)) none) = some (.num 40)
      by decide!] at h
    obtain ⟨s1, h1, -⟩ := h
    exact ⟨s1, h1⟩

end Spreadsheet
